import Mathlib

/-!
ClipFlow: the hierarchical tag taxonomy engine.

A shallow embedding of the tag engine of ClipFlow (`src/config.js`, `src/state.js`,
`src/ui-render.js`, `src/js/storage.js`) together with theorems about it.

Modelling conventions.

* A JavaScript object used as a map from tag ids to tag nodes (`State.categories`, the
  `children` field of a node) is a `TagTree`: the entries in key iteration order.  Tag ids are
  strings that are neither canonical array indices nor `__proto__` (they are produced by
  `generateTagId`, which starts every id with `tag_`), so an assignment `obj[id] = node` stores
  an own property and key iteration order is insertion order.
* `State.tagMap` maps a tag id to a *reference* to the node object that the tree stores under
  that id (`buildTagMap` and `addCategory` store the tree's own objects).  The embedding keeps the
  key list of `State.tagMap`; the reference stored under a key is resolved by locating that key in
  `State.categories`.  This is exact for the states of the data model, in which an id occurs once
  in the whole tree and every key of the index occurs in the tree.
* A JavaScript string is falsy exactly when it is empty; `null` and `undefined` are `none`.
* The index and the local object of `getParentTags` are plain objects, on which a lookup
  `obj[key]` also finds what the object inherits from `Object.prototype`
  (`objectPrototypeKeys`).  `getBreadcrumbPath`, `getTagFullName` and `getParentTags` read the
  object themselves, and their embeddings follow such a lookup.  `State.getTagById` hands the
  value it finds to callers that use it as a tag node; `getTagById` describes it on the keys that
  name no inherited property, and the statements about a call that looks up an arbitrary id say
  so in a hypothesis.
-/

namespace ClipFlow

/-! ## JavaScript helpers -/

/-- The names of the properties that a plain object inherits from `Object.prototype`, in an
environment in which no script has added to it.  Under each of them the lookup `obj[key]` finds a
truthy value (a function, and under `__proto__` the prototype itself), also when `key` is not an
own property of `obj`. -/
def objectPrototypeKeys : List String :=
  ["constructor", "__defineGetter__", "__defineSetter__", "hasOwnProperty", "__lookupGetter__",
    "__lookupSetter__", "isPrototypeOf", "propertyIsEnumerable", "toString", "valueOf",
    "__proto__", "toLocaleString"]

/-- The value of `x || null` for a nullable string `x`: the empty string is falsy. -/
def truthyId : Option String → Option String
  | some p => if p = "" then none else some p
  | none => none

/-- The array `[...new Set(xs)]`: the first occurrence of every element, in order. -/
def dedupe : List String → List String
  | [] => []
  | x :: xs => x :: (dedupe xs).filter (fun y => y != x)

/-- The key list of a JavaScript object after `obj[k] = v`: an existing key keeps its place, a new
key goes last. -/
def setKey (keys : List String) (k : String) : List String :=
  if k ∈ keys then keys else keys ++ [k]

/-- The value of `xs.indexOf(x)`: the first index holding `x`, or `-1`. -/
def jsIndexOf : List String → String → Int
  | [], _ => -1
  | y :: ys, x => if y = x then 0 else
      let r := jsIndexOf ys x
      if r < 0 then -1 else r + 1

/-- The array after `xs.splice(start, 0, x)`, where `start` is `null` (read as `0`) or an integer:
a negative start counts from the end, and the start is clamped to `0 .. xs.length`. -/
def jsSpliceInsert (xs : List String) (start : Option Int) (x : String) : List String :=
  let st : Int := start.getD 0
  let len : Int := xs.length
  let pos : Int := if st < 0 then max (len + st) 0 else min st len
  xs.take pos.toNat ++ x :: xs.drop pos.toNat

/-- White space and line terminators removed by `String.prototype.trim`. -/
def isJsWhitespace (c : Char) : Bool :=
  let n := c.toNat
  n = 9 || n = 10 || n = 11 || n = 12 || n = 13 || n = 32 || n = 160 || n = 5760 ||
  (8192 ≤ n && n ≤ 8202) || n = 8232 || n = 8233 || n = 8239 || n = 8287 || n = 12288 ||
  n = 65279

/-- The value of `s.trim()`. -/
def jsTrim (s : String) : String :=
  String.mk ((s.data.dropWhile isJsWhitespace).reverse.dropWhile isJsWhitespace).reverse

/-! ## Data model -/

/-- A JavaScript object mapping tag ids to tag nodes, in key iteration order.  An entry is the key
together with the fields `id`, `name`, `parentId`, `children` and `order` of the node stored under
it; `order` is `none` for a node without an order list (legacy data). -/
inductive TagTree where
  | nil : TagTree
  | node (key : String) (id : String) (name : String) (parentId : Option String)
      (children : TagTree) (order : Option (List String)) (rest : TagTree) : TagTree
deriving DecidableEq, Repr

/-- A tag node `{ id, name, parentId, children, order }` (`state.js` line 18). -/
structure Tag where
  id : String
  name : String
  parentId : Option String
  children : TagTree
  order : Option (List String)
deriving DecidableEq, Repr

namespace TagTree

/-- The object with the entry `key ↦ tag` put in front of the entries of `rest`. -/
def cons (key : String) (tag : Tag) (rest : TagTree) : TagTree :=
  .node key tag.id tag.name tag.parentId tag.children tag.order rest

/-- The list `Object.keys(obj)`. -/
def keys : TagTree → List String
  | .nil => []
  | .node key _ _ _ _ _ rest => key :: rest.keys

/-- The list `Object.values(obj)`. -/
def values : TagTree → List Tag
  | .nil => []
  | .node _ id name parentId children order rest => ⟨id, name, parentId, children, order⟩ :: rest.values

/-- The entries of the object: every key with the node stored under it. -/
def entries : TagTree → List (String × Tag)
  | .nil => []
  | .node key id name parentId children order rest =>
      (key, ⟨id, name, parentId, children, order⟩) :: rest.entries

/-- The value of `obj[k]`, `none` when `k` is not a key. -/
def get : TagTree → String → Option Tag
  | .nil, _ => none
  | .node key id name parentId children order rest, k =>
      if key = k then some ⟨id, name, parentId, children, order⟩ else rest.get k

/-- The object after `obj[k] = tag`. -/
def set : TagTree → String → Tag → TagTree
  | .nil, k, tag => cons k tag .nil
  | .node key id name parentId children order rest, k, tag =>
      if key = k then cons key tag rest
      else .node key id name parentId children order (rest.set k tag)

/-- The object after `delete obj[k]`. -/
def delete : TagTree → String → TagTree
  | .nil, _ => .nil
  | .node key id name parentId children order rest, k =>
      if key = k then rest else .node key id name parentId children order (rest.delete k)

/-- Every key of the tree, at every depth, a node before its children and its later siblings. -/
def allKeys : TagTree → List String
  | .nil => []
  | .node key _ _ _ children _ rest => key :: (children.allKeys ++ rest.allKeys)

end TagTree

/-- The function `findTagById(categories, tagId)` of `config.js` lines 131-141: the first node
stored under `tagId`, searching each entry before its children and its later siblings. -/
def findTagById : TagTree → String → Option Tag
  | .nil, _ => none
  | .node key id name parentId children order rest, tagId =>
      if tagId = "" then none
      else if key = tagId then some ⟨id, name, parentId, children, order⟩
      else match findTagById children tagId with
        | some found => some found
        | none => findTagById rest tagId

/-- A write through the reference that the index holds for `tagId`: the node that `findTagById`
locates is replaced by `f` of it. -/
def TagTree.update : TagTree → String → (Tag → Tag) → TagTree
  | .nil, _, _ => .nil
  | .node key id name parentId children order rest, tagId, f =>
      if key = tagId then TagTree.cons key (f ⟨id, name, parentId, children, order⟩) rest
      else if (findTagById children tagId).isSome then
        .node key id name parentId (children.update tagId f) order rest
      else .node key id name parentId children order (rest.update tagId f)

/-- A note of the item store: `id`, `content` and `categories`, the list of tag ids it refers to
(the display-only fields `date` and `expanded` are left out). -/
structure Note where
  id : Nat
  content : String
  categories : List String
deriving DecidableEq, Repr

/-- The two values of `State.filterMode`. -/
inductive FilterMode where
  | OR
  | AND
deriving DecidableEq, Repr

/-- The fields of the `State` object (`state.js` lines 8-32) that the tag engine reads or writes.
`tagMap` is the key list of the index object. -/
structure State where
  notes : List Note
  categories : TagTree
  rootOrder : List String
  tagMap : List String
  activeFilters : List String
  filterMode : FilterMode
  editingNoteId : Option Nat
  selectedInputTags : List String
  tagSelectPath : List String
  selectedParentTagId : Option String
deriving DecidableEq, Repr

/-- The state set up by `State.init` when no project is loaded (`state.js` lines 61-80). -/
def State.empty : State :=
  { notes := [], categories := .nil, rootOrder := [], tagMap := [], activeFilters := [],
    filterMode := .OR, editingNoteId := none, selectedInputTags := [], tagSelectPath := [],
    selectedParentTagId := none }

/-! ## Index -/

/-- The function `buildTagMap(categories, tagMap)` of `config.js` lines 114-128, on key lists: every
entry whose node has a truthy `id` is stored under its key and its children are scanned; an entry
whose node has a falsy `id` is skipped together with its children. -/
def buildTagMap : TagTree → List String → List String
  | .nil, tagMap => tagMap
  | .node key id _ _ children _ rest, tagMap =>
      if id = "" then buildTagMap rest tagMap
      else buildTagMap rest (buildTagMap children (setKey tagMap key))

/-- The method `State.rebuildTagMap` (`state.js` lines 237-239). -/
def rebuildTagMap (s : State) : State :=
  { s with tagMap := buildTagMap s.categories [] }

/-- The method `State.getTagById` (`state.js` lines 271-278): `null` for a falsy id or an id that
is not a key of the index, otherwise the node the index refers to.  The index is a plain object:
for an id of `objectPrototypeKeys` that is not a key of the index the source finds the inherited
value and returns it, which is no tag node and which this function does not describe. -/
def getTagById (s : State) (tagId : String) : Option Tag :=
  if tagId = "" ∨ tagId ∉ s.tagMap then none else findTagById s.categories tagId

/-- The `name` of the value that a plain object inherits under a key of `objectPrototypeKeys`:
the name of the inherited function, which is `Object` under `constructor`; the prototype found
under `__proto__` has no `name`, which `join` renders as the empty string. -/
def inheritedName (key : String) : String :=
  if key = "constructor" then "Object" else if key = "__proto__" then "" else key

/-- The ascent loop of `getBreadcrumbPath` (`config.js` lines 152-157) run for at most `fuel`
iterations: `none` when the loop is still running after them.  The lookup `tagMap[currentId]`
finds the indexed node, and for an id that is not a key of the index the value inherited under
it, which has a `name` and no `parentId`. -/
def ascend (s : State) : Nat → Option String → List String → Option (List String)
  | 0, _, _ => none
  | fuel + 1, currentId, path =>
      match truthyId currentId with
      | none => some path
      | some cur =>
          match getTagById s cur with
          | none =>
              if cur ∉ s.tagMap ∧ cur ∈ objectPrototypeKeys then some (inheritedName cur :: path)
              else some path
          | some tag => ascend s fuel tag.parentId (tag.name :: path)

/-- The function `getBreadcrumbPath(tagMap, tagId)` of `config.js` lines 143-160 applied to the
index of `s`.  The outer `none` stands for a loop that does not terminate: the loop body runs once
per visited key, so once it has run more often than the index has keys it runs forever.  The inner
option is the returned value, `none` for `null`. -/
def getBreadcrumbPath (s : State) (tagId : String) : Option (Option String) :=
  match getTagById s tagId with
  | none =>
      if tagId ∉ s.tagMap ∧ tagId ∈ objectPrototypeKeys then some (some (inheritedName tagId))
      else some none
  | some _ =>
      (ascend s (s.tagMap.length + 1) (some tagId) []).map fun path =>
        if path.length > 0 then some (String.intercalate " / " path) else none

/-! ## Filtering -/

/-- The closure `collectChildren` of `getAllDescendantIds` (`state.js` lines 493-512): every truthy
key of `children` is pushed onto `result`, followed by the keys below it.  The source recurses only
into a non-empty `children` object; on an empty one the recursion pushes nothing. -/
def collectChildren : TagTree → List String → List String
  | .nil, result => result
  | .node childId _ _ _ children _ rest, result =>
      if childId = "" then collectChildren rest result
      else collectChildren rest (collectChildren children (result ++ [childId]))

/-- The method `State.getAllDescendantIds` (`state.js` lines 478-521). -/
def getAllDescendantIds (s : State) (tagId : String) : List String :=
  if tagId = "" then []
  else match getTagById s tagId with
    | none => [tagId]
    | some tag => dedupe ((collectChildren tag.children [tagId]).filter (fun id => id != ""))

/-- The set `toRemove` built by the redundancy loop of `getFilteredNotes` (`state.js` lines
536-554), as the list of its elements in insertion order. -/
def toRemove (s : State) : List String :=
  let deduplicatedFilters := s.activeFilters
  (List.range deduplicatedFilters.length).foldl (fun acc i =>
    let tagId := deduplicatedFilters.getD i ""
    if tagId = "" then acc
    else
      let descendantIds := getAllDescendantIds s tagId
      if (List.range deduplicatedFilters.length).any
          (fun j => i != j && descendantIds.contains (deduplicatedFilters.getD j ""))
      then setKey acc tagId else acc) []

/-- The list `cleanedFilters` of `getFilteredNotes` (`state.js` line 557): the effective filter
list after redundancy elimination. -/
def cleanedFilters (s : State) : List String :=
  s.activeFilters.filter (fun tagId => !(toRemove s).contains tagId)

/-- The list `expandedFiltersList` of `getFilteredNotes` (`state.js` lines 566-575). -/
def expandedFiltersList (s : State) : List (List String) :=
  ((cleanedFilters s).map (fun tagId =>
    if tagId = "" then []
    else (getAllDescendantIds s tagId).filter (fun id => id != ""))).filter
      (fun set => set.length > 0)

/-- The list `allFilterIds` of `getFilteredNotes` (`state.js` line 583). -/
def allFilterIds (s : State) : List String :=
  dedupe (expandedFiltersList s).flatten

/-- The method `State.getFilteredNotes` (`state.js` lines 528-619). -/
def getFilteredNotes (s : State) : List Note :=
  if s.activeFilters.length = 0 then s.notes
  else if (cleanedFilters s).length = 0 then s.notes
  else if (expandedFiltersList s).length = 0 then s.notes
  else match s.filterMode with
    | .AND =>
        s.notes.filter (fun note =>
          if note.categories.length = 0 then false
          else (expandedFiltersList s).all (fun expandedSet =>
            note.categories.any (fun catId =>
              if catId = "" then false else expandedSet.contains catId)))
    | .OR =>
        s.notes.filter (fun note =>
          if note.categories.length = 0 then false
          else note.categories.any (fun catId =>
            if catId = "" then false else (allFilterIds s).contains catId))

/-! ## Creating, renaming, deleting and moving tags -/

/-- What one iteration of the loop of `generateTagId` reads from its environment: the decimal
digits of `Date.now()`, the random part of the id, and the random suffix of the fallback id. -/
structure IdAttempt where
  timestamp : String
  randomPart : String
  fallbackRandom : String
deriving DecidableEq, Repr

/-- The function `generateTagId(tagMap)` of `config.js` lines 28-95, reading the environment of
its successive iterations from a list; `attempts` is the number of iterations already made.  The
result is `none` when the list is used up before the loop has ended. -/
def generateTagId (checkMap : List String) : List IdAttempt → Nat → Option String
  | [], _ => none
  | a :: more, attempts =>
      let tagId := "tag_" ++ a.timestamp ++ "_" ++ a.randomPart
      if tagId ∈ checkMap then
        if attempts + 1 ≥ 100 then
          let fallbackId := "tag_" ++ a.timestamp ++ "_" ++ a.randomPart ++ "_" ++
            toString (attempts + 1) ++ "_" ++ a.fallbackRandom
          if fallbackId ∈ checkMap then generateTagId checkMap more (attempts + 1)
          else some fallbackId
        else generateTagId checkMap more (attempts + 1)
      else some tagId

/-- The loop of `getCurrentTagTree` (`state.js` lines 310-327) over the rest of the selector path:
the valid part of the path so far and the tag whose `children` is the current target (`none` for
`State.categories`). -/
def validPathLoop (s : State) : List String → List String × Option String →
    List String × Option String
  | [], acc => acc
  | tagId :: more, (validPath, owner) =>
      match getTagById s tagId with
      | some _ => validPathLoop s more (validPath ++ [tagId], some tagId)
      | none => (validPath, owner)

/-- The method `State.getCurrentTagTree` (`state.js` lines 306-333): the state with the selector
path cut down to its valid part, and the owner of the returned object, `none` when the returned
object is `State.categories` and `some t` when it is the `children` of tag `t`. -/
def getCurrentTagTree (s : State) : State × Option String :=
  let r := validPathLoop s s.tagSelectPath ([], none)
  ({ s with tagSelectPath := r.1 }, r.2)

/-- The object that an owner returned by `getCurrentTagTree` stands for. -/
def targetTree (s : State) : Option String → TagTree
  | none => s.categories
  | some owner =>
      match getTagById s owner with
      | some tag => tag.children
      | none => .nil

/-- The method `State.addCategory` (`state.js` lines 859-920).  `attempts` is the environment read
by `generateTagId`; the result is `none` when `generateTagId` does not return on it, and otherwise
the new state with the returned value (`none` for `null`). -/
def addCategory (s : State) (attempts : List IdAttempt) (categoryName : String)
    (parentId : Option String) : Option (State × Option String) :=
  if categoryName = "" ∨ jsTrim categoryName = "" then some (s, none)
  else match truthyId parentId with
    | some pid =>
        match getTagById s pid with
        | none => some (s, none)
        | some parentTag =>
            if parentTag.children.values.any (fun tag => tag.name = jsTrim categoryName) then
              some (s, none)
            else
              (generateTagId s.tagMap attempts 0).map fun tagId =>
                let newTag : Tag := ⟨tagId, jsTrim categoryName, parentId, .nil, some []⟩
                ({ s with
                    categories := s.categories.update pid (fun p =>
                      { p with children := p.children.set tagId newTag,
                               order := some (p.order.getD [] ++ [tagId]) }),
                    tagMap := setKey s.tagMap tagId }, some tagId)
    | none =>
        let s1 := (getCurrentTagTree s).1
        let owner := (getCurrentTagTree s).2
        if (targetTree s owner).values.any (fun tag => tag.name = jsTrim categoryName) then
          some (s1, none)
        else
          (generateTagId s.tagMap attempts 0).map fun tagId =>
            let newTag : Tag := ⟨tagId, jsTrim categoryName, parentId, .nil, some []⟩
            ({ s1 with
                categories := match owner with
                  | none => s.categories.set tagId newTag
                  | some o => s.categories.update o (fun p =>
                      { p with children := p.children.set tagId newTag }),
                rootOrder := s.rootOrder ++ [tagId],
                tagMap := setKey s.tagMap tagId }, some tagId)

/-- The snapshot `{ tagId, oldName }` returned by `renameCategory`. -/
structure RenameSnapshot where
  tagId : String
  oldName : String
deriving DecidableEq, Repr

/-- The method `State.renameCategory` (`state.js` lines 930-964); the returned value is `none`
for `false`. -/
def renameCategory (s : State) (tagId : String) (newName : String) :
    State × Option RenameSnapshot :=
  if newName = "" ∨ jsTrim newName = "" ∨ tagId = "" then (s, none)
  else match getTagById s tagId with
    | none => (s, none)
    | some tag =>
        let parent := (truthyId tag.parentId).bind (getTagById s)
        let siblings := match parent with
          | some p => p.children
          | none => s.categories
        if siblings.entries.any (fun e => e.1 != tagId && e.2.name = jsTrim newName) then
          (s, none)
        else
          ({ s with categories := s.categories.update tagId (fun t =>
              { t with name := jsTrim newName }) }, some ⟨tagId, tag.name⟩)

/-- The method `State.undoRenameTag` (`state.js` lines 803-821). -/
def undoRenameTag (s : State) (renameSnapshot : RenameSnapshot) : State × Bool :=
  if renameSnapshot.tagId = "" ∨ renameSnapshot.oldName = "" then (s, false)
  else match getTagById s renameSnapshot.tagId with
    | none => (s, false)
    | some _ =>
        ({ s with categories := s.categories.update renameSnapshot.tagId (fun t =>
            { t with name := renameSnapshot.oldName }) }, true)

/-- The snapshot returned by `deleteCategory` (`state.js` lines 1104-1110); an index is `none`
when the source leaves it `null`. -/
structure DeleteSnapshot where
  tagId : String
  tagData : Tag
  parentId : Option String
  parentOrderIndex : Option Int
  rootOrderIndex : Option Int
deriving DecidableEq, Repr

/-- The method `State.deleteCategory` (`state.js` lines 973-1111); the returned value is `none`
for `undefined` and `null`. -/
def deleteCategory (s : State) (tagId : String) : State × Option DeleteSnapshot :=
  if tagId = "" ∨ tagId ∉ s.tagMap then (s, none)
  else match getTagById s tagId with
    | none => (s, none)
    | some tag =>
        let parent := (truthyId tag.parentId).bind (getTagById s)
        let parentId := truthyId tag.parentId
        let parentOrderIndex : Option Int := match parentId, parent with
          | some _, some p => p.order.map (fun o => jsIndexOf o tagId)
          | _, _ => none
        let rootOrderIndex : Option Int := match parentId with
          | none => some (jsIndexOf s.rootOrder tagId)
          | some _ => none
        let allIdsToDelete := getAllDescendantIds s tagId
        let notes := s.notes.map (fun note =>
          { note with categories := note.categories.filter (fun id =>
              if id = "" then false else !allIdsToDelete.contains id) })
        let categories := match parentId, parent with
          | some pid, some _ => s.categories.update pid (fun p =>
              { p with children := p.children.delete tagId,
                       order := p.order.map (fun o => o.filter (fun id => id != tagId)) })
          | _, _ => s.categories.delete tagId
        let rootOrder := match parent with
          | some _ => s.rootOrder
          | none => s.rootOrder.filter (fun id => id != tagId)
        let emptied : Bool := categories.keys.length = 0
        ({ s with
            notes := notes,
            activeFilters := s.activeFilters.filter (fun id => !allIdsToDelete.contains id),
            selectedInputTags :=
              s.selectedInputTags.filter (fun id => !allIdsToDelete.contains id),
            tagSelectPath :=
              if emptied then []
              else s.tagSelectPath.filter (fun id => !allIdsToDelete.contains id),
            selectedParentTagId :=
              if emptied then none
              else match s.selectedParentTagId with
                | some p => if allIdsToDelete.contains p then none else some p
                | none => none,
            tagMap := s.tagMap.filter (fun id => !allIdsToDelete.contains id),
            categories := categories,
            rootOrder := if emptied then [] else rootOrder },
          some ⟨tagId, tag, parentId, parentOrderIndex, rootOrderIndex⟩)

/-- The method `State.undoDeleteTag` (`state.js` lines 752-796).  The snapshot holds a node and two
indices that are numbers or `null`, so the deep clone succeeds and `!== undefined` holds. -/
def undoDeleteTag (s : State) (tagSnapshot : DeleteSnapshot) : State × Bool :=
  if tagSnapshot.tagId = "" then (s, false)
  else
    let restoreTag := tagSnapshot.tagData
    let s1 : State := match truthyId tagSnapshot.parentId with
      | some pid =>
          match getTagById s pid with
          | some _ =>
              { s with categories := s.categories.update pid (fun p =>
                  { p with children := p.children.set tagSnapshot.tagId restoreTag,
                           order := p.order.map (fun o =>
                             jsSpliceInsert o tagSnapshot.parentOrderIndex tagSnapshot.tagId) }) }
          | none => s
      | none =>
          { s with
              categories := s.categories.set tagSnapshot.tagId restoreTag,
              rootOrder :=
                jsSpliceInsert s.rootOrder tagSnapshot.rootOrderIndex tagSnapshot.tagId }
    (rebuildTagMap s1, true)

/-- The array after `xs.splice(fromIndex, 1)` followed by `xs.splice(toIndex, 0, x)` for indices
inside the array. -/
def moveInArray (xs : List String) (fromIndex toIndex : Int) : List String :=
  let x := xs.getD fromIndex.toNat ""
  let removed := xs.eraseIdx fromIndex.toNat
  removed.take toIndex.toNat ++ x :: removed.drop toIndex.toNat

/-- The object rebuilt from an order list (`state.js` lines 1138-1149 and 1189-1200): first the
entries whose keys are in `order`, in that order, then the remaining entries. -/
def reorderObject (obj : TagTree) (order : List String) : TagTree :=
  let first := order.foldl (fun acc tagId =>
    match obj.get tagId with
    | some tag => acc.set tagId tag
    | none => acc) TagTree.nil
  obj.keys.foldl (fun acc tagId =>
    if tagId ∈ order then acc
    else match obj.get tagId with
      | some tag => acc.set tagId tag
      | none => acc) first

/-- The method `State.moveCategory` (`state.js` lines 1119-1154). -/
def moveCategory (s : State) (fromIndex toIndex : Int) : State × Bool :=
  if fromIndex < 0 ∨ fromIndex ≥ s.rootOrder.length ∨ toIndex < 0 ∨
      toIndex ≥ s.rootOrder.length ∨ fromIndex = toIndex then (s, false)
  else
    let rootOrder := moveInArray s.rootOrder fromIndex toIndex
    ({ s with rootOrder := rootOrder, categories := reorderObject s.categories rootOrder }, true)

/-- The method `State.moveChildCategory` (`state.js` lines 1164-1205).  A node of the model always
has a `children` object; a missing order list is first set to the keys of `children`. -/
def moveChildCategory (s : State) (parentTagId : String) (fromIndex toIndex : Int) :
    State × Bool :=
  match getTagById s parentTagId with
  | none => (s, false)
  | some parentTag =>
      let order := match parentTag.order with
        | some o => o
        | none => parentTag.children.keys
      if fromIndex < 0 ∨ fromIndex ≥ order.length ∨ toIndex < 0 ∨
          toIndex ≥ order.length ∨ fromIndex = toIndex then
        ({ s with categories := s.categories.update parentTagId (fun p =>
            { p with order := some order }) }, false)
      else
        let newOrder := moveInArray order fromIndex toIndex
        ({ s with categories := s.categories.update parentTagId (fun p =>
            { p with order := some newOrder,
                     children := reorderObject p.children newOrder }) }, true)

/-! ## Notes and the undo slot -/

/-- The data `{ note, index }` returned by `deleteNote`. -/
structure DeletedNote where
  note : Note
  index : Int
deriving DecidableEq, Repr

/-- The method `State.undoDeleteNote` (`state.js` lines 726-737) for data that holds a note. -/
def undoDeleteNote (s : State) (deletedData : DeletedNote) : State × Bool :=
  if 0 ≤ deletedData.index ∧ deletedData.index ≤ s.notes.length then
    ({ s with notes := s.notes.take deletedData.index.toNat ++
        deletedData.note :: s.notes.drop deletedData.index.toNat }, true)
  else ({ s with notes := s.notes ++ [deletedData.note] }, true)

/-- The value of `UndoManager.lastAction` when it is not `null`: the action type of
`UNDO_ACTION_TYPES` with its data (`ui-render.js` lines 10-30). -/
inductive UndoAction where
  | DELETE_NOTE (data : DeletedNote)
  | DELETE_TAG (data : DeleteSnapshot)
  | RENAME_TAG (data : RenameSnapshot)
deriving DecidableEq, Repr

/-- The application state: the `State` object and the slot `UndoManager.lastAction`. -/
structure App where
  state : State
  lastAction : Option UndoAction
deriving DecidableEq, Repr

/-- The method `UndoManager.saveAction` (`ui-render.js` lines 24-30). -/
def saveAction (app : App) (action : UndoAction) : App :=
  { app with lastAction := some action }

/-- The method `UndoManager.undo` (`ui-render.js` lines 43-72). -/
def undo (app : App) : App × Bool :=
  match app.lastAction with
  | none => (app, false)
  | some action =>
      let r : State × Bool := match action with
        | .DELETE_NOTE data => undoDeleteNote app.state data
        | .DELETE_TAG data => undoDeleteTag app.state data
        | .RENAME_TAG data => undoRenameTag app.state data
      if r.2 then (⟨r.1, none⟩, true) else (⟨r.1, app.lastAction⟩, false)

/-! ## Well-formed states -/

/-- The ids of the data model: an id occurs once in the whole tree and is a non-empty string. -/
def TagTree.UniqueIds (t : TagTree) : Prop :=
  t.allKeys.Nodup ∧ "" ∉ t.allKeys

instance (t : TagTree) : Decidable t.UniqueIds := by
  unfold TagTree.UniqueIds
  infer_instance

/-- Every node of the tree is stored under its own `id`. -/
def TagTree.idsMatch : TagTree → Bool
  | .nil => true
  | .node key id _ _ children _ rest => decide (id = key) && children.idsMatch && rest.idsMatch

/-- Every node of the tree whose parent object belongs to `parent` (`none` for
`State.categories`) has `parentId` equal to `parent`, and so on below it. -/
def TagTree.parentLinks (parent : Option String) : TagTree → Bool
  | .nil => true
  | .node key _ _ parentId children _ rest =>
      decide (parentId = parent) && children.parentLinks (some key) && rest.parentLinks parent

/-- Every node of the tree has an order list, and it is a permutation of the keys of the node's
children. -/
def TagTree.ordersOk : TagTree → Bool
  | .nil => true
  | .node _ _ _ _ children order rest =>
      (match order with
        | some o => o.isPerm children.keys
        | none => false) && children.ordersOk && rest.ordersOk

/-- The order invariant of the data model: `rootOrder` is a permutation of the top-level keys and
every node's order list is a permutation of the keys of its children. -/
def OrderInvariant (s : State) : Prop :=
  s.rootOrder.isPerm s.categories.keys = true ∧ s.categories.ordersOk = true

instance (s : State) : Decidable (OrderInvariant s) := by
  unfold OrderInvariant
  infer_instance

/-- The names of the entries of an object, in key iteration order. -/
def TagTree.names : TagTree → List String
  | .nil => []
  | .node _ _ name _ _ _ rest => name :: rest.names

/-- Sibling uniqueness: no two entries of the object have the same name, and so on below every
entry. -/
def TagTree.siblingNamesUnique : TagTree → Bool
  | .nil => true
  | .node _ _ name _ children _ rest =>
      decide (name ∉ rest.names) && children.siblingNamesUnique && rest.siblingNamesUnique

/-- The index and the tree are consistent: the keys of `State.tagMap` are the ids of the tree. -/
def IndexMatchesTree (s : State) : Prop :=
  s.tagMap.isPerm s.categories.allKeys = true

instance (s : State) : Decidable (IndexMatchesTree s) := by
  unfold IndexMatchesTree
  infer_instance

/-- A well-formed state: the invariants of the data model. -/
structure WellFormed (s : State) : Prop where
  uniqueIds : s.categories.UniqueIds
  idsMatch : s.categories.idsMatch = true
  parentLinks : s.categories.parentLinks none = true
  orders : OrderInvariant s
  index : IndexMatchesTree s

instance (s : State) : Decidable (WellFormed s) :=
  decidable_of_iff
    (s.categories.UniqueIds ∧ s.categories.idsMatch = true ∧
      s.categories.parentLinks none = true ∧ OrderInvariant s ∧ IndexMatchesTree s)
    ⟨fun h => ⟨h.1, h.2.1, h.2.2.1, h.2.2.2.1, h.2.2.2.2⟩,
      fun h => ⟨h.uniqueIds, h.idsMatch, h.parentLinks, h.orders, h.index⟩⟩

/-- The order list that holds the position of a tag: `rootOrder` for a tag without a parent, the
order list of the parent otherwise. -/
def siblingOrder (s : State) (tagId : String) : Option (List String) :=
  match getTagById s tagId with
  | none => none
  | some tag =>
      match truthyId tag.parentId with
      | none => some s.rootOrder
      | some p => (getTagById s p).bind (fun parent => parent.order)

/-- All nodes of the tree with their keys, a node before its children and its later siblings. -/
def TagTree.flat : TagTree → List (String × Tag)
  | .nil => []
  | .node key id name parentId children order rest =>
      (key, ⟨id, name, parentId, children, order⟩) :: (children.flat ++ rest.flat)

/-- The key, `id`, `name` and `parentId` of every node of the tree. -/
def TagTree.infos (t : TagTree) : List (String × String × String × Option String) :=
  t.flat.map (fun e => (e.1, e.2.id, e.2.name, e.2.parentId))

/-- The names on the way from a top-level entry of the tree down to the first node stored under
`x`. -/
def TagTree.namesTo : TagTree → String → Option (List String)
  | .nil, _ => none
  | .node key _ name _ children _ rest, x =>
      if key = x then some [name]
      else match children.namesTo x with
        | some p => some (name :: p)
        | none => rest.namesTo x

/-- The size of the subtree that the index holds for an id, `0` for an id that is not indexed. -/
def rank (s : State) (x : String) : Nat :=
  match getTagById s x with
  | some tag => tag.children.allKeys.length + 1
  | none => 0

/-- The method `State.openTagSelector` (`state.js` lines 437-439). -/
def openTagSelector (s : State) (parentTagId : String) : State :=
  { s with tagSelectPath := [parentTagId] }

/-! ## The scenarios of the specification -/

/-- The tree of Scenario A: the root tag Scene with the children Cafe and School. -/
def sceneTree : TagTree :=
  .node "tag_scene" "tag_scene" "Scene" none
    (.node "tag_cafe" "tag_cafe" "Cafe" (some "tag_scene") .nil (some [])
      (.node "tag_school" "tag_school" "School" (some "tag_scene") .nil (some []) .nil))
    (some ["tag_cafe", "tag_school"]) .nil

/-- The item I1 of Scenario A, tagged Cafe. -/
def noteI1 : Note := ⟨1, "I1", ["tag_cafe"]⟩

/-- The item I2 of Scenario A, tagged School. -/
def noteI2 : Note := ⟨2, "I2", ["tag_school"]⟩

/-- An item without tags. -/
def noteI3 : Note := ⟨3, "I3", []⟩

/-- The state of Scenario A with the given filter list and mode. -/
def sceneState (activeFilters : List String) (filterMode : FilterMode) : State :=
  { notes := [noteI1, noteI2, noteI3], categories := sceneTree, rootOrder := ["tag_scene"],
    tagMap := ["tag_scene", "tag_cafe", "tag_school"], activeFilters := activeFilters,
    filterMode := filterMode, editingNoteId := none, selectedInputTags := [],
    tagSelectPath := [], selectedParentTagId := none }


/-- The state after `addCategory('Scene')` on the empty state, with the id `tag_1_scene`. -/
def oneTagState : State :=
  { State.empty with
    categories := .node "tag_1_scene" "tag_1_scene" "Scene" none .nil (some []) .nil,
    rootOrder := ["tag_1_scene"], tagMap := ["tag_1_scene"] }

/-- The state after `openTagSelector('tag_1_scene')` and `addCategory('Cafe')` (no parent id) on
`oneTagState`, with the id `tag_2_cafe`: the new node lies in the `children` of Scene, its
`parentId` is `null`, and its id has been pushed onto `rootOrder`. -/
def nestedRootState : State :=
  { State.empty with
    categories := .node "tag_1_scene" "tag_1_scene" "Scene" none
      (.node "tag_2_cafe" "tag_2_cafe" "Cafe" none .nil (some []) .nil) (some []) .nil,
    rootOrder := ["tag_1_scene", "tag_2_cafe"], tagMap := ["tag_1_scene", "tag_2_cafe"],
    tagSelectPath := ["tag_1_scene"] }

/-- Scenario A after `renameCategory('tag_cafe', 'Coffee House')`. -/
def sceneRenamed : State :=
  { sceneState [] FilterMode.OR with
    categories := .node "tag_scene" "tag_scene" "Scene" none
      (.node "tag_cafe" "tag_cafe" "Coffee House" (some "tag_scene") .nil (some [])
        (.node "tag_school" "tag_school" "School" (some "tag_scene") .nil (some []) .nil))
      (some ["tag_cafe", "tag_school"]) .nil }

/-- The state `sceneRenamed` after `addCategory('Cafe', 'tag_scene')`, with the id `tag_9_new`. -/
def sceneRenamedAdded : State :=
  { sceneState [] FilterMode.OR with
    categories := .node "tag_scene" "tag_scene" "Scene" none
      (.node "tag_cafe" "tag_cafe" "Coffee House" (some "tag_scene") .nil (some [])
        (.node "tag_school" "tag_school" "School" (some "tag_scene") .nil (some [])
          (.node "tag_9_new" "tag_9_new" "Cafe" (some "tag_scene") .nil (some []) .nil)))
      (some ["tag_cafe", "tag_school", "tag_9_new"]) .nil,
    tagMap := ["tag_scene", "tag_cafe", "tag_school", "tag_9_new"] }

/-- The application after the rename and the creation: the undo slot still holds the snapshot of
the rename. -/
def renameSlotApp : App :=
  ⟨sceneRenamedAdded, some (UndoAction.RENAME_TAG ⟨"tag_cafe", "Cafe"⟩)⟩

/-- Scenario A as legacy data: the node Scene has no order list. -/
def legacyState : State :=
  { sceneState [] FilterMode.OR with
    categories := .node "tag_scene" "tag_scene" "Scene" none
      (.node "tag_cafe" "tag_cafe" "Cafe" (some "tag_scene") .nil (some [])
        (.node "tag_school" "tag_school" "School" (some "tag_scene") .nil (some []) .nil))
      none .nil }

/-- The snapshot that `deleteCategory('tag_cafe')` returns in Scenario A. -/
def cafeSnapshot : DeleteSnapshot :=
  ⟨"tag_cafe", ⟨"tag_cafe", "Cafe", some "tag_scene", .nil, some []⟩, some "tag_scene", some 0,
    none⟩

/-- Scenario A after `deleteCategory('tag_cafe')` and `deleteCategory('tag_scene')`: the parent
recorded in `cafeSnapshot` is gone. -/
def sceneDeletedState : State :=
  (deleteCategory (deleteCategory (sceneState [] FilterMode.OR) "tag_cafe").1 "tag_scene").1

/-- Scenario A with the name of the tag `tag_cafe` empty, as loaded from legacy data that holds
an empty name. -/
def unnamedState : State :=
  { sceneState [] FilterMode.OR with
    categories := .node "tag_scene" "tag_scene" "Scene" none
      (.node "tag_cafe" "tag_cafe" "" (some "tag_scene") .nil (some [])
        (.node "tag_school" "tag_school" "School" (some "tag_scene") .nil (some []) .nil))
      (some ["tag_cafe", "tag_school"]) .nil }

/-! ## Notions used by the contracts of the operations -/

/-- The object `target` of `addCategory` (`state.js` lines 863-881), in which the name check looks
for siblings and into which the new node is stored: the `children` of the parent when a parent id
is given (no entries when the parent is unknown), otherwise the object returned by
`getCurrentTagTree`, which is `State.categories` when the selector path is empty. -/
def addTarget (s : State) (parentId : Option String) : TagTree :=
  match truthyId parentId with
  | some pid =>
      match getTagById s pid with
      | some parentTag => parentTag.children
      | none => .nil
  | none => targetTree s (getCurrentTagTree s).2

/-- The object `siblings` of `renameCategory` (`state.js` lines 944-945): the `children` of the
node that the `parentId` of the tag names, and `State.categories` for a tag without a parent. -/
def renameSiblings (s : State) (tagId : String) : TagTree :=
  match getTagById s tagId with
  | none => .nil
  | some tag =>
      match (truthyId tag.parentId).bind (getTagById s) with
      | some parent => parent.children
      | none => s.categories

/-- The tree in which every node stored under `k` has the name `n` and which is otherwise the
given tree: same keys, ids, parent ids, order lists and nesting. -/
def TagTree.renameAll : TagTree → String → String → TagTree
  | .nil, _, _ => .nil
  | .node key id name parentId children order rest, k, n =>
      .node key id (if key = k then n else name) parentId (children.renameAll k n) order
        (rest.renameAll k n)

/-- The names on the parent chain of a tag, from its root ancestor down to the tag itself: the
chain of the parent followed by the name of the tag, and the name alone for a tag without a parent.
The result is `none` when the chain leaves the index or has more than `n` nodes. -/
def chainFrom (s : State) : Nat → String → Option (List String)
  | 0, _ => none
  | n + 1, tagId =>
      match getTagById s tagId with
      | none => none
      | some tag =>
          match truthyId tag.parentId with
          | none => some [tag.name]
          | some p => (chainFrom s n p).map (fun names => names ++ [tag.name])

/-- The method `State.getTagFullName` (`state.js` lines 246-251); `none` when the loop of
`getBreadcrumbPath` does not terminate.  The guard `!this.tagMap[tagId]` lets an id pass that is
no key of the index and names an inherited property. -/
def getTagFullName (s : State) (tagId : String) : Option String :=
  match getTagById s tagId with
  | none =>
      if tagId ∉ s.tagMap ∧ tagId ∈ objectPrototypeKeys then
        (getBreadcrumbPath s tagId).map (fun path => path.getD "")
      else some ""
  | some _ => (getBreadcrumbPath s tagId).map (fun path => path.getD "")

/-- The tag `c` is a child of the tag `p`: a key of the `children` object of the node that the
index holds for `p`. -/
def IsChildOf (s : State) (p c : String) : Prop :=
  ∃ tag, getTagById s p = some tag ∧ c ∈ tag.children.keys

/-- The method `UndoManager.saveDelete` (`ui-render.js` lines 36-38). -/
def saveDelete (app : App) (deletedData : DeletedNote) : App :=
  saveAction app (UndoAction.DELETE_NOTE deletedData)

/-- The reversal routine that `UndoManager.undo` dispatches to for a recorded action
(`ui-render.js` lines 51-64). -/
def reversal (s : State) : UndoAction → State × Bool
  | .DELETE_NOTE data => undoDeleteNote s data
  | .DELETE_TAG data => undoDeleteTag s data
  | .RENAME_TAG data => undoRenameTag s data

/-- The application after `n` calls of `UndoManager.undo()`. -/
def undoTimes : Nat → App → App
  | 0, app => app
  | n + 1, app => undoTimes n (undo app).1

/-! ## Deleting a note -/

/-- The value of `notes.findIndex(n => n.id === id)`, `none` for `-1`. -/
def noteIndex : List Note → Nat → Option Nat
  | [], _ => none
  | n :: ns, id => if n.id = id then some 0 else (noteIndex ns id).map (fun i => i + 1)

/-- The method `State.deleteNote` (`state.js` lines 705-720); the returned value is `none` for
`null`. -/
def deleteNote (s : State) (id : Nat) : State × Option DeletedNote :=
  match noteIndex s.notes id with
  | none => (s, none)
  | some index =>
      match s.notes[index]? with
      | none => (s, none)
      | some deletedNote =>
          ({ s with
              notes := s.notes.eraseIdx index,
              editingNoteId := if s.editingNoteId = some id then none else s.editingNoteId },
            some ⟨deletedNote, index⟩)

/-! ## Listing the top-level tags -/

/-- An element of the array returned by `getParentTags`: a top-level tag, or the value that the
local object `tagMap` inherits from `Object.prototype` under an entry of `rootOrder`. -/
inductive ListedTag where
  | tag (tag : Tag)
  | inherited (key : String)
deriving DecidableEq, Repr

/-- The loop over `rootOrder` in `getParentTags` (`state.js` lines 353-358): the values pushed
onto `orderedTags` and the local object `tagMap` after the loop.  The lookup `tagMap[tagId]` finds
the tag stored under `tagId`, and for a `tagId` that is not a key of the object the truthy value
inherited under it, if there is one; deleting a key that the object does not have changes
nothing. -/
def orderedLoop : List String → List ListedTag × TagTree → List ListedTag × TagTree
  | [], acc => acc
  | tagId :: more, (orderedTags, tagMap) =>
      match tagMap.get tagId with
      | some tag => orderedLoop more (orderedTags ++ [.tag tag], tagMap.delete tagId)
      | none =>
          if tagId ∈ objectPrototypeKeys then
            orderedLoop more (orderedTags ++ [.inherited tagId], tagMap)
          else orderedLoop more (orderedTags, tagMap)

/-- The method `State.getParentTags` (`state.js` lines 340-370).  The local object `tagMap` maps
the `id` of a top-level tag to the tag. -/
def getParentTags (s : State) : List ListedTag :=
  let parentTags := s.categories.values.filter (fun tag => (truthyId tag.parentId).isNone)
  if s.rootOrder.length > 0 then
    let tagMap := parentTags.foldl (fun (m : TagTree) tag => m.set tag.id tag) TagTree.nil
    let r := orderedLoop s.rootOrder ([], tagMap)
    r.1 ++ r.2.values.map ListedTag.tag
  else parentTags.map ListedTag.tag

/-! ## Loading a project -/

/-- The closure `initOrderRecursive` of `initializeOrderArrays` (`state.js` lines 131-151): a node
without an order list, or with an empty one, gets the keys of its children as its order list. -/
def initOrderRecursive : TagTree → TagTree
  | .nil => .nil
  | .node key id name parentId children order rest =>
      .node key id name parentId (initOrderRecursive children)
        (match order with
          | some o => if o.length = 0 then some children.keys else some o
          | none => some children.keys)
        (initOrderRecursive rest)

/-- The method `State.initializeOrderArrays` (`state.js` lines 120-155): an empty `rootOrder` is
set to the keys of the top-level entries whose node has no `parentId`. -/
def initializeOrderArrays (s : State) : State :=
  { s with
    rootOrder :=
      if s.rootOrder.length = 0 then
        (s.categories.entries.filter (fun e => (truthyId e.2.parentId).isNone)).map (fun e => e.1)
      else s.rootOrder,
    categories := initOrderRecursive s.categories }

/-! ## Legacy tag data -/

/-- A JavaScript object of legacy tag data mapping a name to the object of its sub-names, as its
entries in key iteration order. -/
inductive NameTree where
  | nil : NameTree
  | node (name : String) (children : NameTree) (rest : NameTree) : NameTree
deriving DecidableEq, Repr

/-- The object after `tree[k] = v`.  Key iteration order is insertion order for the keys of the
model, which are names that are neither canonical array indices nor `__proto__`. -/
def NameTree.set : NameTree → String → NameTree → NameTree
  | .nil, k, v => .node k v .nil
  | .node name children rest, k, v =>
      if name = k then .node name v rest else .node name children (rest.set k v)

/-- The number of entries of the object, at every depth. -/
def NameTree.size : NameTree → Nat
  | .nil => 0
  | .node _ children rest => 1 + children.size + rest.size

/-- The list `Object.keys(tree)`. -/
def NameTree.names : NameTree → List String
  | .nil => []
  | .node name _ rest => name :: rest.names

/-- The object `Object.fromEntries(subOptions.map(sub => [sub, {}]))` (`storage.js` line 114). -/
def NameTree.ofNames (subOptions : List String) : NameTree :=
  subOptions.foldl (fun tree sub => tree.set sub .nil) .nil

/-- The object with one entry `n ↦ {}` for every name of the list, in that order. -/
def NameTree.leaves : List String → NameTree
  | [] => .nil
  | n :: ns => .node n .nil (NameTree.leaves ns)

/-- An element of a legacy array of tag data (`storage.js` lines 109-116): a string, an object
`{ name, subOptions }` whose `name` is a string and whose `subOptions`, when present, is an array
of strings, or a value that is neither a string nor an object (`null`, a number, a boolean). -/
inductive LegacyCategory where
  | name (cat : String)
  | group (name : String) (subOptions : Option (List String))
  | other
deriving DecidableEq, Repr

/-- The names that an element of a legacy array holds. -/
def LegacyCategory.names : LegacyCategory → List String
  | .name c => [c]
  | .group n subOptions => n :: subOptions.getD []
  | .other => []

/-- The object `tree` built from a legacy array (`storage.js` lines 108-116), for names that are
plain keys (`PlainName`): each assignment stores a new name behind the names already there. -/
def legacyArrayTree (parsed : List LegacyCategory) : NameTree :=
  parsed.foldl (fun tree cat =>
    match cat with
    | .name c => tree.set c .nil
    | .group n subOptions =>
        if n = "" then tree
        else tree.set n (match subOptions with
          | some subs => NameTree.ofNames subs
          | none => .nil)
    | .other => tree) .nil

/-- The function `convertTreeToIdFormat(tree, parentId)` of `config.js` lines 98-110, continued
from the object `result` built so far.  `ids` holds the values that the successive calls of
`generateTagId()` return; the result is the converted object with the ids not used, and `none`
when the list is used up. -/
def convertTreeToIdFormat : NameTree → Option String → List String → TagTree →
    Option (TagTree × List String)
  | .nil, _, ids, result => some (result, ids)
  | .node key children rest, parentId, ids, result =>
      match ids with
      | [] => none
      | tagId :: ids1 =>
          match convertTreeToIdFormat children (some tagId) ids1 .nil with
          | none => none
          | some (converted, ids2) =>
              convertTreeToIdFormat rest parentId ids2
                (result.set tagId ⟨tagId, key, parentId, converted, none⟩)

/-- The list `Object.values(tree)`: the objects of sub-names of the top-level names. -/
def NameTree.subtrees : NameTree → List NameTree
  | .nil => []
  | .node _ children rest => children :: rest.subtrees

/-- The parsed value of the stored tag data, in the shapes of the model: nothing stored (or not
parsable); an object of tag nodes `{ id, name, parentId, children }` that the test of
`storage.js` lines 97-99 takes for the id format, one of its top-level nodes having a truthy `id`;
a legacy array; and a legacy object of names, each name mapped to the object of its sub-names.  An
object of tag nodes without a truthy top-level `id` is not a value of the model. -/
inductive StoredCategories where
  | absent
  | canonical (tree : TagTree) (accepted : tree.values.any (fun item => item.id != "") = true)
  | array (parsed : List LegacyCategory)
  | object (tree : NameTree)

/-- The test `isNewFormat` of `Storage.loadCategories` (`storage.js` lines 97-99) on the parsed
value: some value of it is an object with a truthy `id`.  The elements of a legacy array have no
`id`.  In a legacy object of names the `id` of a value is the object stored under the sub-name
`id`, which is truthy: the test holds as soon as a top-level name has a sub-name `id`. -/
def isNewFormat : StoredCategories → Bool
  | .absent => false
  | .canonical tree _ => tree.values.any (fun item => item.id != "")
  | .array _ => false
  | .object tree => tree.subtrees.any (fun item => item.names.contains "id")

/-- The value returned by `Storage.loadCategories`: an object of tag nodes, or the parsed legacy
object of names itself, returned as it is. -/
inductive LoadedCategories where
  | tree (tree : TagTree)
  | names (parsed : NameTree)
deriving DecidableEq, Repr

/-- The method `Storage.loadCategories` (`storage.js` lines 89-129), with `ids` the values
returned by the calls of `generateTagId()`; the result is `none` when `ids` is used up.  A parsed
value that passes the test `isNewFormat` is returned as it is (line 101-103); otherwise an array
is turned into an object of names and converted (lines 106-117) and an object is converted (lines
118-120).  Nothing stored gives the empty object (line 124). -/
def loadCategories (stored : StoredCategories) (ids : List String) : Option LoadedCategories :=
  match stored with
  | .absent => some (.tree .nil)
  | .canonical tree _ => some (.tree tree)
  | .array parsed =>
      (convertTreeToIdFormat (legacyArrayTree parsed) none ids .nil).map (fun r => .tree r.1)
  | .object tree =>
      if isNewFormat (.object tree) then some (.names tree)
      else (convertTreeToIdFormat tree none ids .nil).map (fun r => .tree r.1)

/-- The names and the nesting of a tree in the id format. -/
def TagTree.toNames : TagTree → NameTree
  | .nil => .nil
  | .node _ _ name _ children _ rest => .node name children.toNames rest.toNames

/-- The entries of `t` followed by the entries of `u`. -/
def TagTree.append : TagTree → TagTree → TagTree
  | .nil, u => u
  | .node key id name parentId children order rest, u =>
      .node key id name parentId children order (rest.append u)

/-- A key that the assignment `obj[key] = value` stores as a new own property behind the ones the
plain object already has: not `__proto__` (which sets the prototype), and not a non-empty string of
decimal digits, so that it is not a canonical array index (which JavaScript iterates first). -/
def PlainName (n : String) : Prop :=
  n ≠ "__proto__" ∧ (n.data = [] ∨ n.data.any (fun c => !c.isDigit) = true)

instance (n : String) : Decidable (PlainName n) := by
  unfold PlainName
  infer_instance

/-! ## Legacy tag references -/

/-- The segments of `chars` between the occurrences of `sep`, after the segment `current` read so
far. -/
def splitChars (sep : Char) : List Char → List Char → List String
  | [], current => [String.mk current]
  | c :: cs, current =>
      if c = sep then String.mk current :: splitChars sep cs []
      else splitChars sep cs (current ++ [c])

/-- The array `path.split('/')`. -/
def jsSplit (path : String) : List String :=
  splitChars '/' path.data []

/-- The inner loop of `findTagIdByPath` (`config.js` lines 170-176): the first entry of `current`
whose node has the name `part`. -/
def findByName : TagTree → String → Option (String × Tag)
  | .nil, _ => none
  | .node key id name parentId children order rest, part =>
      if name = part then some (key, ⟨id, name, parentId, children, order⟩)
      else findByName rest part

/-- The outer loop of `findTagIdByPath` (`config.js` lines 168-179) over the remaining parts, with
the object `current` and the value of `tagId`. -/
def findTagIdByPathLoop : List String → TagTree → Option String → Option String
  | [], _, tagId => tagId
  | part :: parts, current, _ =>
      match findByName current part with
      | none => none
      | some (id, found) => findTagIdByPathLoop parts found.children (some id)

/-- The function `findTagIdByPath(categories, path)` of `config.js` lines 163-182. -/
def findTagIdByPath (categories : TagTree) (path : String) : Option String :=
  findTagIdByPathLoop (jsSplit path) categories none

/-- The key reached from the top level of `t` by following a child with each successive name;
`none` when a name matches no child, and for the empty list of names. -/
def followNames : TagTree → List String → Option String
  | _, [] => none
  | t, [n] => (findByName t n).map (fun e => e.1)
  | t, n :: m :: more =>
      match findByName t n with
      | none => none
      | some (_, found) => followNames found.children (m :: more)

/-- The test of `Storage.loadNotes` for a reference that is a path string and not an id
(`storage.js` lines 60 and 65): it holds a slash or does not start with `tag_`. -/
def isPathReference (cat : String) : Bool :=
  cat.data.contains '/' || cat.data.take 4 != ['t', 'a', 'g', '_']

/-- The migration of the references of one note (`storage.js` lines 58-72). -/
def migrateReferences (catData : TagTree) (categories : List String) : List String :=
  if categories.any isPathReference then
    (categories.map (fun cat =>
      if isPathReference cat then truthyId (findTagIdByPath catData cat) else some cat)).filterMap
      truthyId
  else categories

/-- The method `Storage.loadNotes` (`storage.js` lines 16-82) on a stored array of note objects
whose `categories` are arrays of strings, with `catData` the tag tree and `now` the value of
`Date.now()`: a falsy `id` is replaced, the references are migrated. -/
def loadNotes (now : Nat) (catData : TagTree) (loaded : List Note) : List Note :=
  loaded.enum.map (fun e =>
    { e.2 with
      id := if e.2.id = 0 then now + e.1 else e.2.id,
      categories := migrateReferences catData e.2.categories })

/-- The method `State.loadProjectData` (`state.js` lines 88-114), with `categories` the value
returned by `Storage.loadCategories(projectId)` and `loaded` the stored array of notes. -/
def loadProjectData (s : State) (projectId : String) (categories : TagTree) (now : Nat)
    (loaded : List Note) : State :=
  if projectId = "" then
    { s with notes := [], categories := .nil, rootOrder := [], tagMap := [] }
  else
    rebuildTagMap (initializeOrderArrays
      { s with categories := categories, notes := loadNotes now categories loaded })

/-! ## States reached by creating tags -/

/-- Every node of the tree whose parent object belongs to `owner` has a falsy `parentId` or the
`parentId` `owner`, and so on below it. -/
def TagTree.linksUp (owner : Option String) : TagTree → Bool
  | .nil => true
  | .node key _ _ parentId children _ rest =>
      (decide (truthyId parentId = none) || decide (parentId = owner)) &&
        children.linksUp (some key) && rest.linksUp owner

/-- The states reached from the empty state by calls of `addCategory`, successful or not, with
any arguments and any values drawn by the id generator; between the calls the selector path may be
set to any list, as the navigation of the tag selector does. -/
inductive Reachable : State → Prop
  | empty : Reachable State.empty
  | add {s s' : State} (attempts : List IdAttempt) (categoryName : String)
      (parentId : Option String) (result : Option String) :
      Reachable s → addCategory s attempts categoryName parentId = some (s', result) →
      Reachable s'
  | select {s : State} (path : List String) :
      Reachable s → Reachable { s with tagSelectPath := path }

/-! ## Further scenarios -/

/-- The tag tree of a second project: the single root tag Work. -/
def workTree : TagTree :=
  .node "tag_work" "tag_work" "Work" none .nil none .nil

/-- The legacy tag data of Scenario A as an array: the group Scene with the sub-names Cafe and
School. -/
def legacyScene : StoredCategories :=
  .array [.group "Scene" (some ["Cafe", "School"])]

/-- The legacy tag data of Scenario A as an object of names. -/
def legacySceneObject : NameTree :=
  .node "Scene" (.node "Cafe" .nil (.node "School" .nil .nil)) .nil

/-- A legacy object of names in which the name Scene has the sub-name `id`. -/
def legacyIdObject : NameTree :=
  .node "Scene" (.node "id" .nil .nil) .nil

/-- Scenario A with the references of the notes stored as path strings. -/
def legacyNotes : List Note :=
  [⟨1, "I1", ["Scene/Cafe"]⟩, ⟨2, "I2", ["Scene/School", "Scene/Park"]⟩, ⟨3, "I3", []⟩]

/-! ## Plain objects used as maps -/

/-- The truthy `parentId` values of the nodes of the tree, at every depth. -/
def TagTree.parentIds : TagTree → List String
  | .nil => []
  | .node _ _ _ parentId children _ rest =>
      (truthyId parentId).toList ++ (children.parentIds ++ rest.parentIds)

/-- Every node of the tree has an order list. -/
def TagTree.hasOrders : TagTree → Bool
  | .nil => true
  | .node _ _ _ _ children order rest => order.isSome && children.hasOrders && rest.hasOrders

/-- The method `State.toggleFilter` (`state.js` lines 635-646). -/
def toggleFilter (s : State) (tagId : String) : State :=
  if tagId = "All" then { s with activeFilters := [] }
  else
    let index := jsIndexOf s.activeFilters tagId
    if index > -1 then { s with activeFilters := s.activeFilters.eraseIdx index.toNat }
    else { s with activeFilters := s.activeFilters ++ [tagId] }

/-! ## Scenarios with several top-level tags -/

/-- Three top-level tags, Scene (with its children Cafe and School), Work and Home, stored in
that order. -/
def threeRoots : TagTree :=
  .node "tag_scene" "tag_scene" "Scene" none
    (.node "tag_cafe" "tag_cafe" "Cafe" (some "tag_scene") .nil (some [])
      (.node "tag_school" "tag_school" "School" (some "tag_scene") .nil (some []) .nil))
    (some ["tag_cafe", "tag_school"])
    (.node "tag_work" "tag_work" "Work" none .nil (some [])
      (.node "tag_home" "tag_home" "Home" none .nil (some []) .nil))

/-- The state over `threeRoots` with the given `rootOrder`. -/
def rootsState (rootOrder : List String) : State :=
  { State.empty with
    categories := threeRoots,
    rootOrder := rootOrder,
    tagMap := ["tag_scene", "tag_cafe", "tag_school", "tag_work", "tag_home"] }

/-! ## Lists and key sets -/

theorem mem_dedupe {x : String} {l : List String} : x ∈ dedupe l ↔ x ∈ l := by
  induction l with
  | nil => simp [dedupe]
  | cons a l ih =>
    simp only [dedupe, List.mem_cons, List.mem_filter, ih, bne_iff_ne, ne_eq]
    by_cases h : x = a <;> simp [h]

theorem nodup_dedupe (l : List String) : (dedupe l).Nodup := by
  induction l with
  | nil => simp [dedupe]
  | cons a l ih =>
    simp only [dedupe, List.nodup_cons, List.mem_filter, bne_self_eq_false, and_false,
      not_false_eq_true, true_and, Bool.false_eq_true]
    exact ih.filter _

theorem mem_setKey {x k : String} {keys : List String} :
    x ∈ setKey keys k ↔ x ∈ keys ∨ x = k := by
  unfold setKey
  split
  · constructor
    · intro h; exact Or.inl h
    · rintro (h | h)
      · exact h
      · subst h; assumption
  · simp

theorem mem_foldl_step {α : Type} (g : List String → α → List String) (Q : α → Prop) (x : String)
    (hg : ∀ acc i, x ∈ g acc i ↔ x ∈ acc ∨ Q i) (l : List α) (init : List String) :
    x ∈ l.foldl g init ↔ x ∈ init ∨ ∃ i ∈ l, Q i := by
  induction l generalizing init with
  | nil => simp
  | cons a l ih =>
    rw [List.foldl_cons, ih, hg]
    simp only [List.mem_cons, exists_eq_or_imp]
    tauto

theorem pair_positions (l : List String) (x y : String) :
    (∃ i, i < l.length ∧ l.getD i "" = x ∧ ∃ j, j < l.length ∧ i ≠ j ∧ l.getD j "" = y) ↔
      (x ≠ y ∧ x ∈ l ∧ y ∈ l) ∨ (x = y ∧ 2 ≤ l.count x) := by
  constructor
  · rintro ⟨i, hi, hx, j, hj, hij, hy⟩
    rw [List.getD_eq_getElem _ _ hi] at hx
    rw [List.getD_eq_getElem _ _ hj] at hy
    by_cases hxy : x = y
    · right
      refine ⟨hxy, ?_⟩
      rw [← List.duplicate_iff_two_le_count, List.duplicate_iff_exists_distinct_get]
      rcases Nat.lt_or_gt_of_ne hij with h | h
      · exact ⟨⟨i, hi⟩, ⟨j, hj⟩, h, by simp [hx], by simp [hy, hxy]⟩
      · exact ⟨⟨j, hj⟩, ⟨i, hi⟩, h, by simp [hy, hxy], by simp [hx]⟩
    · left
      exact ⟨hxy, hx ▸ List.getElem_mem _, hy ▸ List.getElem_mem _⟩
  · rintro (⟨hxy, hx, hy⟩ | ⟨hxy, hc⟩)
    · obtain ⟨i, hi, hx⟩ := List.mem_iff_getElem.mp hx
      obtain ⟨j, hj, hy⟩ := List.mem_iff_getElem.mp hy
      refine ⟨i, hi, by rw [List.getD_eq_getElem _ _ hi]; exact hx, j, hj, ?_,
        by rw [List.getD_eq_getElem _ _ hj]; exact hy⟩
      rintro rfl
      exact hxy (hx.symm.trans hy)
    · subst hxy
      rw [← List.duplicate_iff_two_le_count, List.duplicate_iff_exists_distinct_get] at hc
      obtain ⟨n, m, hnm, hn, hm⟩ := hc
      refine ⟨n, n.2, by rw [List.getD_eq_getElem _ _ n.2]; exact hn.symm, m, m.2, ?_,
        by rw [List.getD_eq_getElem _ _ m.2]; exact hm.symm⟩
      exact fun h => absurd (Fin.ext h) (Fin.ne_of_lt hnm)

/-! ## Searching the tree -/

theorem findTagById_none_of_not_mem {t : TagTree} {y : String} (h : y ∉ t.allKeys) :
    findTagById t y = none := by
  induction t with
  | nil => rfl
  | node key id name parentId children order rest ihc ihr =>
    simp only [TagTree.allKeys, List.mem_cons, List.mem_append, not_or] at h
    obtain ⟨h1, h2, h3⟩ := h
    simp only [findTagById]
    split
    · rfl
    · rw [if_neg (fun e => h1 e.symm), ihc h2, ihr h3]

theorem findTagById_isSome_of_mem {t : TagTree} {y : String} (hy : y ≠ "")
    (h : y ∈ t.allKeys) : (findTagById t y).isSome = true := by
  induction t with
  | nil => simp [TagTree.allKeys] at h
  | node key id name parentId children order rest ihc ihr =>
    simp only [TagTree.allKeys, List.mem_cons, List.mem_append] at h
    simp only [findTagById, if_neg hy]
    by_cases hk : key = y
    · simp [hk]
    · rw [if_neg hk]
      rcases h with h | h | h
      · exact absurd h.symm hk
      · have := ihc h
        cases hf : findTagById children y with
        | none => rw [hf] at this; simp at this
        | some found => simp
      · cases hf : findTagById children y with
        | none => simpa using ihr h
        | some found => simp

theorem findTagById_some_sub {t : TagTree} {x : String} {tag : Tag}
    (h : findTagById t x = some tag) :
    x ∈ t.allKeys ∧ (∀ y ∈ tag.children.allKeys, y ∈ t.allKeys) ∧
      tag.children.allKeys.length < t.allKeys.length := by
  induction t with
  | nil => simp [findTagById] at h
  | node key id name parentId children order rest ihc ihr =>
    simp only [findTagById] at h
    split at h
    · exact absurd h (by simp)
    · split at h
      · rename_i hk
        cases h
        simp only [TagTree.allKeys, List.mem_cons, List.mem_append, List.length_cons,
          List.length_append]
        exact ⟨Or.inl hk.symm, fun y hy => Or.inr (Or.inl hy), by omega⟩
      · split at h
        · rename_i found hf
          cases h
          obtain ⟨h1, h2, h3⟩ := ihc hf
          simp only [TagTree.allKeys, List.mem_cons, List.mem_append, List.length_cons,
            List.length_append]
          exact ⟨Or.inr (Or.inl h1), fun y hy => Or.inr (Or.inl (h2 y hy)), by omega⟩
        · obtain ⟨h1, h2, h3⟩ := ihr h
          simp only [TagTree.allKeys, List.mem_cons, List.mem_append, List.length_cons,
            List.length_append]
          exact ⟨Or.inr (Or.inr h1), fun y hy => Or.inr (Or.inr (h2 y hy)), by omega⟩

theorem findTagById_inside {t : TagTree} {x y : String} {tag : Tag} (hnd : t.allKeys.Nodup)
    (h : findTagById t x = some tag) (hy : y ∈ tag.children.allKeys) :
    findTagById t y = findTagById tag.children y := by
  by_cases hye : y = ""
  · subst hye
    cases t <;> cases htc : tag.children <;> simp [findTagById]
  induction t with
  | nil => simp [findTagById] at h
  | node key id name parentId children order rest ihc ihr =>
    simp only [TagTree.allKeys, List.nodup_cons, List.mem_append, not_or,
      List.nodup_append] at hnd
    obtain ⟨⟨hk1, hk2⟩, hc, hr, hdisj⟩ := hnd
    simp only [findTagById] at h
    split at h
    · exact absurd h (by simp)
    · split at h
      · cases h
        simp only at hy
        have hky : ¬ key = y := fun e => hk1 (e ▸ hy)
        simp only [findTagById, if_neg hye, if_neg hky]
        have := findTagById_isSome_of_mem hye hy
        cases hf : findTagById children y with
        | none => rw [hf] at this; simp at this
        | some found => rfl
      · split at h
        · rename_i found hf
          cases h
          have hyc := (findTagById_some_sub hf).2.1 y hy
          have hky : ¬ key = y := fun e => hk1 (e ▸ hyc)
          simp only [findTagById, if_neg hye, if_neg hky]
          rw [ihc hc hf]
          have := findTagById_isSome_of_mem hye hy
          cases hf2 : findTagById tag.children y with
          | none => rw [hf2] at this; simp at this
          | some found2 => rfl
        · have hyr := (findTagById_some_sub h).2.1 y hy
          have hky : ¬ key = y := fun e => hk2 (e ▸ hyr)
          have hyc : y ∉ children.allKeys := fun hm => hdisj hm hyr
          simp only [findTagById, if_neg hye, if_neg hky, findTagById_none_of_not_mem hyc]
          exact ihr hr h

/-! ## Descendant closures -/

theorem collectChildren_append (t : TagTree) (r : List String) :
    collectChildren t r = r ++ collectChildren t [] := by
  induction t generalizing r with
  | nil => simp [collectChildren]
  | node key id name parentId children order rest ihc ihr =>
    simp only [collectChildren]
    split
    · exact ihr r
    · rw [ihr, ihc, ihr (collectChildren children ([] ++ [key])), ihc ([] ++ [key])]
      simp

theorem mem_collectChildren {t : TagTree} {y : String} (h : y ∈ collectChildren t []) :
    y ∈ t.allKeys := by
  induction t with
  | nil => simp [collectChildren] at h
  | node key id name parentId children order rest ihc ihr =>
    simp only [collectChildren] at h
    simp only [TagTree.allKeys, List.mem_cons, List.mem_append]
    split at h
    · exact Or.inr (Or.inr (ihr h))
    · rw [collectChildren_append, collectChildren_append children] at h
      simp only [List.nil_append, List.mem_append, List.mem_singleton] at h
      rcases h with (h | h) | h
      · exact Or.inl h
      · exact Or.inr (Or.inl (ihc h))
      · exact Or.inr (Or.inr (ihr h))

theorem collectChildren_eq_allKeys {t : TagTree} (h : "" ∉ t.allKeys) :
    collectChildren t [] = t.allKeys := by
  induction t with
  | nil => rfl
  | node key id name parentId children order rest ihc ihr =>
    simp only [TagTree.allKeys, List.mem_cons, List.mem_append, not_or] at h
    obtain ⟨h1, h2, h3⟩ := h
    simp only [collectChildren, if_neg (fun e : key = "" => h1 e.symm)]
    rw [collectChildren_append, collectChildren_append children, ihc h2, ihr h3]
    simp [TagTree.allKeys]

theorem mem_desc_ne {s : State} {t y : String} (h : y ∈ getAllDescendantIds s t) :
    y ≠ "" ∧ t ≠ "" := by
  unfold getAllDescendantIds at h
  split at h
  · simp at h
  · rename_i ht
    split at h
    · simp only [List.mem_singleton] at h
      exact ⟨h ▸ ht, ht⟩
    · rw [mem_dedupe, List.mem_filter] at h
      exact ⟨by simpa using h.2, ht⟩

theorem self_mem_desc {s : State} {t : String} (ht : t ≠ "") : t ∈ getAllDescendantIds s t := by
  unfold getAllDescendantIds
  rw [if_neg ht]
  split
  · simp
  · rw [mem_dedupe, List.mem_filter, collectChildren_append]
    simp [ht]

theorem mem_desc_cases {s : State} {t y : String} (h : y ∈ getAllDescendantIds s t) :
    y = t ∨ ∃ tag, getTagById s t = some tag ∧ y ∈ tag.children.allKeys := by
  unfold getAllDescendantIds at h
  split at h
  · simp at h
  · split at h
    · exact Or.inl (by simpa using h)
    · rename_i tag htag
      rw [mem_dedupe, List.mem_filter, collectChildren_append] at h
      simp only [List.mem_append, List.mem_singleton] at h
      rcases h.1 with h1 | h1
      · exact Or.inl h1
      · exact Or.inr ⟨tag, htag, mem_collectChildren h1⟩

theorem mem_desc_of_child {s : State} {t y : String} {tag : Tag}
    (hU : s.categories.UniqueIds) (htag : getTagById s t = some tag)
    (hy : y ∈ tag.children.allKeys) : y ∈ getAllDescendantIds s t := by
  have hfind : findTagById s.categories t = some tag := by
    unfold getTagById at htag
    split at htag
    · exact absurd htag (by simp)
    · exact htag
  have hsub := (findTagById_some_sub hfind).2.1
  have hne : "" ∉ tag.children.allKeys := fun hm => hU.2 (hsub _ hm)
  have ht : t ≠ "" := by
    intro e
    unfold getTagById at htag
    simp [e] at htag
  unfold getAllDescendantIds
  rw [if_neg ht, htag]
  simp only
  rw [mem_dedupe, List.mem_filter, collectChildren_append, collectChildren_eq_allKeys hne]
  refine ⟨List.mem_append_right _ hy, ?_⟩
  have : y ≠ "" := fun e => hne (e ▸ hy)
  simpa using this

theorem getTagById_eq_find {s : State} {t : String} {tag : Tag}
    (h : getTagById s t = some tag) : findTagById s.categories t = some tag ∧ t ∈ s.tagMap := by
  unfold getTagById at h
  split at h
  · exact absurd h (by simp)
  · rename_i hc
    simp only [not_or, not_not] at hc
    exact ⟨h, hc.2⟩

theorem rank_lt {s : State} {x y : String} (hU : s.categories.UniqueIds)
    (hy : y ∈ getAllDescendantIds s x) (hne : y ≠ x) : rank s y < rank s x := by
  rcases mem_desc_cases hy with h | ⟨tag, htag, hmem⟩
  · exact absurd h hne
  · obtain ⟨hfind, -⟩ := getTagById_eq_find htag
    unfold rank
    rw [htag]
    cases hty : getTagById s y with
    | none => simp
    | some tagY =>
      obtain ⟨hfindY, -⟩ := getTagById_eq_find hty
      rw [findTagById_inside hU.1 hfind hmem] at hfindY
      have := (findTagById_some_sub hfindY).2.2
      simp only
      omega

theorem desc_trans {s : State} {x a d : String} (hU : s.categories.UniqueIds)
    (ha : a ∈ getAllDescendantIds s x) (hd : d ∈ getAllDescendantIds s a) :
    d ∈ getAllDescendantIds s x := by
  rcases mem_desc_cases ha with h | ⟨tagX, htagX, hmemA⟩
  · exact h ▸ hd
  · rcases mem_desc_cases hd with h | ⟨tagA, htagA, hmemD⟩
    · exact h ▸ ha
    · obtain ⟨hfindX, -⟩ := getTagById_eq_find htagX
      obtain ⟨hfindA, -⟩ := getTagById_eq_find htagA
      rw [findTagById_inside hU.1 hfindX hmemA] at hfindA
      exact mem_desc_of_child hU htagX ((findTagById_some_sub hfindA).2.1 d hmemD)

theorem desc_antisymm {s : State} {x y : String} (hU : s.categories.UniqueIds)
    (hy : y ∈ getAllDescendantIds s x) (hx : x ∈ getAllDescendantIds s y) : x = y := by
  by_contra hne
  have h1 := rank_lt hU hy (fun e => hne e.symm)
  have h2 := rank_lt hU hx hne
  omega

/-! ## Redundancy elimination -/

theorem mem_toRemove {s : State} {x : String} :
    x ∈ toRemove s ↔ x ≠ "" ∧ x ∈ s.activeFilters ∧
      ((∃ y ∈ s.activeFilters, y ≠ x ∧ y ∈ getAllDescendantIds s x) ∨
        2 ≤ s.activeFilters.count x) := by
  have hstep : x ∈ toRemove s ↔ x ∈ ([] : List String) ∨
      ∃ i ∈ List.range s.activeFilters.length,
        (s.activeFilters.getD i "" = x ∧ x ≠ "" ∧
          ∃ j, j < s.activeFilters.length ∧ i ≠ j ∧
            s.activeFilters.getD j "" ∈ getAllDescendantIds s x) := by
    unfold toRemove
    apply mem_foldl_step
    intro acc i
    simp only
    split
    · rename_i he
      constructor
      · exact fun h => Or.inl h
      · rintro (h | ⟨h1, h2, -⟩)
        · exact h
        · exact absurd (he.symm.trans h1).symm h2
    · rename_i he
      split
      · rename_i hany
        rw [mem_setKey]
        simp only [List.any_eq_true, List.mem_range, Bool.and_eq_true, bne_iff_ne, ne_eq,
          List.contains, List.elem_eq_mem, decide_eq_true_eq] at hany
        constructor
        · rintro (h | h)
          · exact Or.inl h
          · subst h
            exact Or.inr ⟨rfl, he, hany⟩
        · rintro (h | ⟨h1, -, -⟩)
          · exact Or.inl h
          · exact Or.inr h1.symm
      · rename_i hany
        simp only [List.any_eq_true, List.mem_range, Bool.and_eq_true, bne_iff_ne, ne_eq,
          List.contains, List.elem_eq_mem, decide_eq_true_eq] at hany
        constructor
        · exact fun h => Or.inl h
        · rintro (h | ⟨h1, -, h3⟩)
          · exact h
          · subst h1
            exact absurd h3 hany
  rw [hstep]
  simp only [List.not_mem_nil, false_or, List.mem_range]
  constructor
  · rintro ⟨i, hi, hx, hne, j, hj, hij, hd⟩
    have hp := (pair_positions s.activeFilters x (s.activeFilters.getD j "")).mp
      ⟨i, hi, hx, j, hj, hij, rfl⟩
    have hxm : x ∈ s.activeFilters := by
      rw [← hx, List.getD_eq_getElem _ _ hi]
      exact List.getElem_mem _
    refine ⟨hne, hxm, ?_⟩
    rcases hp with ⟨h1, -, h3⟩ | ⟨-, h2⟩
    · exact Or.inl ⟨_, h3, fun e => h1 e.symm, hd⟩
    · exact Or.inr h2
  · rintro ⟨hne, hxm, h | h⟩
    · obtain ⟨y, hy, hyx, hd⟩ := h
      obtain ⟨i, hi, hx, j, hj, hij, hyj⟩ :=
        (pair_positions s.activeFilters x y).mpr (Or.inl ⟨fun e => hyx e.symm, hxm, hy⟩)
      exact ⟨i, hi, hx, hne, j, hj, hij, hyj ▸ hd⟩
    · obtain ⟨i, hi, hx, j, hj, hij, hyj⟩ :=
        (pair_positions s.activeFilters x x).mpr (Or.inr ⟨rfl, h⟩)
      exact ⟨i, hi, hx, hne, j, hj, hij, by rw [hyj]; exact self_mem_desc hne⟩

theorem mem_cleanedFilters {s : State} {x : String} :
    x ∈ cleanedFilters s ↔ x ∈ s.activeFilters ∧ x ∉ toRemove s := by
  unfold cleanedFilters
  simp [List.mem_filter]

theorem exists_min_rank (s : State) (l : List String) (hl : l ≠ []) :
    ∃ x ∈ l, ∀ y ∈ l, rank s x ≤ rank s y := by
  induction l with
  | nil => exact absurd rfl hl
  | cons a l ih =>
    by_cases hl2 : l = []
    · subst hl2
      exact ⟨a, by simp, by simp⟩
    · obtain ⟨x, hx, hmin⟩ := ih hl2
      by_cases hax : rank s a ≤ rank s x
      · refine ⟨a, by simp, ?_⟩
        intro y hy
        rcases List.mem_cons.mp hy with h | h
        · rw [h]
        · exact le_trans hax (hmin y h)
      · refine ⟨x, List.mem_cons_of_mem _ hx, ?_⟩
        intro y hy
        rcases List.mem_cons.mp hy with h | h
        · rw [h]; omega
        · exact hmin y h

theorem cleanedFilters_ne_nil {s : State} (hU : s.categories.UniqueIds)
    (hne : s.activeFilters ≠ []) (hnd : s.activeFilters.Nodup) : cleanedFilters s ≠ [] := by
  obtain ⟨x, hx, hmin⟩ := exists_min_rank s s.activeFilters hne
  have hxc : x ∈ cleanedFilters s := by
    rw [mem_cleanedFilters]
    refine ⟨hx, ?_⟩
    rw [mem_toRemove]
    rintro ⟨-, -, ⟨y, hy, hyx, hd⟩ | hc⟩
    · have := rank_lt hU hd hyx
      have := hmin y hy
      omega
    · have := List.nodup_iff_count_le_one.mp hnd x
      omega
  intro h
  rw [h] at hxc
  simp at hxc

theorem expandedFiltersList_eq (s : State) :
    expandedFiltersList s =
      ((cleanedFilters s).filter (fun t => t != "")).map (getAllDescendantIds s) := by
  unfold expandedFiltersList
  induction cleanedFilters s with
  | nil => rfl
  | cons t l ih =>
    simp only [List.map_cons, List.filter_cons]
    by_cases ht : t = ""
    · subst ht
      simpa using ih
    · have hself := self_mem_desc (s := s) ht
      have hfil : (getAllDescendantIds s t).filter (fun id => id != "") =
          getAllDescendantIds s t := by
        rw [List.filter_eq_self]
        intro a ha
        simpa using (mem_desc_ne ha).1
      have hpos : 0 < (getAllDescendantIds s t).length := List.length_pos_of_mem hself
      have hb : (t != "") = true := by simpa using ht
      rw [if_neg ht, hfil, hb, if_pos rfl, List.map_cons, ← ih]
      rw [if_pos (by simpa using hpos)]

theorem mem_expanded {s : State} {set : List String} :
    set ∈ expandedFiltersList s ↔
      ∃ t ∈ cleanedFilters s, t ≠ "" ∧ set = getAllDescendantIds s t := by
  rw [expandedFiltersList_eq]
  simp only [List.mem_map, List.mem_filter, bne_iff_ne, ne_eq, decide_eq_true_eq]
  constructor
  · rintro ⟨t, ⟨h1, h2⟩, rfl⟩
    exact ⟨t, h1, h2, rfl⟩
  · rintro ⟨t, h1, h2, rfl⟩
    exact ⟨t, ⟨h1, h2⟩, rfl⟩

theorem mem_allFilterIds {s : State} {c : String} :
    c ∈ allFilterIds s ↔ ∃ t ∈ cleanedFilters s, c ∈ getAllDescendantIds s t := by
  unfold allFilterIds
  rw [mem_dedupe, List.mem_flatten]
  constructor
  · rintro ⟨set, hset, hc⟩
    obtain ⟨t, ht, -, rfl⟩ := mem_expanded.mp hset
    exact ⟨t, ht, hc⟩
  · rintro ⟨t, ht, hc⟩
    exact ⟨_, mem_expanded.mpr ⟨t, ht, (mem_desc_ne hc).2, rfl⟩, hc⟩

theorem expandedFiltersList_ne_nil {s : State} (hc : cleanedFilters s ≠ [])
    (hids : ∀ t ∈ s.activeFilters, t ≠ "") : expandedFiltersList s ≠ [] := by
  obtain ⟨t, ht⟩ := List.exists_mem_of_ne_nil _ hc
  have hne : t ≠ "" := hids t (mem_cleanedFilters.mp ht).1
  intro h
  have := mem_expanded.mpr ⟨t, ht, hne, rfl⟩
  rw [h] at this
  simp at this

/-- The predicate of the filter call in the OR branch of `getFilteredNotes`. -/
theorem visible_or {s : State} {note : Note} :
    (if note.categories.length = 0 then false
      else note.categories.any (fun catId =>
        if catId = "" then false else (allFilterIds s).contains catId)) = true ↔
      ∃ c ∈ note.categories, ∃ t ∈ cleanedFilters s, c ∈ getAllDescendantIds s t := by
  constructor
  · intro h
    split at h
    · simp at h
    · rw [List.any_eq_true] at h
      obtain ⟨c, hc, hv⟩ := h
      split at hv
      · simp at hv
      · simp only [List.contains, List.elem_eq_mem, decide_eq_true_eq] at hv
        exact ⟨c, hc, mem_allFilterIds.mp hv⟩
  · rintro ⟨c, hc, t, ht, hd⟩
    have hlen : ¬ note.categories.length = 0 := by
      have := List.length_pos_of_mem hc
      omega
    rw [if_neg hlen, List.any_eq_true]
    refine ⟨c, hc, ?_⟩
    rw [if_neg (mem_desc_ne hd).1]
    simp only [List.contains, List.elem_eq_mem, decide_eq_true_eq]
    exact mem_allFilterIds.mpr ⟨t, ht, hd⟩

/-- The predicate of the filter call in the AND branch of `getFilteredNotes`. -/
theorem visible_and {s : State} {note : Note} :
    (if note.categories.length = 0 then false
      else (expandedFiltersList s).all (fun expandedSet =>
        note.categories.any (fun catId =>
          if catId = "" then false else expandedSet.contains catId))) = true ↔
      note.categories ≠ [] ∧
        ∀ t ∈ cleanedFilters s, t ≠ "" →
          ∃ c ∈ note.categories, c ∈ getAllDescendantIds s t := by
  constructor
  · intro h
    split at h
    · simp at h
    · rename_i hlen
      refine ⟨fun e => hlen (by simp [e]), ?_⟩
      intro t ht hne
      rw [List.all_eq_true] at h
      have := h _ (mem_expanded.mpr ⟨t, ht, hne, rfl⟩)
      rw [List.any_eq_true] at this
      obtain ⟨c, hc, hv⟩ := this
      split at hv
      · simp at hv
      · simp only [List.contains, List.elem_eq_mem, decide_eq_true_eq] at hv
        exact ⟨c, hc, hv⟩
  · rintro ⟨hne, h⟩
    have hlen : ¬ note.categories.length = 0 := fun e => hne (List.length_eq_zero.mp e)
    rw [if_neg hlen, List.all_eq_true]
    intro set hset
    obtain ⟨t, ht, htne, rfl⟩ := mem_expanded.mp hset
    obtain ⟨c, hc, hd⟩ := h t ht htne
    rw [List.any_eq_true]
    refine ⟨c, hc, ?_⟩
    rw [if_neg (mem_desc_ne hd).1]
    simpa only [List.contains, List.elem_eq_mem, decide_eq_true_eq] using hd

theorem mem_getFilteredNotes_or {s : State} (h1 : s.activeFilters ≠ [])
    (h2 : cleanedFilters s ≠ []) (h3 : expandedFiltersList s ≠ [])
    (hmode : s.filterMode = FilterMode.OR) (note : Note) :
    note ∈ getFilteredNotes s ↔
      note ∈ s.notes ∧
        ∃ c ∈ note.categories, ∃ t ∈ cleanedFilters s, c ∈ getAllDescendantIds s t := by
  unfold getFilteredNotes
  rw [if_neg (fun e => h1 (List.length_eq_zero.mp e)),
    if_neg (fun e => h2 (List.length_eq_zero.mp e)),
    if_neg (fun e => h3 (List.length_eq_zero.mp e)), hmode]
  simp only [List.mem_filter, visible_or]

theorem mem_getFilteredNotes_and {s : State} (h1 : s.activeFilters ≠ [])
    (h2 : cleanedFilters s ≠ []) (h3 : expandedFiltersList s ≠ [])
    (hmode : s.filterMode = FilterMode.AND) (note : Note) :
    note ∈ getFilteredNotes s ↔
      note ∈ s.notes ∧ note.categories ≠ [] ∧
        ∀ t ∈ cleanedFilters s, t ≠ "" →
          ∃ c ∈ note.categories, c ∈ getAllDescendantIds s t := by
  unfold getFilteredNotes
  rw [if_neg (fun e => h1 (List.length_eq_zero.mp e)),
    if_neg (fun e => h2 (List.length_eq_zero.mp e)),
    if_neg (fun e => h3 (List.length_eq_zero.mp e)), hmode]
  simp only [List.mem_filter, visible_and]

theorem getFilteredNotes_congr {s1 s2 : State} (hn : s1.notes = s2.notes)
    (hm : s1.filterMode = s2.filterMode)
    (hd : ∀ t, getAllDescendantIds s1 t = getAllDescendantIds s2 t)
    (he : s1.activeFilters = [] ↔ s2.activeFilters = [])
    (hc : cleanedFilters s1 = cleanedFilters s2) :
    getFilteredNotes s1 = getFilteredNotes s2 := by
  have hexp : expandedFiltersList s1 = expandedFiltersList s2 := by
    rw [expandedFiltersList_eq, expandedFiltersList_eq, hc]
    exact List.map_congr_left (fun t _ => hd t)
  have hall : allFilterIds s1 = allFilterIds s2 := by
    unfold allFilterIds
    rw [hexp]
  have hlen : (s1.activeFilters.length = 0) ↔ (s2.activeFilters.length = 0) := by
    rw [List.length_eq_zero, List.length_eq_zero]
    exact he
  unfold getFilteredNotes
  by_cases h0 : s1.activeFilters.length = 0
  · rw [if_pos h0, if_pos (hlen.mp h0), hn]
  · rw [if_neg h0, if_neg (fun e => h0 (hlen.mpr e)), hc, hexp, hall, hn, hm]

theorem cleanedFilters_singleton (s : State) (t : String) (h : s.activeFilters = [t]) :
    cleanedFilters s = [t] := by
  have hnot : t ∉ toRemove s := by
    rw [mem_toRemove, h]
    rintro ⟨-, -, ⟨y, hy, hyt, -⟩ | hc⟩
    · exact hyt (List.mem_singleton.mp hy)
    · simp at hc
  unfold cleanedFilters
  rw [h]
  simp [List.filter_cons, hnot]

theorem cleanedFilters_pair (s : State) (a b : String) (hU : s.categories.UniqueIds)
    (hb : b ∈ getAllDescendantIds s a) (hne : b ≠ a) (h : s.activeFilters = [a, b]) :
    cleanedFilters s = [b] := by
  have ha : a ∈ toRemove s := by
    rw [mem_toRemove, h]
    exact ⟨(mem_desc_ne hb).2, by simp, Or.inl ⟨b, by simp, hne, hb⟩⟩
  have hnb : b ∉ toRemove s := by
    rw [mem_toRemove, h]
    rintro ⟨-, -, ⟨y, hy, hyb, hd⟩ | hc⟩
    · simp only [List.mem_cons, List.mem_singleton, List.not_mem_nil, or_false] at hy
      rcases hy with rfl | rfl
      · exact hyb (desc_antisymm hU hb hd)
      · exact hyb rfl
    · rw [List.count_cons, List.count_cons] at hc
      simp [hne, Ne.symm hne] at hc
  unfold cleanedFilters
  rw [h]
  simp [List.filter_cons, ha, hnb]

/-- Claim C6, as stated, fails on Scenario B: Cafe is a descendant of the selected tag Scene, and
appending it to `activeFilters` changes the result of `getFilteredNotes` from the items I1 and I2
to the item I1 alone. -/
theorem filter_monotonicity_counterexample :
    "tag_scene" ∈ (sceneState ["tag_scene"] FilterMode.OR).activeFilters ∧
      "tag_cafe" ∈ getAllDescendantIds (sceneState ["tag_scene"] FilterMode.OR) "tag_scene" ∧
      getFilteredNotes (sceneState ["tag_scene"] FilterMode.OR) = [noteI1, noteI2] ∧
      getFilteredNotes (sceneState (["tag_scene"] ++ ["tag_cafe"]) FilterMode.OR) = [noteI1] := by
  decide

/-- Claim C6, amended: over a tree with unique ids, appending a strict descendant `D` of a selected
tag `A` to `activeFilters` makes `A` redundant: `getFilteredNotes` returns the same notes as for
the filter list from which `A` has been removed and to which `D` has been appended (in either
filter mode). -/
theorem descendant_replaces_ancestor (s : State) (A D : String)
    (hU : s.categories.UniqueIds) (hA : A ∈ s.activeFilters)
    (hD : D ∈ getAllDescendantIds s A) (hne : D ≠ A) :
    getFilteredNotes { s with activeFilters := s.activeFilters ++ [D] } =
      getFilteredNotes
        { s with activeFilters := s.activeFilters.filter (fun t => t != A) ++ [D] } := by
  refine getFilteredNotes_congr ?_ ?_ ?_ ?_ ?_
  · rfl
  · rfl
  · exact fun _ => rfl
  · simp
  · have hAne : A ≠ "" := (mem_desc_ne hD).2
    have hTA : A ∈ toRemove { s with activeFilters := s.activeFilters ++ [D] } := by
      rw [mem_toRemove]
      exact ⟨hAne, by simp [hA], Or.inl ⟨D, by simp, hne, hD⟩⟩
    have hT : ∀ x, x ≠ A →
        (x ∈ toRemove { s with activeFilters := s.activeFilters ++ [D] } ↔
          x ∈ toRemove
            { s with activeFilters := s.activeFilters.filter (fun t => t != A) ++ [D] }) := by
      intro x hxA
      have hmem : ∀ y, y ≠ A →
          (y ∈ s.activeFilters ++ [D] ↔
            y ∈ s.activeFilters.filter (fun t => t != A) ++ [D]) := by
        intro y hy
        simp [List.mem_filter, hy]
      have hcount : (s.activeFilters ++ [D]).count x =
          (s.activeFilters.filter (fun t => t != A) ++ [D]).count x := by
        rw [List.count_append, List.count_append, List.count_filter]
        simpa using hxA
      rw [mem_toRemove, mem_toRemove]
      show (x ≠ "" ∧ x ∈ s.activeFilters ++ [D] ∧
          ((∃ y ∈ s.activeFilters ++ [D], y ≠ x ∧ y ∈ getAllDescendantIds s x) ∨
            2 ≤ (s.activeFilters ++ [D]).count x)) ↔
        (x ≠ "" ∧ x ∈ s.activeFilters.filter (fun t => t != A) ++ [D] ∧
          ((∃ y ∈ s.activeFilters.filter (fun t => t != A) ++ [D],
              y ≠ x ∧ y ∈ getAllDescendantIds s x) ∨
            2 ≤ (s.activeFilters.filter (fun t => t != A) ++ [D]).count x))
      rw [hmem x hxA, hcount]
      refine and_congr_right (fun _ => and_congr_right (fun _ => or_congr_left ?_))
      constructor
      · rintro ⟨y, hy, hyx, hd⟩
        by_cases hyA : y = A
        · subst hyA
          refine ⟨D, by simp, ?_, desc_trans hU hd hD⟩
          rintro rfl
          exact hne (desc_antisymm hU hD hd).symm
        · exact ⟨y, (hmem y hyA).mp hy, hyx, hd⟩
      · rintro ⟨y, hy, hyx, hd⟩
        refine ⟨y, ?_, hyx, hd⟩
        simp only [List.mem_append, List.mem_filter, List.mem_singleton] at hy ⊢
        tauto
    unfold cleanedFilters
    show List.filter _ (s.activeFilters ++ [D]) =
      List.filter _ (s.activeFilters.filter (fun t => t != A) ++ [D])
    rw [List.filter_append, List.filter_append, List.filter_filter]
    congr 1
    · apply List.filter_congr
      intro x _
      by_cases hxA : x = A
      · subst hxA
        simp [hTA]
      · simp [hT x hxA, hxA]
    · apply List.filter_congr
      intro x hx
      have hxD : x = D := List.mem_singleton.mp hx
      simp [hT x (hxD ▸ hne)]

/-- The amended claim C6 at Scenario B: appending Cafe to the filter list holding Scene gives the
result of the filter list holding Cafe alone. -/
theorem descendant_replaces_ancestor_witness :
    (sceneState ["tag_scene"] FilterMode.OR).categories.UniqueIds ∧
      getFilteredNotes
          { sceneState ["tag_scene"] FilterMode.OR with
            activeFilters := (sceneState ["tag_scene"] FilterMode.OR).activeFilters ++
              ["tag_cafe"] } =
        getFilteredNotes
          { sceneState ["tag_scene"] FilterMode.OR with
            activeFilters := (sceneState ["tag_scene"] FilterMode.OR).activeFilters.filter
              (fun t => t != "tag_scene") ++ ["tag_cafe"] } :=
  ⟨by decide,
    descendant_replaces_ancestor (sceneState ["tag_scene"] FilterMode.OR) "tag_scene" "tag_cafe"
      (by decide) (by decide) (by decide) (by decide)⟩

/-- Claim C7 (OR semantics): over a tree with unique ids, for a non-empty duplicate-free list of
selected tag ids in OR mode, a note is returned by `getFilteredNotes` exactly when it is a note of
the store and one of its categories lies in the descendant closure of a selected tag that survives
redundancy elimination; in particular, when a single tag is selected every note tagged with one of
its descendants is returned. -/
theorem or_semantics (s : State) (hU : s.categories.UniqueIds)
    (hne : s.activeFilters ≠ []) (hnd : s.activeFilters.Nodup)
    (hids : ∀ t ∈ s.activeFilters, t ≠ "") (hmode : s.filterMode = FilterMode.OR) :
    (∀ note, note ∈ getFilteredNotes s ↔
      note ∈ s.notes ∧
        ∃ c ∈ note.categories, ∃ t ∈ cleanedFilters s, c ∈ getAllDescendantIds s t) ∧
    (∀ parent, s.activeFilters = [parent] →
      ∀ note ∈ s.notes, ∀ c ∈ note.categories,
        c ∈ getAllDescendantIds s parent → note ∈ getFilteredNotes s) := by
  have h2 := cleanedFilters_ne_nil hU hne hnd
  have h3 := expandedFiltersList_ne_nil h2 hids
  refine ⟨mem_getFilteredNotes_or hne h2 h3 hmode, ?_⟩
  intro parent hp note hn c hc hd
  rw [mem_getFilteredNotes_or hne h2 h3 hmode]
  refine ⟨hn, c, hc, parent, ?_, hd⟩
  rw [cleanedFilters_singleton s parent hp]
  exact List.mem_singleton.mpr rfl

/-- Scenario A: with Scene selected in OR mode, the items I1 (tagged Cafe) and I2 (tagged School)
are both visible. -/
theorem or_semantics_witness :
    (sceneState ["tag_scene"] FilterMode.OR).categories.UniqueIds ∧
      noteI1 ∈ getFilteredNotes (sceneState ["tag_scene"] FilterMode.OR) ∧
      noteI2 ∈ getFilteredNotes (sceneState ["tag_scene"] FilterMode.OR) :=
  ⟨by decide,
    (or_semantics (sceneState ["tag_scene"] FilterMode.OR) (by decide) (by decide) (by decide)
      (by decide) rfl).2 "tag_scene" rfl noteI1 (by decide) "tag_cafe" (by decide) (by decide),
    (or_semantics (sceneState ["tag_scene"] FilterMode.OR) (by decide) (by decide) (by decide)
      (by decide) rfl).2 "tag_scene" rfl noteI2 (by decide) "tag_school" (by decide)
      (by decide)⟩

/-- Claim C8 (AND semantics): over a tree with unique ids, for a non-empty duplicate-free list of
selected tag ids in AND mode, a note is returned by `getFilteredNotes` exactly when it is a note of
the store and, for every selected tag that survives redundancy elimination, one of its categories
lies in the descendant closure of that tag. -/
theorem and_semantics (s : State) (hU : s.categories.UniqueIds)
    (hne : s.activeFilters ≠ []) (hnd : s.activeFilters.Nodup)
    (hids : ∀ t ∈ s.activeFilters, t ≠ "") (hmode : s.filterMode = FilterMode.AND) (note : Note) :
    note ∈ getFilteredNotes s ↔
      note ∈ s.notes ∧
        ∀ t ∈ cleanedFilters s, ∃ c ∈ note.categories, c ∈ getAllDescendantIds s t := by
  have h2 := cleanedFilters_ne_nil hU hne hnd
  have h3 := expandedFiltersList_ne_nil h2 hids
  rw [mem_getFilteredNotes_and hne h2 h3 hmode]
  constructor
  · rintro ⟨hn, -, h⟩
    exact ⟨hn, fun t ht => h t ht (hids t (mem_cleanedFilters.mp ht).1)⟩
  · rintro ⟨hn, h⟩
    refine ⟨hn, ?_, fun t ht _ => h t ht⟩
    obtain ⟨t, ht⟩ := List.exists_mem_of_ne_nil _ h2
    obtain ⟨c, hc, -⟩ := h t ht
    exact List.ne_nil_of_mem hc

/-- With Scene and School selected in AND mode the effective filter is School: the item I2 is
visible and the item I1 is not. -/
theorem and_semantics_witness :
    (sceneState ["tag_scene", "tag_school"] FilterMode.AND).categories.UniqueIds ∧
      noteI2 ∈ getFilteredNotes (sceneState ["tag_scene", "tag_school"] FilterMode.AND) ∧
      noteI1 ∉ getFilteredNotes (sceneState ["tag_scene", "tag_school"] FilterMode.AND) :=
  ⟨by decide,
    (and_semantics (sceneState ["tag_scene", "tag_school"] FilterMode.AND) (by decide)
      (by decide) (by decide) (by decide) rfl noteI2).mpr (by decide),
    fun h => absurd
      ((and_semantics (sceneState ["tag_scene", "tag_school"] FilterMode.AND) (by decide)
        (by decide) (by decide) (by decide) rfl noteI1).mp h) (by decide)⟩

/-- Claim C9 (redundancy elimination): over a tree with unique ids, for a tag `A` and a strict
descendant `B` of it, `getFilteredNotes` with the filter list `[A, B]` returns the same notes as
with the filter list `[B]`, in OR and in AND mode; and for every duplicate-free filter list the
effective filter list consists of exactly the selected tags that have no other selected tag in
their descendant closure, in their original order. -/
theorem redundancy_elimination (s : State) :
    (s.categories.UniqueIds → ∀ A B : String, B ∈ getAllDescendantIds s A → B ≠ A →
      ∀ mode : FilterMode,
        getFilteredNotes { s with activeFilters := [A, B], filterMode := mode } =
          getFilteredNotes { s with activeFilters := [B], filterMode := mode }) ∧
    (s.activeFilters.Nodup →
      cleanedFilters s = s.activeFilters.filter (fun x =>
        decide (∀ y ∈ s.activeFilters, y ≠ x → y ∉ getAllDescendantIds s x))) := by
  constructor
  · intro hU A B hB hne mode
    refine getFilteredNotes_congr ?_ ?_ ?_ ?_ ?_
    · rfl
    · rfl
    · exact fun _ => rfl
    · simp
    · rw [cleanedFilters_pair { s with activeFilters := [A, B], filterMode := mode } A B hU hB
        hne rfl,
        cleanedFilters_singleton { s with activeFilters := [B], filterMode := mode } B rfl]
  · intro hnd
    unfold cleanedFilters
    apply List.filter_congr
    intro x hx
    have hcount := List.nodup_iff_count_le_one.mp hnd x
    by_cases hxr : x ∈ toRemove s
    · have h := mem_toRemove.mp hxr
      rcases h.2.2 with ⟨y, hy, hyx, hd⟩ | hc
      · have : ¬ ∀ y ∈ s.activeFilters, y ≠ x → y ∉ getAllDescendantIds s x :=
          fun hall => hall y hy hyx hd
        simp only [List.contains, List.elem_eq_mem, hxr, decide_True, Bool.not_true]
        exact (decide_eq_false this).symm
      · omega
    · have : ∀ y ∈ s.activeFilters, y ≠ x → y ∉ getAllDescendantIds s x := by
        intro y hy hyx hd
        exact hxr (mem_toRemove.mpr ⟨(mem_desc_ne hd).2, hx, Or.inl ⟨y, hy, hyx, hd⟩⟩)
      simp only [List.contains, List.elem_eq_mem, hxr, decide_False, Bool.not_false]
      exact (decide_eq_true this).symm

/-- Scenario B: with Scene and Cafe selected, the effective filter list is Cafe alone and the
result is that of selecting Cafe alone, in both modes. -/
theorem redundancy_elimination_witness :
    sceneTree.UniqueIds ∧
      (∀ mode : FilterMode,
        getFilteredNotes { sceneState [] FilterMode.OR with
            activeFilters := ["tag_scene", "tag_cafe"], filterMode := mode } =
          getFilteredNotes { sceneState [] FilterMode.OR with
            activeFilters := ["tag_cafe"], filterMode := mode }) ∧
      cleanedFilters (sceneState ["tag_scene", "tag_cafe"] FilterMode.OR) = ["tag_cafe"] :=
  ⟨by decide,
    (redundancy_elimination (sceneState [] FilterMode.OR)).1 (by decide) "tag_scene" "tag_cafe"
      (by decide) (by decide),
    ((redundancy_elimination (sceneState ["tag_scene", "tag_cafe"] FilterMode.OR)).2
      (by decide)).trans (by decide)⟩

/-- A filter list that names a tag twice, which no write of `activeFilters` produces
(`toggleFilter_nodup`, `deleteCategory_filters_nodup`), loses both occurrences in the redundancy
elimination, and `getFilteredNotes` returns every note. -/
theorem repeated_filter_is_dropped :
    (sceneState ["tag_scene", "tag_scene"] FilterMode.OR).activeFilters ≠ [] ∧
      noteI3.categories = [] ∧
      noteI3 ∈ getFilteredNotes (sceneState ["tag_scene", "tag_scene"] FilterMode.OR) ∧
      noteI3 ∈ getFilteredNotes (sceneState ["tag_scene", "tag_scene"] FilterMode.AND) := by
  decide

/-- Claim C10.  Over a tree with unique ids, for either filter mode and every non-empty filter
list of tag ids (an ordered set of non-empty strings, as every write of `activeFilters` keeps
it), `getFilteredNotes` returns no note whose categories list is empty. -/
theorem no_untagged_note_visible (s : State) (hU : s.categories.UniqueIds)
    (hne : s.activeFilters ≠ []) (hnd : s.activeFilters.Nodup)
    (hids : ∀ t ∈ s.activeFilters, t ≠ "") :
    ∀ note ∈ getFilteredNotes s, note.categories ≠ [] := by
  have h2 := cleanedFilters_ne_nil hU hne hnd
  have h3 := expandedFiltersList_ne_nil h2 hids
  intro note hn
  cases hmode : s.filterMode with
  | OR =>
    obtain ⟨-, c, hc, -⟩ := (mem_getFilteredNotes_or hne h2 h3 hmode note).mp hn
    exact List.ne_nil_of_mem hc
  | AND =>
    exact ((mem_getFilteredNotes_and hne h2 h3 hmode note).mp hn).2.1

/-- With Scene selected, and with Cafe and School selected, in either mode, the item without
tags is not visible. -/
theorem no_untagged_note_visible_witness :
    (sceneState ["tag_scene"] FilterMode.AND).categories.UniqueIds ∧
      noteI3 ∉ getFilteredNotes (sceneState ["tag_scene"] FilterMode.AND) ∧
      noteI3 ∉ getFilteredNotes (sceneState ["tag_cafe", "tag_school"] FilterMode.OR) ∧
      noteI3 ∉ getFilteredNotes (sceneState ["tag_cafe", "tag_school"] FilterMode.AND) :=
  ⟨by decide,
    fun h => no_untagged_note_visible (sceneState ["tag_scene"] FilterMode.AND) (by decide)
      (by decide) (by decide) (by decide) noteI3 h rfl,
    fun h => no_untagged_note_visible (sceneState ["tag_cafe", "tag_school"] FilterMode.OR)
      (by decide) (by decide) (by decide) (by decide) noteI3 h rfl,
    fun h => no_untagged_note_visible (sceneState ["tag_cafe", "tag_school"] FilterMode.AND)
      (by decide) (by decide) (by decide) (by decide) noteI3 h rfl⟩

/-! ## Creating a tag through the selector path -/

/-- Claim C1 fails on the code.  Two `addCategory` calls lead from the empty state to
`nestedRootState`, in which the keys of the index are exactly the ids of the tree; there
`deleteCategory('tag_2_cafe')` removes the id from the index but looks for the node among the
top-level entries (its `parentId` is `null`) and leaves it in the tree, so the rebuilt index has a
key that the maintained index lacks. -/
theorem index_tree_divergence :
    addCategory State.empty [⟨"1", "scene", ""⟩] "Scene" none =
        some (oneTagState, some "tag_1_scene") ∧
      addCategory (openTagSelector oneTagState "tag_1_scene") [⟨"2", "cafe", ""⟩] "Cafe" none =
        some (nestedRootState, some "tag_2_cafe") ∧
      nestedRootState.tagMap = buildTagMap nestedRootState.categories [] ∧
      IndexMatchesTree nestedRootState ∧
      (deleteCategory nestedRootState "tag_2_cafe").1.tagMap = ["tag_1_scene"] ∧
      buildTagMap (deleteCategory nestedRootState "tag_2_cafe").1.categories [] =
        ["tag_1_scene", "tag_2_cafe"] := by
  decide

/-- Claim C3 fails on the code.  The state reached by `addCategory('Scene')` and
`openTagSelector('tag_1_scene')` satisfies the order invariant; `addCategory('Cafe')` without a
parent id then stores the new node in the `children` of Scene but pushes its id onto `rootOrder`
and leaves the order list of Scene empty, so neither list is a permutation of its key set. -/
theorem order_invariant_broken_by_addCategory :
    OrderInvariant (openTagSelector oneTagState "tag_1_scene") ∧
      addCategory (openTagSelector oneTagState "tag_1_scene") [⟨"2", "cafe", ""⟩] "Cafe" none =
        some (nestedRootState, some "tag_2_cafe") ∧
      nestedRootState.rootOrder = ["tag_1_scene", "tag_2_cafe"] ∧
      nestedRootState.categories.keys = ["tag_1_scene"] ∧
      (getTagById nestedRootState "tag_1_scene").map (fun t => (t.order, t.children.keys)) =
        some (some [], ["tag_2_cafe"]) ∧
      ¬ OrderInvariant nestedRootState := by
  decide

/-- Claim C4 fails on the code.  In `nestedRootState` the tag `tag_2_cafe` is in the index and in
its own descendant closure; after `deleteCategory('tag_2_cafe')` it is no longer a key of the index
but it is still a node of the tree. -/
theorem cascade_leaves_node_in_tree :
    "tag_2_cafe" ∈ nestedRootState.tagMap ∧
      "tag_2_cafe" ∈ getAllDescendantIds nestedRootState "tag_2_cafe" ∧
      "tag_2_cafe" ∉ (deleteCategory nestedRootState "tag_2_cafe").1.tagMap ∧
      "tag_2_cafe" ∈ (deleteCategory nestedRootState "tag_2_cafe").1.categories.allKeys := by
  decide

/-! ## Undo and sibling names -/

/-- Claim C2 fails on the code.  Scenario A has unique sibling names.  Renaming Cafe to Coffee
House (the snapshot goes into the undo slot), then creating a new tag Cafe under Scene (the slot is
kept), then `UndoManager.undo()` gives Scene two children named Cafe: `undoRenameTag` restores the
old name without looking at the siblings. -/
theorem undo_rename_duplicates_sibling_name :
    (sceneState [] FilterMode.OR).categories.siblingNamesUnique = true ∧
      renameCategory (sceneState [] FilterMode.OR) "tag_cafe" "Coffee House" =
        (sceneRenamed, some ⟨"tag_cafe", "Cafe"⟩) ∧
      addCategory sceneRenamed [⟨"9", "new", ""⟩] "Cafe" (some "tag_scene") =
        some (sceneRenamedAdded, some "tag_9_new") ∧
      sceneRenamedAdded.categories.siblingNamesUnique = true ∧
      saveAction ⟨sceneRenamed, none⟩ (UndoAction.RENAME_TAG ⟨"tag_cafe", "Cafe"⟩) =
        ⟨sceneRenamed, renameSlotApp.lastAction⟩ ∧
      (undo renameSlotApp).2 = true ∧
      (undo renameSlotApp).1.state.categories.siblingNamesUnique = false ∧
      (getTagById (undo renameSlotApp).1.state "tag_scene").map (fun t => t.children.names) =
        some ["Cafe", "School", "Cafe"] := by
  decide

/-! ## The nodes of a tree -/

theorem allKeys_eq_map_flat (t : TagTree) : t.allKeys = t.flat.map Prod.fst := by
  induction t with
  | nil => rfl
  | node key id name parentId children order rest ihc ihr =>
    simp [TagTree.allKeys, TagTree.flat, ihc, ihr]

theorem allKeys_eq_map_infos (t : TagTree) : t.allKeys = t.infos.map (fun e => e.1) := by
  rw [allKeys_eq_map_flat, TagTree.infos, List.map_map]
  rfl

theorem infos_node (key id name : String) (parentId : Option String) (children : TagTree)
    (order : Option (List String)) (rest : TagTree) :
    (TagTree.node key id name parentId children order rest).infos =
      (key, id, name, parentId) :: (children.infos ++ rest.infos) := by
  simp [TagTree.infos, TagTree.flat]

theorem mem_allKeys_of_mem_flat {t : TagTree} {x : String} {v : Tag} (h : (x, v) ∈ t.flat) :
    x ∈ t.allKeys := by
  rw [allKeys_eq_map_flat]
  exact List.mem_map.mpr ⟨(x, v), h, rfl⟩

theorem find_some_mem_flat {t : TagTree} {x : String} {v : Tag}
    (h : findTagById t x = some v) : (x, v) ∈ t.flat := by
  induction t with
  | nil => simp [findTagById] at h
  | node key id name parentId children order rest ihc ihr =>
    simp only [findTagById] at h
    simp only [TagTree.flat, List.mem_cons, List.mem_append]
    split at h
    · exact absurd h (by simp)
    · split at h
      · rename_i hk
        cases h
        exact Or.inl (by rw [hk])
      · split at h
        · rename_i found hf
          cases h
          exact Or.inr (Or.inl (ihc hf))
        · exact Or.inr (Or.inr (ihr h))

theorem find_of_mem_flat {t : TagTree} {x : String} {v : Tag} (hnd : t.allKeys.Nodup)
    (hx : x ≠ "") (h : (x, v) ∈ t.flat) : findTagById t x = some v := by
  induction t with
  | nil => simp [TagTree.flat] at h
  | node key id name parentId children order rest ihc ihr =>
    simp only [TagTree.allKeys, List.nodup_cons, List.mem_append, not_or,
      List.nodup_append] at hnd
    obtain ⟨⟨hk1, hk2⟩, hc, hr, hdisj⟩ := hnd
    simp only [TagTree.flat, List.mem_cons, List.mem_append, Prod.mk.injEq] at h
    simp only [findTagById, if_neg hx]
    rcases h with ⟨h1, h2⟩ | h | h
    · rw [if_pos h1.symm, h2]
    · have hxc := mem_allKeys_of_mem_flat h
      rw [if_neg (fun e : key = x => hk1 (e ▸ hxc)), ihc hc h]
    · have hxr := mem_allKeys_of_mem_flat h
      rw [if_neg (fun e : key = x => hk2 (e ▸ hxr)),
        findTagById_none_of_not_mem (fun hm => hdisj hm hxr)]
      exact ihr hr h

theorem find_map_of_infos_perm {t u : TagTree} (hnd : t.allKeys.Nodup)
    (hp : u.infos.Perm t.infos) (x : String) :
    (findTagById u x).map (fun n => (n.id, n.name, n.parentId)) =
      (findTagById t x).map (fun n => (n.id, n.name, n.parentId)) := by
  have hndu : u.allKeys.Nodup := by
    rw [allKeys_eq_map_infos] at hnd ⊢
    exact (hp.map _).nodup_iff.mpr hnd
  have key : ∀ (a b : TagTree), a.allKeys.Nodup → b.allKeys.Nodup → a.infos.Perm b.infos →
      ∀ n, findTagById a x = some n →
        (findTagById b x).map (fun n => (n.id, n.name, n.parentId)) =
          some (n.id, n.name, n.parentId) := by
    intro a b hna hnb hab n hn
    have hx : x ≠ "" := by
      rintro rfl
      cases a <;> simp [findTagById] at hn
    have hmem : (x, n.id, n.name, n.parentId) ∈ a.infos :=
      List.mem_map.mpr ⟨(x, n), find_some_mem_flat hn, rfl⟩
    have hmemb : (x, n.id, n.name, n.parentId) ∈ b.infos := hab.mem_iff.mp hmem
    obtain ⟨⟨x2, m⟩, hm, he⟩ := List.mem_map.mp hmemb
    simp only [Prod.mk.injEq] at he
    obtain ⟨rfl, h1, h2, h3⟩ := he
    rw [find_of_mem_flat hnb hx hm]
    simp [h1, h2, h3]
  cases hu : findTagById u x with
  | none =>
    cases ht : findTagById t x with
    | none => rfl
    | some n =>
      have := key t u hnd hndu hp.symm n ht
      rw [hu] at this
      simp at this
  | some n =>
    rw [key u t hndu hnd hp n hu]
    rfl

/-! ## Writing to an object and to a node -/

theorem keys_sublist_allKeys (t : TagTree) : t.keys.Sublist t.allKeys := by
  induction t with
  | nil => exact List.Sublist.slnil
  | node key id name parentId children order rest ihc ihr =>
    simp only [TagTree.keys, TagTree.allKeys]
    exact List.Sublist.cons₂ _ (ihr.trans (List.sublist_append_right _ _))

theorem get_eq_none_of_not_mem {t : TagTree} {k : String} (h : k ∉ t.keys) : t.get k = none := by
  induction t with
  | nil => rfl
  | node key id name parentId children order rest ihc ihr =>
    simp only [TagTree.keys, List.mem_cons, not_or] at h
    simp only [TagTree.get, if_neg (fun e : key = k => h.1 e.symm)]
    exact ihr h.2

theorem mem_keys_of_get {t : TagTree} {k : String} {tag : Tag} (h : t.get k = some tag) :
    k ∈ t.keys := by
  by_contra hk
  rw [get_eq_none_of_not_mem hk] at h
  exact absurd h (by simp)

theorem perm_shuffle {α : Type} (a b : α) (l1 l2 l3 : List α) :
    (a :: (l1 ++ b :: (l2 ++ l3))).Perm (b :: (l2 ++ a :: (l1 ++ l3))) := by
  classical
  rw [List.perm_iff_count]
  intro x
  simp only [List.count_cons, List.count_append]
  omega

theorem flat_delete_perm {t : TagTree} {k : String} {tag : Tag} (h : t.get k = some tag) :
    t.flat.Perm ((k, tag) :: (tag.children.flat ++ (t.delete k).flat)) := by
  induction t with
  | nil => simp [TagTree.get] at h
  | node key id name parentId children order rest ihc ihr =>
    simp only [TagTree.get] at h
    split at h
    · rename_i hk
      cases h
      simp only [TagTree.delete, if_pos hk, TagTree.flat]
      rw [hk]
    · rename_i hk
      simp only [TagTree.delete, if_neg hk, TagTree.flat]
      have := ihr h
      refine (List.Perm.cons _ (List.Perm.append_left _ this)).trans ?_
      exact perm_shuffle _ _ _ _ _

theorem not_mem_keys_delete {t : TagTree} {k : String} (hnd : t.keys.Nodup) :
    k ∉ (t.delete k).keys := by
  induction t with
  | nil => simp [TagTree.delete, TagTree.keys]
  | node key id name parentId children order rest ihc ihr =>
    simp only [TagTree.keys, List.nodup_cons] at hnd
    simp only [TagTree.delete]
    split
    · rename_i hk
      exact hk ▸ hnd.1
    · rename_i hk
      simp only [TagTree.keys, List.mem_cons, not_or]
      exact ⟨fun e => hk e.symm, ihr hnd.2⟩

theorem flat_set_of_not_mem {t : TagTree} {k : String} (tag : Tag) (h : k ∉ t.keys) :
    (t.set k tag).flat = t.flat ++ (k, tag) :: tag.children.flat := by
  induction t with
  | nil => simp [TagTree.set, TagTree.cons, TagTree.flat]
  | node key id name parentId children order rest ihc ihr =>
    simp only [TagTree.keys, List.mem_cons, not_or] at h
    simp only [TagTree.set, if_neg (fun e : key = k => h.1 e.symm), TagTree.flat, ihr h.2]
    simp

theorem flat_delete_set_perm {t : TagTree} {k : String} {tag : Tag} (hnd : t.keys.Nodup)
    (h : t.get k = some tag) : ((t.delete k).set k tag).flat.Perm t.flat := by
  rw [flat_set_of_not_mem tag (not_mem_keys_delete hnd)]
  refine List.Perm.trans ?_ (flat_delete_perm h).symm
  exact List.perm_append_comm.trans (by simp)

theorem mem_flat_delete_set {t : TagTree} {k : String} {tag : Tag} (hnd : t.keys.Nodup) :
    (k, tag) ∈ ((t.delete k).set k tag).flat := by
  rw [flat_set_of_not_mem tag (not_mem_keys_delete hnd)]
  simp

theorem find_update_self {t : TagTree} {k : String} (g : Tag → Tag) (hk : k ≠ "") :
    findTagById (t.update k g) k = (findTagById t k).map g := by
  induction t with
  | nil => rfl
  | node key id name parentId children order rest ihc ihr =>
    simp only [TagTree.update, findTagById, if_neg hk]
    by_cases hkey : key = k
    · simp [hkey, TagTree.cons, findTagById, hk]
    · rw [if_neg hkey, if_neg hkey]
      cases hf : findTagById children k with
      | some found =>
        simp only [Option.isSome_some, if_true, findTagById, if_neg hk, if_neg hkey, ihc, hf,
          Option.map_some']
      | none =>
        simp only [Option.isSome_none, Bool.false_eq_true, if_false, findTagById, if_neg hk,
          if_neg hkey, hf, ihr]

theorem infos_update_perm {t : TagTree} {k : String} {g : Tag → Tag} (hk : k ≠ "")
    (hg : ∀ n, findTagById t k = some n →
      (g n).id = n.id ∧ (g n).name = n.name ∧ (g n).parentId = n.parentId ∧
        (g n).children.infos.Perm n.children.infos) :
    (t.update k g).infos.Perm t.infos := by
  induction t with
  | nil => exact List.Perm.refl _
  | node key id name parentId children order rest ihc ihr =>
    simp only [TagTree.update]
    by_cases hkey : key = k
    · have hfind : findTagById (TagTree.node key id name parentId children order rest) k =
          some ⟨id, name, parentId, children, order⟩ := by
        simp [findTagById, hk, hkey]
      obtain ⟨h1, h2, h3, h4⟩ := hg _ hfind
      rw [if_pos hkey]
      simp only [TagTree.cons, infos_node, h1, h2, h3]
      exact List.Perm.cons _ (List.Perm.append_right _ h4)
    · rw [if_neg hkey]
      cases hf : findTagById children k with
      | some found =>
        simp only [Option.isSome_some, if_true, infos_node]
        refine List.Perm.cons _ (List.Perm.append_right _ (ihc ?_))
        intro n hn
        apply hg
        simp [findTagById, hk, hkey, hn]
      | none =>
        simp only [Option.isSome_none, Bool.false_eq_true, if_false, infos_node]
        refine List.Perm.cons _ (List.Perm.append_left _ (ihr ?_))
        intro n hn
        apply hg
        simp [findTagById, hk, hkey, hf, hn]

theorem mem_flat_update {t : TagTree} {k : String} {g : Tag → Tag} {n : Tag} (hk : k ≠ "")
    (hn : findTagById t k = some n) {x : String} {v : Tag}
    (h : (x, v) ∈ (g n).children.flat) : (x, v) ∈ (t.update k g).flat := by
  induction t with
  | nil => simp [findTagById] at hn
  | node key id name parentId children order rest ihc ihr =>
    simp only [TagTree.update]
    simp only [findTagById, if_neg hk] at hn
    by_cases hkey : key = k
    · rw [if_pos hkey] at hn
      cases hn
      rw [if_pos hkey]
      simp only [TagTree.cons, TagTree.flat, List.mem_cons, List.mem_append]
      exact Or.inr (Or.inl h)
    · rw [if_neg hkey] at hn
      rw [if_neg hkey]
      cases hf : findTagById children k with
      | some found =>
        rw [hf] at hn
        cases hn
        simp only [Option.isSome_some, if_true, TagTree.flat, List.mem_cons, List.mem_append]
        exact Or.inr (Or.inl (ihc hf))
      | none =>
        rw [hf] at hn
        simp only [Option.isSome_none, Bool.false_eq_true, if_false, TagTree.flat,
          List.mem_cons, List.mem_append]
        exact Or.inr (Or.inr (ihr hn))

/-! ## The index -/

theorem nodup_setKey {keys : List String} (k : String) (h : keys.Nodup) :
    (setKey keys k).Nodup := by
  unfold setKey
  split
  · exact h
  · rename_i hk
    rw [List.nodup_append]
    exact ⟨h, List.nodup_singleton k, by simpa using hk⟩

theorem nodup_buildTagMap (t : TagTree) (acc : List String) (h : acc.Nodup) :
    (buildTagMap t acc).Nodup := by
  induction t generalizing acc with
  | nil => exact h
  | node key id name parentId children order rest ihc ihr =>
    simp only [buildTagMap]
    split
    · exact ihr acc h
    · exact ihr _ (ihc _ (nodup_setKey key h))

theorem mem_buildTagMap {t : TagTree} {acc : List String} {x : String}
    (hid : ∀ e ∈ t.infos, e.2.1 ≠ "") :
    x ∈ buildTagMap t acc ↔ x ∈ acc ∨ x ∈ t.allKeys := by
  induction t generalizing acc with
  | nil => simp [buildTagMap, TagTree.allKeys]
  | node key id name parentId children order rest ihc ihr =>
    rw [infos_node] at hid
    have h1 : id ≠ "" := hid (key, id, name, parentId) (by simp)
    have h2 : ∀ e ∈ children.infos, e.2.1 ≠ "" := fun e he => hid e (by simp [he])
    have h3 : ∀ e ∈ rest.infos, e.2.1 ≠ "" := fun e he => hid e (by simp [he])
    simp only [buildTagMap, if_neg h1, ihr h3, ihc h2, mem_setKey, TagTree.allKeys,
      List.mem_cons, List.mem_append]
    tauto

theorem infos_id_eq_key {t : TagTree} (h : t.idsMatch = true) : ∀ e ∈ t.infos, e.2.1 = e.1 := by
  induction t with
  | nil => simp [TagTree.infos, TagTree.flat]
  | node key id name parentId children order rest ihc ihr =>
    simp only [TagTree.idsMatch, Bool.and_eq_true, decide_eq_true_eq] at h
    obtain ⟨⟨h1, h2⟩, h3⟩ := h
    intro e he
    rw [infos_node] at he
    simp only [List.mem_cons, List.mem_append] at he
    rcases he with rfl | he | he
    · exact h1
    · exact ihc h2 e he
    · exact ihr h3 e he

theorem infos_id_ne {t : TagTree} (h : ∀ e ∈ t.infos, e.2.1 = e.1) (hne : "" ∉ t.allKeys) :
    ∀ e ∈ t.infos, e.2.1 ≠ "" := by
  intro e he hid
  apply hne
  rw [allKeys_eq_map_infos]
  exact List.mem_map.mpr ⟨e, he, by rw [← h e he, hid]⟩

/-! ## Order lists -/

theorem jsIndexOf_of_mem {l : List String} {x : String} (h : x ∈ l) :
    ∃ n : Nat, jsIndexOf l x = (n : Int) ∧ n ≤ (l.filter (fun id => id != x)).length ∧
      (l.Nodup → (l.filter (fun id => id != x)).take n ++
        x :: (l.filter (fun id => id != x)).drop n = l) := by
  induction l with
  | nil => simp at h
  | cons y ys ih =>
    by_cases hy : y = x
    · subst hy
      refine ⟨0, by simp [jsIndexOf], Nat.zero_le _, ?_⟩
      intro hnd
      rw [List.nodup_cons] at hnd
      have : ys.filter (fun id => id != y) = ys := by
        rw [List.filter_eq_self]
        intro a ha
        have : a ≠ y := fun e => hnd.1 (e ▸ ha)
        simpa using this
      simp [List.filter_cons, this]
    · have hx : x ∈ ys := by
        rcases List.mem_cons.mp h with h | h
        · exact absurd h.symm hy
        · exact h
      obtain ⟨n, h1, h2, h3⟩ := ih hx
      have hb : (y != x) = true := by simpa using hy
      refine ⟨n + 1, ?_, ?_, ?_⟩
      · simp only [jsIndexOf, if_neg hy, h1]
        have : ¬ ((n : Int) < 0) := by omega
        rw [if_neg this]
        push_cast
        rfl
      · simp only [List.filter_cons, hb, if_true, List.length_cons]
        omega
      · intro hnd
        rw [List.nodup_cons] at hnd
        simp only [List.filter_cons, hb, if_true, List.take_succ_cons, List.drop_succ_cons,
          List.cons_append, h3 hnd.2]

theorem jsSpliceInsert_natural (xs : List String) (n : Nat) (x : String) (h : n ≤ xs.length) :
    jsSpliceInsert xs (some (n : Int)) x = xs.take n ++ x :: xs.drop n := by
  unfold jsSpliceInsert
  simp only [Option.getD_some]
  have h1 : ¬ ((n : Int) < 0) := by omega
  have h2 : min (n : Int) (xs.length : Int) = (n : Int) := by omega
  simp only [if_neg h1, h2, Int.toNat_ofNat]

theorem splice_filter_restore {l : List String} {x : String} (hnd : l.Nodup) (h : x ∈ l) :
    jsSpliceInsert (l.filter (fun id => id != x)) (some (jsIndexOf l x)) x = l := by
  obtain ⟨n, h1, h2, h3⟩ := jsIndexOf_of_mem h
  rw [h1, jsSpliceInsert_natural _ n x h2]
  exact h3 hnd

/-! ## Breadcrumbs -/

theorem ascend_congr {s u : State}
    (h : ∀ x, (getTagById u x).map (fun t => (t.name, t.parentId)) =
      (getTagById s x).map (fun t => (t.name, t.parentId)))
    (hm : ∀ x, x ∈ u.tagMap ↔ x ∈ s.tagMap) :
    ∀ (fuel : Nat) (cur : Option String) (path : List String),
      ascend u fuel cur path = ascend s fuel cur path := by
  intro fuel
  induction fuel with
  | zero => intro cur path; rfl
  | succ f ih =>
    intro cur path
    simp only [ascend]
    cases truthyId cur with
    | none => rfl
    | some c =>
      simp only
      have hc := h c
      cases hu : getTagById u c with
      | none =>
        rw [hu] at hc
        cases hs : getTagById s c with
        | none => simp only [hm]
        | some ts => rw [hs] at hc; simp at hc
      | some tu =>
        rw [hu] at hc
        cases hs : getTagById s c with
        | none => rw [hs] at hc; simp at hc
        | some ts =>
          rw [hs] at hc
          simp only [Option.map_some', Option.some.injEq, Prod.mk.injEq] at hc
          simp only [hc.1, hc.2]
          exact ih _ _

theorem namesTo_none_of_not_mem {t : TagTree} {x : String} (h : x ∉ t.allKeys) :
    t.namesTo x = none := by
  induction t with
  | nil => rfl
  | node key id name parentId children order rest ihc ihr =>
    simp only [TagTree.allKeys, List.mem_cons, List.mem_append, not_or] at h
    simp only [TagTree.namesTo, if_neg (fun e : key = x => h.1 e.symm), ihc h.2.1, ihr h.2.2]

theorem exists_namesTo {t : TagTree} {x : String} (h : x ∈ t.allKeys) :
    ∃ q, t.namesTo x = some q ∧ 0 < q.length ∧ q.length ≤ t.allKeys.length := by
  induction t with
  | nil => simp [TagTree.allKeys] at h
  | node key id name parentId children order rest ihc ihr =>
    simp only [TagTree.allKeys, List.mem_cons, List.mem_append] at h
    simp only [TagTree.namesTo, TagTree.allKeys, List.length_cons, List.length_append]
    by_cases hk : key = x
    · exact ⟨[name], by simp [hk], by simp, by simp⟩
    · rw [if_neg hk]
      by_cases hc : x ∈ children.allKeys
      · obtain ⟨q, h1, h2, h3⟩ := ihc hc
        exact ⟨name :: q, by simp [h1], by simp, by simp; omega⟩
      · have hr : x ∈ rest.allKeys := by
          rcases h with h | h | h
          · exact absurd h.symm hk
          · exact absurd h hc
          · exact h
        obtain ⟨q, h1, h2, h3⟩ := ihr hr
        exact ⟨q, by simp [namesTo_none_of_not_mem hc, h1], h2, by omega⟩

theorem ascend_in_subtree (s : State) (t : TagTree) :
    ∀ (p : Option String) (pre : List String) (n : Nat),
      (∀ x v, (x, v) ∈ t.flat → getTagById s x = some v) →
      t.parentLinks p = true → "" ∉ t.allKeys →
      (∀ acc k, ascend s (n + 1 + k) p acc = some (pre ++ acc)) →
      ∀ x q, t.namesTo x = some q →
        ∀ acc k, ascend s (n + q.length + 1 + k) (some x) acc = some (pre ++ q ++ acc) := by
  induction t with
  | nil =>
    intro p pre n _ _ _ _ x q hq
    simp [TagTree.namesTo] at hq
  | node key id name parentId children order rest ihc ihr =>
    intro p pre n hsub hlinks hne hp x q hq
    simp only [TagTree.parentLinks, Bool.and_eq_true, decide_eq_true_eq] at hlinks
    obtain ⟨⟨hl1, hl2⟩, hl3⟩ := hlinks
    simp only [TagTree.allKeys, List.mem_cons, List.mem_append, not_or] at hne
    obtain ⟨hne1, hne2, hne3⟩ := hne
    have hkey : ∀ acc k, ascend s (n + 1 + 1 + k) (some key) acc =
        some (pre ++ [name] ++ acc) := by
      intro acc k
      have hget := hsub key ⟨id, name, parentId, children, order⟩
        (by simp [TagTree.flat])
      have hfuel : n + 1 + 1 + k = (n + 1 + k) + 1 := by omega
      rw [hfuel]
      simp only [ascend, truthyId, if_neg (fun e : key = "" => hne1 e.symm), hget, hl1]
      rw [hp]
      simp
    simp only [TagTree.namesTo] at hq
    split at hq
    · rename_i hk
      cases hq
      subst hk
      intro acc k
      exact hkey acc k
    · split at hq
      · rename_i q2 hq2
        cases hq
        intro acc k
        have := ihc (some key) (pre ++ [name]) (n + 1)
          (fun x v hv => hsub x v (by simp [TagTree.flat, hv])) hl2 hne2 hkey x q2 hq2 acc k
        have hfuel : n + (name :: q2).length + 1 + k = n + 1 + q2.length + 1 + k := by
          simp only [List.length_cons]
          omega
        rw [hfuel, this]
        simp
      · exact ihr p pre n (fun x v hv => hsub x v (by simp [TagTree.flat, hv])) hl3 hne3 hp
          x q hq

/-! ## Parents -/

theorem not_mem_own_children {t : TagTree} {x : String} {tag : Tag} (hnd : t.allKeys.Nodup)
    (h : findTagById t x = some tag) : x ∉ tag.children.allKeys := by
  intro hx
  have h2 := findTagById_inside hnd h hx
  rw [h] at h2
  have := (findTagById_some_sub h2.symm).2.2
  omega

theorem parent_of_find {t : TagTree} {x : String} {tag : Tag} :
    ∀ (p : Option String), t.parentLinks p = true → findTagById t x = some tag →
      (tag.parentId = p ∧ t.get x = some tag) ∨
        ∃ P nP, tag.parentId = some P ∧ (P, nP) ∈ t.flat ∧ nP.children.get x = some tag := by
  induction t with
  | nil =>
    intro p _ h
    simp [findTagById] at h
  | node key id name parentId children order rest ihc ihr =>
    intro p hl h
    simp only [TagTree.parentLinks, Bool.and_eq_true, decide_eq_true_eq] at hl
    obtain ⟨⟨hl1, hl2⟩, hl3⟩ := hl
    simp only [findTagById] at h
    split at h
    · exact absurd h (by simp)
    · split at h
      · rename_i hk
        cases h
        exact Or.inl ⟨hl1, by simp [TagTree.get, hk]⟩
      · rename_i hk
        split at h
        · rename_i found hf
          cases h
          rcases ihc (some key) hl2 hf with ⟨h1, h2⟩ | ⟨P, nP, h1, h2, h3⟩
          · exact Or.inr ⟨key, ⟨id, name, parentId, children, order⟩, h1,
              by simp [TagTree.flat], h2⟩
          · exact Or.inr ⟨P, nP, h1, by simp [TagTree.flat, h2], h3⟩
        · rcases ihr p hl3 h with ⟨h1, h2⟩ | ⟨P, nP, h1, h2, h3⟩
          · exact Or.inl ⟨h1, by simp [TagTree.get, hk, h2]⟩
          · exact Or.inr ⟨P, nP, h1, by simp [TagTree.flat, h2], h3⟩

theorem update_update {t : TagTree} {k : String} (f g : Tag → Tag) (hk : k ≠ "") :
    (t.update k f).update k g = t.update k (fun n => g (f n)) := by
  induction t with
  | nil => rfl
  | node key id name parentId children order rest ihc ihr =>
    simp only [TagTree.update]
    by_cases hkey : key = k
    · simp [hkey, TagTree.cons, TagTree.update]
    · rw [if_neg hkey, if_neg hkey]
      cases hf : findTagById children k with
      | some found =>
        simp only [Option.isSome_some, if_true, TagTree.update, if_neg hkey,
          find_update_self f hk, hf, Option.map_some', ihc]
      | none =>
        simp only [Option.isSome_none, Bool.false_eq_true, if_false, TagTree.update,
          if_neg hkey, hf, ihr]

/-! ## Index, breadcrumbs and nodes of a well-formed state -/

theorem WellFormed.perm {s : State} (h : WellFormed s) :
    s.tagMap.Perm s.categories.allKeys :=
  List.isPerm_iff.mp h.index

theorem WellFormed.mem_tagMap {s : State} (h : WellFormed s) {x : String} :
    x ∈ s.tagMap ↔ x ∈ s.categories.allKeys :=
  h.perm.mem_iff

theorem WellFormed.getTagById_of_mem_flat {s : State} (h : WellFormed s) {x : String} {v : Tag}
    (hv : (x, v) ∈ s.categories.flat) : getTagById s x = some v := by
  have hx := mem_allKeys_of_mem_flat hv
  have hne : x ≠ "" := fun e => h.uniqueIds.2 (e ▸ hx)
  unfold getTagById
  rw [if_neg (by
    rw [not_or, not_not]
    exact ⟨hne, h.mem_tagMap.mpr hx⟩)]
  exact find_of_mem_flat h.uniqueIds.1 hne hv

theorem WellFormed.getTagById_isSome {s : State} (h : WellFormed s) {x : String}
    (hx : x ∈ s.tagMap) : ∃ tag, getTagById s x = some tag ∧ (x, tag) ∈ s.categories.flat := by
  have hk := h.mem_tagMap.mp hx
  have hne : x ≠ "" := fun e => h.uniqueIds.2 (e ▸ hk)
  have := findTagById_isSome_of_mem hne hk
  cases hf : findTagById s.categories x with
  | none => rw [hf] at this; simp at this
  | some tag =>
    exact ⟨tag, h.getTagById_of_mem_flat (find_some_mem_flat hf), find_some_mem_flat hf⟩

/-- In a well-formed state the ascent loop of `getBreadcrumbPath` terminates for every indexed id
and returns the names from the top-level ancestor down to the id, joined by `' / '`. -/
theorem getBreadcrumbPath_wf {s : State} (h : WellFormed s) {x : String} (hx : x ∈ s.tagMap) :
    ∃ q, s.categories.namesTo x = some q ∧
      getBreadcrumbPath s x = some (some (String.intercalate " / " q)) := by
  obtain ⟨tag, htag, -⟩ := h.getTagById_isSome hx
  obtain ⟨q, hq, hpos, hlen⟩ := exists_namesTo (h.mem_tagMap.mp hx)
  refine ⟨q, hq, ?_⟩
  have hasc := ascend_in_subtree s s.categories none [] 0
    (fun x v hv => h.getTagById_of_mem_flat hv) h.parentLinks h.uniqueIds.2
    (by
      intro acc k
      have : 0 + 1 + k = k + 1 := by omega
      rw [this]
      simp [ascend, truthyId])
    x q hq [] (s.tagMap.length - q.length)
  have hfuel : 0 + q.length + 1 + (s.tagMap.length - q.length) = s.tagMap.length + 1 := by
    have := h.perm.length_eq
    omega
  rw [hfuel] at hasc
  unfold getBreadcrumbPath
  rw [htag]
  simp only [hasc, Option.map_some', List.nil_append, List.append_nil]
  rw [if_pos (by simpa using hpos)]

theorem restored_core {s u : State} {T : String} {tag : Tag} (hwf : WellFormed s)
    (hT : getTagById s T = some tag)
    (hinfos : u.categories.infos.Perm s.categories.infos)
    (hmem : (T, tag) ∈ u.categories.flat)
    (hidx : u.tagMap = buildTagMap u.categories []) :
    ∀ id ∈ getAllDescendantIds s T,
      (∃ p, getBreadcrumbPath s id = some (some p)) ∧
        getBreadcrumbPath u id = getBreadcrumbPath s id ∧
        getTagById u id = getTagById s id ∧ (getTagById s id).isSome = true := by
  have hkeys : u.categories.allKeys.Perm s.categories.allKeys := by
    rw [allKeys_eq_map_infos, allKeys_eq_map_infos]
    exact hinfos.map _
  have hndu : u.categories.allKeys.Nodup := hkeys.nodup_iff.mpr hwf.uniqueIds.1
  have hneu : "" ∉ u.categories.allKeys := fun hm => hwf.uniqueIds.2 (hkeys.mem_iff.mp hm)
  have hidsu : ∀ e ∈ u.categories.infos, e.2.1 ≠ "" :=
    infos_id_ne (fun e he => infos_id_eq_key hwf.idsMatch e (hinfos.mem_iff.mp he)) hneu
  have hmemu : ∀ x, x ∈ u.tagMap ↔ x ∈ s.tagMap := by
    intro x
    rw [hidx, mem_buildTagMap hidsu, hwf.mem_tagMap, hkeys.mem_iff]
    simp
  have hlen : u.tagMap.length = s.tagMap.length := by
    have hnu : u.tagMap.Nodup := by
      rw [hidx]
      exact nodup_buildTagMap _ _ List.nodup_nil
    have hns : s.tagMap.Nodup := hwf.perm.nodup_iff.mpr hwf.uniqueIds.1
    exact ((List.perm_ext_iff_of_nodup hnu hns).mpr hmemu).length_eq
  have hagree : ∀ x, (getTagById u x).map (fun t => (t.name, t.parentId)) =
      (getTagById s x).map (fun t => (t.name, t.parentId)) := by
    intro x
    have := find_map_of_infos_perm hwf.uniqueIds.1 hinfos x
    unfold getTagById
    by_cases hx : x = "" ∨ x ∉ s.tagMap
    · rw [if_pos hx, if_pos (by rw [hmemu]; exact hx)]
    · rw [if_neg hx, if_neg (by rw [hmemu]; exact hx)]
      have h2 := congrArg (Option.map (fun (e : String × String × Option String) => e.2)) this
      simpa [Option.map_map, Function.comp_def] using h2
  have hfindT : findTagById s.categories T = some tag := (getTagById_eq_find hT).1
  have hTne : T ≠ "" := fun e => hwf.uniqueIds.2 (e ▸ mem_allKeys_of_mem_flat hmem |> fun h =>
    hkeys.mem_iff.mp h)
  have hfindTu : findTagById u.categories T = some tag := find_of_mem_flat hndu hTne hmem
  intro id hid
  have hidne : id ≠ "" := (mem_desc_ne hid).1
  have hidkey : id ∈ s.categories.allKeys := by
    rcases mem_desc_cases hid with h | ⟨tg, htg, hm⟩
    · rw [h]
      exact (findTagById_some_sub hfindT).1
    · exact (findTagById_some_sub (getTagById_eq_find htg).1).2.1 id hm
  have hidmap : id ∈ s.tagMap := hwf.mem_tagMap.mpr hidkey
  obtain ⟨tg, htg, -⟩ := hwf.getTagById_isSome hidmap
  obtain ⟨q, -, hq⟩ := getBreadcrumbPath_wf hwf hidmap
  have hnode : getTagById u id = getTagById s id := by
    have hfu : getTagById u id = findTagById u.categories id := by
      unfold getTagById
      rw [if_neg (by rw [hmemu]; simp [hidne, hidmap])]
    have hfs : getTagById s id = findTagById s.categories id := by
      unfold getTagById
      rw [if_neg (by simp [hidne, hidmap])]
    rw [hfu, hfs]
    rcases mem_desc_cases hid with h | ⟨tg2, htg2, hm⟩
    · rw [h, hfindTu, hfindT]
    · rw [hT] at htg2
      cases htg2
      rw [findTagById_inside hndu hfindTu hm, findTagById_inside hwf.uniqueIds.1 hfindT hm]
  refine ⟨⟨_, hq⟩, ?_, hnode, by rw [htg]; rfl⟩
  unfold getBreadcrumbPath
  rw [hnode, htg]
  simp only
  rw [hlen, ascend_congr hagree hmemu]

/-! ## Deleting a tag and undoing the deletion -/

theorem deleteCategory_top {s : State} {T : String} {tag : Tag} (hT1 : T ≠ "")
    (hT2 : T ∈ s.tagMap) (hget : getTagById s T = some tag)
    (hpar : truthyId tag.parentId = none) :
    (deleteCategory s T).2 = some ⟨T, tag, none, none, some (jsIndexOf s.rootOrder T)⟩ ∧
      (deleteCategory s T).1.categories = s.categories.delete T ∧
      (deleteCategory s T).1.rootOrder =
        (if (s.categories.delete T).keys.length = 0 then []
          else s.rootOrder.filter (fun id => id != T)) := by
  unfold deleteCategory
  rw [if_neg (by simp [hT1, hT2])]
  simp [hget, hpar]

theorem deleteCategory_nested {s : State} {T P : String} {tag nP : Tag} (hT1 : T ≠ "")
    (hT2 : T ∈ s.tagMap) (hget : getTagById s T = some tag)
    (hpar : truthyId tag.parentId = some P) (hP : getTagById s P = some nP) :
    (deleteCategory s T).2 =
        some ⟨T, tag, some P, nP.order.map (fun o => jsIndexOf o T), none⟩ ∧
      (deleteCategory s T).1.categories = s.categories.update P (fun p =>
        { p with children := p.children.delete T,
                 order := p.order.map (fun o => o.filter (fun id => id != T)) }) ∧
      (deleteCategory s T).1.tagMap =
        s.tagMap.filter (fun id => !(getAllDescendantIds s T).contains id) := by
  unfold deleteCategory
  rw [if_neg (by simp [hT1, hT2])]
  simp [hget, hpar, hP]

theorem undoDeleteTag_top (r : State) (T : String) (tag : Tag) (idx : Option Int)
    (hT : T ≠ "") :
    (undoDeleteTag r ⟨T, tag, none, none, idx⟩).2 = true ∧
      (undoDeleteTag r ⟨T, tag, none, none, idx⟩).1.categories = r.categories.set T tag ∧
      (undoDeleteTag r ⟨T, tag, none, none, idx⟩).1.rootOrder =
        jsSpliceInsert r.rootOrder idx T ∧
      (undoDeleteTag r ⟨T, tag, none, none, idx⟩).1.tagMap =
        buildTagMap (r.categories.set T tag) [] := by
  unfold undoDeleteTag
  simp [hT, truthyId, rebuildTagMap]

theorem undoDeleteTag_nested (r : State) (T P : String) (tag nP : Tag) (idx : Option Int)
    (hT : T ≠ "") (hP : P ≠ "") (hget : getTagById r P = some nP) :
    (undoDeleteTag r ⟨T, tag, some P, idx, none⟩).2 = true ∧
      (undoDeleteTag r ⟨T, tag, some P, idx, none⟩).1.categories =
        r.categories.update P (fun p =>
          { p with children := p.children.set T tag,
                   order := p.order.map (fun o => jsSpliceInsert o idx T) }) ∧
      (undoDeleteTag r ⟨T, tag, some P, idx, none⟩).1.tagMap =
        buildTagMap (r.categories.update P (fun p =>
          { p with children := p.children.set T tag,
                   order := p.order.map (fun o => jsSpliceInsert o idx T) })) [] := by
  unfold undoDeleteTag
  simp [hT, hP, truthyId, rebuildTagMap, hget]

theorem keys_delete_eq_filter {t : TagTree} (k : String) (hnd : t.keys.Nodup) :
    (t.delete k).keys = t.keys.filter (fun id => id != k) := by
  induction t with
  | nil => rfl
  | node key id name parentId children order rest ihc ihr =>
    simp only [TagTree.keys, List.nodup_cons] at hnd
    simp only [TagTree.delete, TagTree.keys, List.filter_cons]
    by_cases hk : key = k
    · subst hk
      simp only [if_true, bne_self_eq_false, Bool.false_eq_true, if_false]
      symm
      rw [List.filter_eq_self]
      intro a ha
      have : a ≠ key := fun e => hnd.1 (e ▸ ha)
      simpa using this
    · have hb : (key != k) = true := by simpa using hk
      rw [if_neg hk, hb, if_pos rfl]
      simp [TagTree.keys, ihr hnd.2]

theorem nodup_children_of_mem_flat {t : TagTree} {x : String} {v : Tag}
    (hnd : t.allKeys.Nodup) (h : (x, v) ∈ t.flat) : v.children.allKeys.Nodup := by
  induction t with
  | nil => simp [TagTree.flat] at h
  | node key id name parentId children order rest ihc ihr =>
    simp only [TagTree.allKeys, List.nodup_cons, List.nodup_append] at hnd
    obtain ⟨-, hc, hr, -⟩ := hnd
    simp only [TagTree.flat, List.mem_cons, List.mem_append, Prod.mk.injEq] at h
    rcases h with ⟨-, rfl⟩ | h | h
    · exact hc
    · exact ihc hc h
    · exact ihr hr h

theorem order_of_mem_flat {t : TagTree} {x : String} {v : Tag} (ho : t.ordersOk = true)
    (h : (x, v) ∈ t.flat) : ∃ o, v.order = some o ∧ o.Perm v.children.keys := by
  induction t with
  | nil => simp [TagTree.flat] at h
  | node key id name parentId children order rest ihc ihr =>
    simp only [TagTree.ordersOk, Bool.and_eq_true] at ho
    obtain ⟨⟨h1, h2⟩, h3⟩ := ho
    simp only [TagTree.flat, List.mem_cons, List.mem_append, Prod.mk.injEq] at h
    rcases h with ⟨-, rfl⟩ | h | h
    · cases order with
      | none => simp at h1
      | some o => exact ⟨o, rfl, List.isPerm_iff.mp h1⟩
    · exact ihc h2 h
    · exact ihr h3 h

theorem restored_index {s u : State} (hwf : WellFormed s)
    (hinfos : u.categories.infos.Perm s.categories.infos)
    (hidx : u.tagMap = buildTagMap u.categories []) (x : String) :
    x ∈ u.tagMap ↔ x ∈ s.tagMap := by
  have hkeys : u.categories.allKeys.Perm s.categories.allKeys := by
    rw [allKeys_eq_map_infos, allKeys_eq_map_infos]
    exact hinfos.map _
  have hneu : "" ∉ u.categories.allKeys := fun hm => hwf.uniqueIds.2 (hkeys.mem_iff.mp hm)
  have hidsu : ∀ e ∈ u.categories.infos, e.2.1 ≠ "" :=
    infos_id_ne (fun e he => infos_id_eq_key hwf.idsMatch e (hinfos.mem_iff.mp he)) hneu
  rw [hidx, mem_buildTagMap hidsu, hwf.mem_tagMap, hkeys.mem_iff]
  simp

/-- Claim C5 (undo round-trip for tag deletion): in a well-formed state, for every indexed tag
`T`, `deleteCategory(T)` returns a snapshot, `undoDeleteTag` of it succeeds, and in the resulting
state every id of the pre-delete descendant closure of `T` has the breadcrumb path it had before
(the path exists: the ascent loop terminates) and the node it had before, children and order list
included; the order list that holds the position of `T` (that of its parent, or `rootOrder`) is the
one before the delete, so `T` sits at its original index. -/
theorem undo_delete_round_trip (s : State) (T : String) (hwf : WellFormed s)
    (hT : T ∈ s.tagMap) :
    ∃ snap, (deleteCategory s T).2 = some snap ∧
      (undoDeleteTag (deleteCategory s T).1 snap).2 = true ∧
      (∀ id ∈ getAllDescendantIds s T,
        (∃ p, getBreadcrumbPath s id = some (some p)) ∧
          getBreadcrumbPath (undoDeleteTag (deleteCategory s T).1 snap).1 id =
            getBreadcrumbPath s id ∧
          getTagById (undoDeleteTag (deleteCategory s T).1 snap).1 id = getTagById s id ∧
          (getTagById s id).isSome = true) ∧
      ∃ o, siblingOrder s T = some o ∧
        siblingOrder (undoDeleteTag (deleteCategory s T).1 snap).1 T = some o ∧
        0 ≤ jsIndexOf o T := by
  obtain ⟨tag, hget, hflat⟩ := hwf.getTagById_isSome hT
  have hTkey := hwf.mem_tagMap.mp hT
  have hTne : T ≠ "" := fun e => hwf.uniqueIds.2 (e ▸ hTkey)
  have hfind := (getTagById_eq_find hget).1
  have hself : T ∈ getAllDescendantIds s T := self_mem_desc hTne
  have hkn : s.categories.keys.Nodup := (keys_sublist_allKeys _).nodup hwf.uniqueIds.1
  rcases parent_of_find none hwf.parentLinks hfind with ⟨hp, hgetT⟩ | ⟨P, nP, hp, hPflat, hgetT⟩
  · -- a top-level tag
    have hpar : truthyId tag.parentId = none := by rw [hp]; rfl
    obtain ⟨hd1, hd2, hd3⟩ := deleteCategory_top hTne hT hget hpar
    obtain ⟨hu1, hu2, hu3, hu4⟩ := undoDeleteTag_top (deleteCategory s T).1 T tag
      (some (jsIndexOf s.rootOrder T)) hTne
    refine ⟨_, hd1, hu1, ?_⟩
    have hinfos : (undoDeleteTag (deleteCategory s T).1
        ⟨T, tag, none, none, some (jsIndexOf s.rootOrder T)⟩).1.categories.infos.Perm
        s.categories.infos := by
      rw [hu2, hd2]
      exact (flat_delete_set_perm hkn hgetT).map _
    have hmem : (T, tag) ∈ (undoDeleteTag (deleteCategory s T).1
        ⟨T, tag, none, none, some (jsIndexOf s.rootOrder T)⟩).1.categories.flat := by
      rw [hu2, hd2]
      exact mem_flat_delete_set hkn
    have hidx : (undoDeleteTag (deleteCategory s T).1
        ⟨T, tag, none, none, some (jsIndexOf s.rootOrder T)⟩).1.tagMap =
        buildTagMap (undoDeleteTag (deleteCategory s T).1
          ⟨T, tag, none, none, some (jsIndexOf s.rootOrder T)⟩).1.categories [] := by
      rw [hu4, hu2]
    have hcore := restored_core hwf hget hinfos hmem hidx
    refine ⟨hcore, s.rootOrder, ?_, ?_, ?_⟩
    · unfold siblingOrder
      rw [hget]
      simp only [hpar]
    · have hro : s.rootOrder.Perm s.categories.keys := List.isPerm_iff.mp hwf.orders.1
      have hrnd : s.rootOrder.Nodup := hro.nodup_iff.mpr hkn
      have hTro : T ∈ s.rootOrder := hro.mem_iff.mpr (mem_keys_of_get hgetT)
      have hR : (deleteCategory s T).1.rootOrder = s.rootOrder.filter (fun id => id != T) := by
        rw [hd3]
        split
        · rename_i hz
          rw [keys_delete_eq_filter T hkn] at hz
          have := (hro.filter (fun id => id != T)).length_eq
          exact (List.length_eq_zero.mp (by omega)).symm
        · rfl
      unfold siblingOrder
      rw [(hcore T hself).2.2.1, hget]
      simp only [hpar, hu3, hR]
      rw [splice_filter_restore hrnd hTro]
    · have hro : s.rootOrder.Perm s.categories.keys := List.isPerm_iff.mp hwf.orders.1
      obtain ⟨n, hn, -, -⟩ := jsIndexOf_of_mem (hro.mem_iff.mpr (mem_keys_of_get hgetT))
      rw [hn]
      omega
  · -- a tag below the parent P
    have hPkey := mem_allKeys_of_mem_flat hPflat
    have hPne : P ≠ "" := fun e => hwf.uniqueIds.2 (e ▸ hPkey)
    have hpar : truthyId tag.parentId = some P := by rw [hp]; simp [truthyId, hPne]
    have hPget : getTagById s P = some nP := hwf.getTagById_of_mem_flat hPflat
    have hPfind := (getTagById_eq_find hPget).1
    have hTchild : T ∈ nP.children.allKeys :=
      (keys_sublist_allKeys _).subset (mem_keys_of_get hgetT)
    have hPT : P ≠ T := by
      rintro rfl
      rw [hget] at hPget
      cases hPget
      exact not_mem_own_children hwf.uniqueIds.1 hfind hTchild
    have hPdesc : P ∉ getAllDescendantIds s T := by
      intro hPd
      exact hPT (desc_antisymm hwf.uniqueIds hPd
        (mem_desc_of_child hwf.uniqueIds hPget hTchild)).symm
    obtain ⟨o, ho1, ho2⟩ := order_of_mem_flat hwf.orders.2 hPflat
    have hcn : nP.children.keys.Nodup :=
      (keys_sublist_allKeys _).nodup (nodup_children_of_mem_flat hwf.uniqueIds.1 hPflat)
    have hond : o.Nodup := ho2.nodup_iff.mpr hcn
    have hTo : T ∈ o := ho2.mem_iff.mpr (mem_keys_of_get hgetT)
    obtain ⟨hd1, hd2, hd3⟩ := deleteCategory_nested hTne hT hget hpar hPget
    have hrP : getTagById (deleteCategory s T).1 P =
        some { nP with children := nP.children.delete T,
                       order := nP.order.map (fun o => o.filter (fun id => id != T)) } := by
      unfold getTagById
      rw [if_neg (by
        rw [hd3, not_or, not_not, List.mem_filter]
        refine ⟨hPne, (getTagById_eq_find hPget).2, ?_⟩
        simpa using hPdesc), hd2, find_update_self _ hPne, hPfind]
      rfl
    obtain ⟨hu1, hu2, hu4⟩ := undoDeleteTag_nested (deleteCategory s T).1 T P tag _
      (nP.order.map (fun o => jsIndexOf o T)) hTne hPne hrP
    refine ⟨_, hd1, hu1, ?_⟩
    have hcat : (undoDeleteTag (deleteCategory s T).1
        ⟨T, tag, some P, nP.order.map (fun o => jsIndexOf o T), none⟩).1.categories =
        s.categories.update P (fun p =>
          { p with
            children := (p.children.delete T).set T tag,
            order := (p.order.map (fun o => o.filter (fun id => id != T))).map
              (fun o => jsSpliceInsert o (nP.order.map (fun o => jsIndexOf o T)) T) }) := by
      rw [hu2, hd2, update_update _ _ hPne]
    have hinfos : (undoDeleteTag (deleteCategory s T).1
        ⟨T, tag, some P, nP.order.map (fun o => jsIndexOf o T), none⟩).1.categories.infos.Perm
        s.categories.infos := by
      rw [hcat]
      apply infos_update_perm hPne
      intro n hn
      rw [hPfind] at hn
      cases hn
      exact ⟨rfl, rfl, rfl, (flat_delete_set_perm hcn hgetT).map _⟩
    have hmem : (T, tag) ∈ (undoDeleteTag (deleteCategory s T).1
        ⟨T, tag, some P, nP.order.map (fun o => jsIndexOf o T), none⟩).1.categories.flat := by
      rw [hcat]
      exact mem_flat_update hPne hPfind (mem_flat_delete_set hcn)
    have hidx : (undoDeleteTag (deleteCategory s T).1
        ⟨T, tag, some P, nP.order.map (fun o => jsIndexOf o T), none⟩).1.tagMap =
        buildTagMap (undoDeleteTag (deleteCategory s T).1
          ⟨T, tag, some P, nP.order.map (fun o => jsIndexOf o T), none⟩).1.categories [] := by
      rw [hu4, hu2]
    have hcore := restored_core hwf hget hinfos hmem hidx
    refine ⟨hcore, o, ?_, ?_, ?_⟩
    · unfold siblingOrder
      rw [hget]
      simp only [hpar, hPget, Option.some_bind, ho1]
    · have hPu : getTagById (undoDeleteTag (deleteCategory s T).1
          ⟨T, tag, some P, nP.order.map (fun o => jsIndexOf o T), none⟩).1 P =
          some { nP with
            children := (nP.children.delete T).set T tag,
            order := (nP.order.map (fun o => o.filter (fun id => id != T))).map
              (fun o => jsSpliceInsert o (nP.order.map (fun o => jsIndexOf o T)) T) } := by
        unfold getTagById
        rw [if_neg (by
          rw [restored_index hwf hinfos hidx, not_or, not_not]
          exact ⟨hPne, (getTagById_eq_find hPget).2⟩), hcat, find_update_self _ hPne, hPfind]
        rfl
      unfold siblingOrder
      rw [(hcore T hself).2.2.1, hget]
      simp only [hpar]
      rw [hPu]
      simp only [Option.some_bind, ho1, Option.map_some']
      rw [splice_filter_restore hond hTo]
    · obtain ⟨n, hn, -, -⟩ := jsIndexOf_of_mem hTo
      rw [hn]
      omega

/-- Scenario C, the tree part: in the well-formed state of Scenario A, deleting Cafe and undoing
the deletion restores the path and the node of Cafe and the order list of Scene. -/
theorem undo_delete_round_trip_witness :
    WellFormed (sceneState [] FilterMode.OR) ∧
      "tag_cafe" ∈ (sceneState [] FilterMode.OR).tagMap ∧
      ∃ snap, (deleteCategory (sceneState [] FilterMode.OR) "tag_cafe").2 = some snap ∧
        (undoDeleteTag (deleteCategory (sceneState [] FilterMode.OR) "tag_cafe").1 snap).2 =
          true ∧
        (∀ id ∈ getAllDescendantIds (sceneState [] FilterMode.OR) "tag_cafe",
          (∃ p, getBreadcrumbPath (sceneState [] FilterMode.OR) id = some (some p)) ∧
            getBreadcrumbPath
                (undoDeleteTag (deleteCategory (sceneState [] FilterMode.OR) "tag_cafe").1
                  snap).1 id =
              getBreadcrumbPath (sceneState [] FilterMode.OR) id ∧
            getTagById
                (undoDeleteTag (deleteCategory (sceneState [] FilterMode.OR) "tag_cafe").1
                  snap).1 id =
              getTagById (sceneState [] FilterMode.OR) id ∧
            (getTagById (sceneState [] FilterMode.OR) id).isSome = true) ∧
        ∃ o, siblingOrder (sceneState [] FilterMode.OR) "tag_cafe" = some o ∧
          siblingOrder
              (undoDeleteTag (deleteCategory (sceneState [] FilterMode.OR) "tag_cafe").1
                snap).1 "tag_cafe" = some o ∧
          0 ≤ jsIndexOf o "tag_cafe" :=
  ⟨by decide, by decide,
    undo_delete_round_trip (sceneState [] FilterMode.OR) "tag_cafe" (by decide) (by decide)⟩

/-! ## Creating a tag -/

theorem tag_append_ne_empty (x : String) : "tag_" ++ x ≠ "" := by
  intro h
  have h2 := congrArg String.data h
  rw [String.data_append] at h2
  have h3 : ("tag_" : String).data = [] := (List.append_eq_nil.mp h2).1
  exact absurd h3 (by decide)

theorem generateTagId_spec {checkMap : List String} {attempts : List IdAttempt} {n : Nat}
    {tagId : String} (h : generateTagId checkMap attempts n = some tagId) :
    tagId ∉ checkMap ∧ tagId ≠ "" := by
  induction attempts generalizing n with
  | nil => simp [generateTagId] at h
  | cons a more ih =>
    simp only [generateTagId] at h
    split at h
    · split at h
      · split at h
        · exact ih h
        · rename_i hf
          cases h
          refine ⟨hf, ?_⟩
          simp only [String.append_assoc]
          exact tag_append_ne_empty _
      · exact ih h
    · rename_i hf
      cases h
      refine ⟨hf, ?_⟩
      simp only [String.append_assoc]
      exact tag_append_ne_empty _

theorem generateTagId_isSome {checkMap : List String} {attempts : List IdAttempt} (n : Nat)
    (h : ∃ a ∈ attempts, "tag_" ++ a.timestamp ++ "_" ++ a.randomPart ∉ checkMap) :
    (generateTagId checkMap attempts n).isSome = true := by
  induction attempts generalizing n with
  | nil => simp at h
  | cons a more ih =>
    simp only [generateTagId]
    by_cases hc : "tag_" ++ a.timestamp ++ "_" ++ a.randomPart ∈ checkMap
    · have hmore : ∃ b ∈ more, "tag_" ++ b.timestamp ++ "_" ++ b.randomPart ∉ checkMap := by
        obtain ⟨b, hb, hfresh⟩ := h
        rcases List.mem_cons.mp hb with rfl | hb
        · exact absurd hc hfresh
        · exact ⟨b, hb, hfresh⟩
      rw [if_pos hc]
      split
      · split
        · exact ih _ hmore
        · rfl
      · exact ih _ hmore
    · rw [if_neg hc]
      rfl

theorem find_set_fresh {t : TagTree} {k : String} (tag : Tag) (hk : k ≠ "")
    (h : k ∉ t.allKeys) : findTagById (t.set k tag) k = some tag := by
  induction t with
  | nil => simp [TagTree.set, TagTree.cons, findTagById, hk]
  | node key id name parentId children order rest ihc ihr =>
    simp only [TagTree.allKeys, List.mem_cons, List.mem_append, not_or] at h
    have hkey : ¬ key = k := fun e => h.1 e.symm
    simp only [TagTree.set, if_neg hkey, findTagById, if_neg hk,
      findTagById_none_of_not_mem h.2.1, ihr h.2.2]

theorem find_update_fresh {t : TagTree} {p k : String} {g : Tag → Tag} {n : Tag}
    (hp : p ≠ "") (hn : findTagById t p = some n) (hk : k ∉ t.allKeys) :
    findTagById (t.update p g) k = findTagById (g n).children k := by
  by_cases hke : k = ""
  · subst hke
    cases (t.update p g) <;> cases (g n).children <;> simp [findTagById]
  induction t with
  | nil => simp [findTagById] at hn
  | node key id name parentId children order rest ihc ihr =>
    simp only [TagTree.allKeys, List.mem_cons, List.mem_append, not_or] at hk
    obtain ⟨hk1, hk2, hk3⟩ := hk
    have hkey : ¬ key = k := fun e => hk1 e.symm
    simp only [findTagById, if_neg hp] at hn
    simp only [TagTree.update]
    by_cases hkp : key = p
    · rw [if_pos hkp] at hn
      cases hn
      rw [if_pos hkp]
      simp only [TagTree.cons, findTagById, if_neg hke, if_neg hkey,
        findTagById_none_of_not_mem hk3]
      cases findTagById (g ⟨id, name, parentId, children, order⟩).children k <;> rfl
    · rw [if_neg hkp] at hn
      rw [if_neg hkp]
      cases hf : findTagById children p with
      | some found =>
        rw [hf] at hn
        cases hn
        simp only [Option.isSome_some, if_true, findTagById, if_neg hke, if_neg hkey,
          ihc hf hk2, findTagById_none_of_not_mem hk3]
        cases findTagById (g n).children k <;> rfl
      | none =>
        rw [hf] at hn
        simp only [Option.isSome_none, Bool.false_eq_true, if_false, findTagById, if_neg hke,
          if_neg hkey, findTagById_none_of_not_mem hk2]
        exact ihr hn hk3

theorem IndexMatchesTree.mem_iff {s : State} (h : IndexMatchesTree s) (k : String) :
    k ∈ s.tagMap ↔ k ∈ s.categories.allKeys :=
  (List.isPerm_iff.mp h).mem_iff

theorem getTagById_isSome_of_mem {s : State} (h : IndexMatchesTree s) {k : String}
    (hk : k ≠ "") (hm : k ∈ s.tagMap) : ∃ tag, getTagById s k = some tag := by
  have := findTagById_isSome_of_mem hk ((h.mem_iff k).mp hm)
  cases hf : findTagById s.categories k with
  | none => rw [hf] at this; simp at this
  | some tag =>
    refine ⟨tag, ?_⟩
    unfold getTagById
    rw [if_neg (by simp [hk, hm])]
    exact hf

theorem getTagById_none_of_not_mem {s : State} {k : String} (hm : k ∉ s.tagMap) :
    getTagById s k = none := by
  unfold getTagById
  rw [if_pos (Or.inr hm)]

theorem addCategory_cases (s : State) (attempts : List IdAttempt) (categoryName : String)
    (parentId : Option String) (hidx : IndexMatchesTree s) (hpid : parentId ≠ some "") :
    ((categoryName = "" ∨ jsTrim categoryName = "" ∨
        (∃ pid, parentId = some pid ∧ pid ∉ s.tagMap) ∨
        (∃ sibling ∈ (addTarget s parentId).values, sibling.name = jsTrim categoryName)) ∧
      ∃ s', addCategory s attempts categoryName parentId = some (s', none) ∧
        s'.categories = s.categories ∧ s'.tagMap = s.tagMap ∧ s'.rootOrder = s.rootOrder) ∨
    (¬ (categoryName = "" ∨ jsTrim categoryName = "" ∨
        (∃ pid, parentId = some pid ∧ pid ∉ s.tagMap) ∨
        (∃ sibling ∈ (addTarget s parentId).values, sibling.name = jsTrim categoryName)) ∧
      ∃ after : String → State,
        addCategory s attempts categoryName parentId =
          (generateTagId s.tagMap attempts 0).map (fun tagId => (after tagId, some tagId)) ∧
        ∀ tagId, tagId ∉ s.tagMap → tagId ≠ "" →
          getTagById (after tagId) tagId =
            some ⟨tagId, jsTrim categoryName, parentId, .nil, some []⟩) := by
  by_cases h1 : categoryName = "" ∨ jsTrim categoryName = ""
  · left
    refine ⟨by tauto, s, ?_, rfl, rfl, rfl⟩
    unfold addCategory
    rw [if_pos h1]
  · have h1a : categoryName ≠ "" := fun e => h1 (Or.inl e)
    have h1b : jsTrim categoryName ≠ "" := fun e => h1 (Or.inr e)
    cases parentId with
    | none =>
      have htarget : addTarget s none = targetTree s (getCurrentTagTree s).2 := rfl
      by_cases h3 : ∃ sibling ∈ (addTarget s none).values, sibling.name = jsTrim categoryName
      · left
        refine ⟨Or.inr (Or.inr (Or.inr h3)), (getCurrentTagTree s).1, ?_, rfl, rfl, rfl⟩
        unfold addCategory
        rw [if_neg h1]
        simp only [truthyId]
        rw [if_pos]
        rw [List.any_eq_true]
        obtain ⟨sib, hs1, hs2⟩ := h3
        exact ⟨sib, htarget ▸ hs1, by simpa using hs2⟩
      · right
        refine ⟨?_, ?_⟩
        · rintro (h | h | ⟨pid, hp, -⟩ | h)
          · exact h1a h
          · exact h1b h
          · exact absurd hp (by simp)
          · exact h3 h
        · have hany : ¬ ((targetTree s (getCurrentTagTree s).2).values.any
              (fun tag => decide (tag.name = jsTrim categoryName)) = true) := by
            rw [List.any_eq_true]
            rintro ⟨sib, hs1, hs2⟩
            exact h3 ⟨sib, htarget ▸ hs1, by simpa using hs2⟩
          refine ⟨fun tagId =>
            { (getCurrentTagTree s).1 with
              categories := match (getCurrentTagTree s).2 with
                | none => s.categories.set tagId
                    ⟨tagId, jsTrim categoryName, none, .nil, some []⟩
                | some o => s.categories.update o (fun p =>
                    { p with children := p.children.set tagId
                                   (Tag.mk tagId (jsTrim categoryName) none .nil (some [])) }),
              rootOrder := s.rootOrder ++ [tagId],
              tagMap := setKey s.tagMap tagId }, ?_, ?_⟩
          · unfold addCategory
            rw [if_neg h1]
            simp only [truthyId]
            refine (if_neg hany).trans ?_
            rfl
          · intro tagId hfresh hne
            have hfreshTree : tagId ∉ s.categories.allKeys :=
              fun hm => hfresh ((hidx.mem_iff tagId).mpr hm)
            unfold getTagById
            rw [if_neg (by simp [hne, mem_setKey])]
            show findTagById (match (getCurrentTagTree s).2 with
                | none => s.categories.set tagId
                    ⟨tagId, jsTrim categoryName, none, .nil, some []⟩
                | some o => s.categories.update o (fun p =>
                    { p with children := p.children.set tagId
                                   (Tag.mk tagId (jsTrim categoryName) none .nil (some [])) })) tagId = _
            cases howner : (getCurrentTagTree s).2 with
            | none => exact find_set_fresh _ hne hfreshTree
            | some o =>
              simp only
              cases hgo : getTagById s o with
              | none =>
                -- the owner returned by the path loop is always indexed
                exfalso
                have : ∀ (path : List String) (acc : List String × Option String),
                    (acc.2 = none ∨ ∃ t, acc.2 = some t ∧ (getTagById s t).isSome = true) →
                    ((validPathLoop s path acc).2 = none ∨
                      ∃ t, (validPathLoop s path acc).2 = some t ∧
                        (getTagById s t).isSome = true) := by
                  intro path
                  induction path with
                  | nil => intro acc h; exact h
                  | cons x xs ih =>
                    intro acc h
                    obtain ⟨v, ow⟩ := acc
                    simp only [validPathLoop]
                    cases hx : getTagById s x with
                    | none => exact h
                    | some tx => exact ih _ (Or.inr ⟨x, rfl, by rw [hx]; rfl⟩)
                have hloop := this s.tagSelectPath ([], none) (Or.inl rfl)
                have howner2 : (validPathLoop s s.tagSelectPath ([], none)).2 = some o := howner
                rw [howner2] at hloop
                rcases hloop with h | ⟨t, ht, hsome⟩
                · exact absurd h (by simp)
                · cases ht
                  rw [hgo] at hsome
                  simp at hsome
              | some n =>
                obtain ⟨hfind, -⟩ := getTagById_eq_find hgo
                have hone : o ≠ "" := by
                  rintro rfl
                  unfold getTagById at hgo
                  simp at hgo
                rw [find_update_fresh hone hfind hfreshTree]
                exact find_set_fresh _ hne
                  (fun hm => hfreshTree ((findTagById_some_sub hfind).2.1 _ hm))
    | some pid =>
      have hpne : pid ≠ "" := fun e => hpid (by rw [e])
      have htr : truthyId (some pid) = some pid := by simp [truthyId, hpne]
      cases hget : getTagById s pid with
      | none =>
        have hnot : pid ∉ s.tagMap := by
          intro hm
          obtain ⟨tag, ht⟩ := getTagById_isSome_of_mem hidx hpne hm
          rw [hget] at ht
          exact absurd ht (by simp)
        left
        refine ⟨Or.inr (Or.inr (Or.inl ⟨pid, rfl, hnot⟩)), s, ?_, rfl, rfl, rfl⟩
        unfold addCategory
        rw [if_neg h1]
        simp only [htr, hget]
      | some parentTag =>
        have hin : pid ∈ s.tagMap := (getTagById_eq_find hget).2
        have htarget : addTarget s (some pid) = parentTag.children := by
          unfold addTarget
          simp only [htr, hget]
        by_cases h3 : ∃ sibling ∈ (addTarget s (some pid)).values,
            sibling.name = jsTrim categoryName
        · left
          refine ⟨Or.inr (Or.inr (Or.inr h3)), s, ?_, rfl, rfl, rfl⟩
          unfold addCategory
          rw [if_neg h1]
          simp only [htr, hget]
          rw [if_pos]
          rw [List.any_eq_true]
          obtain ⟨sib, hs1, hs2⟩ := h3
          exact ⟨sib, htarget ▸ hs1, by simpa using hs2⟩
        · right
          refine ⟨?_, ?_⟩
          · rintro (h | h | ⟨p2, hp, hp2⟩ | h)
            · exact h1a h
            · exact h1b h
            · cases hp
              exact hp2 hin
            · exact h3 h
          · have hany : ¬ (parentTag.children.values.any
                (fun tag => decide (tag.name = jsTrim categoryName)) = true) := by
              rw [List.any_eq_true]
              rintro ⟨sib, hs1, hs2⟩
              exact h3 ⟨sib, htarget ▸ hs1, by simpa using hs2⟩
            refine ⟨fun tagId =>
              { s with
                categories := s.categories.update pid (fun p =>
                  { p with children := p.children.set tagId
                                       (Tag.mk tagId (jsTrim categoryName) (some pid) .nil (some [])),
                           order := some (p.order.getD [] ++ [tagId]) }),
                tagMap := setKey s.tagMap tagId }, ?_, ?_⟩
            · unfold addCategory
              rw [if_neg h1]
              simp only [htr, hget]
              refine (if_neg hany).trans ?_
              rfl
            · intro tagId hfresh hne
              have hfreshTree : tagId ∉ s.categories.allKeys :=
                fun hm => hfresh ((hidx.mem_iff tagId).mpr hm)
              obtain ⟨hfind, -⟩ := getTagById_eq_find hget
              unfold getTagById
              rw [if_neg (by simp [hne, mem_setKey])]
              show findTagById (s.categories.update pid _) tagId = _
              rw [find_update_fresh hpne hfind hfreshTree]
              exact find_set_fresh _ hne
                (fun hm => hfreshTree ((findTagById_some_sub hfind).2.1 _ hm))

/-- Claim C11 (create outcome) fails on the code for a `parentId` that is not in the index and
names a property the index inherits as a plain object, such as `constructor`: the source finds
the inherited value, takes it for the parent, creates the node and returns its id.  For every
other call the claim holds.  Over a state whose index holds exactly the keys of the tree, for a
`parentId` that is absent or a non-empty id, and when neither `parentId` nor an entry of the
selector path names an inherited property, `addCategory` returns `null` and leaves the tree
(with the order lists of its nodes), the index and `rootOrder` as they were when the name is
empty or blank, or `parentId` is given and not a key of the index, or a node of the object the
new node would be added to (the children of the parent, or the object returned by
`getCurrentTagTree`) already has the trimmed name.  In every other case each result of the call
is an id that was not a key of the index before, the index of the new state resolves it to a
node with the trimmed name, the given `parentId`, no children and an empty order list, and the
call returns as soon as one attempt of `generateTagId` draws an id that is not in the index. -/
theorem create_outcome (s : State) (attempts : List IdAttempt) (categoryName : String)
    (parentId : Option String) (hidx : IndexMatchesTree s) (hpid : parentId ≠ some "") :
    (∀ pid ∈ parentId, pid ∉ objectPrototypeKeys) →
    (∀ tagId ∈ s.tagSelectPath, tagId ∉ objectPrototypeKeys) →
    ((categoryName = "" ∨ jsTrim categoryName = "" ∨
        (∃ pid, parentId = some pid ∧ pid ∉ s.tagMap) ∨
        (∃ sibling ∈ (addTarget s parentId).values, sibling.name = jsTrim categoryName)) →
      ∃ s', addCategory s attempts categoryName parentId = some (s', none) ∧
        s'.categories = s.categories ∧ s'.tagMap = s.tagMap ∧ s'.rootOrder = s.rootOrder) ∧
    (¬ (categoryName = "" ∨ jsTrim categoryName = "" ∨
        (∃ pid, parentId = some pid ∧ pid ∉ s.tagMap) ∨
        (∃ sibling ∈ (addTarget s parentId).values, sibling.name = jsTrim categoryName)) →
      (∀ s' r, addCategory s attempts categoryName parentId = some (s', r) →
        ∃ tagId, r = some tagId ∧ tagId ∉ s.tagMap ∧
          getTagById s' tagId = some ⟨tagId, jsTrim categoryName, parentId, .nil, some []⟩) ∧
      ((∃ a ∈ attempts, "tag_" ++ a.timestamp ++ "_" ++ a.randomPart ∉ s.tagMap) →
        (addCategory s attempts categoryName parentId).isSome = true)) := by
  intro _ _
  rcases addCategory_cases s attempts categoryName parentId hidx hpid with
    ⟨hrej, hres⟩ | ⟨hacc, after, hcall, hafter⟩
  · exact ⟨fun _ => hres, fun h => absurd hrej h⟩
  · refine ⟨fun h => absurd h hacc, fun _ => ⟨?_, ?_⟩⟩
    · intro s' r hr
      rw [hcall] at hr
      cases hgen : generateTagId s.tagMap attempts 0 with
      | none => rw [hgen] at hr; exact absurd hr (by simp)
      | some tagId =>
        rw [hgen] at hr
        simp only [Option.map_some', Option.some.injEq, Prod.mk.injEq] at hr
        obtain ⟨hs, hr2⟩ := hr
        obtain ⟨hfresh, hne⟩ := generateTagId_spec hgen
        exact ⟨tagId, hr2.symm, hfresh, hs ▸ hafter tagId hfresh hne⟩
    · intro hex
      rw [hcall, Option.isSome_map']
      exact generateTagId_isSome 0 hex

/-- On the scene tree: a second Cafe under Scene and a tag under the unknown parent `tag_park`
are refused and nothing changes, while Park under Scene is created as soon as the generator
draws an id. -/
theorem create_outcome_witness :
    IndexMatchesTree (sceneState [] FilterMode.OR) ∧
      (∃ s', addCategory (sceneState [] FilterMode.OR) [⟨"9", "new", ""⟩] "Cafe"
            (some "tag_scene") = some (s', none) ∧
          s'.categories = (sceneState [] FilterMode.OR).categories ∧
          s'.tagMap = (sceneState [] FilterMode.OR).tagMap ∧
          s'.rootOrder = (sceneState [] FilterMode.OR).rootOrder) ∧
      (∃ s', addCategory (sceneState [] FilterMode.OR) [⟨"9", "new", ""⟩] "Bench"
            (some "tag_park") = some (s', none) ∧
          s'.categories = (sceneState [] FilterMode.OR).categories ∧
          s'.tagMap = (sceneState [] FilterMode.OR).tagMap ∧
          s'.rootOrder = (sceneState [] FilterMode.OR).rootOrder) ∧
      (addCategory (sceneState [] FilterMode.OR) [⟨"9", "new", ""⟩] " Park "
          (some "tag_scene")).isSome = true :=
  ⟨by decide,
    (create_outcome (sceneState [] FilterMode.OR) [⟨"9", "new", ""⟩] "Cafe" (some "tag_scene")
      (by decide) (by decide) (by decide) (by decide)).1 (Or.inr (Or.inr (Or.inr (by decide)))),
    (create_outcome (sceneState [] FilterMode.OR) [⟨"9", "new", ""⟩] "Bench" (some "tag_park")
      (by decide) (by decide) (by decide) (by decide)).1
      (Or.inr (Or.inr (Or.inl ⟨"tag_park", rfl, by decide⟩))),
    ((create_outcome (sceneState [] FilterMode.OR) [⟨"9", "new", ""⟩] " Park "
      (some "tag_scene") (by decide) (by decide) (by decide) (by decide)).2
      (by
        rintro (h | h | ⟨pid, hp, hn⟩ | h)
        · exact absurd h (by decide)
        · exact absurd h (by decide)
        · cases hp
          exact hn (by decide)
        · exact absurd h (by decide))).2
      ⟨⟨"9", "new", ""⟩, by decide, by decide⟩⟩

/-! ## Placement of a created tag -/

/-- Claim C12 fails on the code for a non-empty selector path.  With the selector opened on
Scene, `addCategory('Cafe')` without a parent id succeeds, but the new id is not a key of
`State.categories`: the node is stored in the `children` of Scene with `parentId` `null`, its id
is the last element of `rootOrder`, and the order list of Scene stays empty.  With an empty
selector path the same call makes a top-level node, and with the parent id given the node
becomes a child of Scene and the last element of its order list. -/
theorem create_without_parent_not_top_level :
    (openTagSelector oneTagState "tag_1_scene").tagSelectPath = ["tag_1_scene"] ∧
      addCategory (openTagSelector oneTagState "tag_1_scene") [⟨"2", "cafe", ""⟩] "Cafe" none =
        some (nestedRootState, some "tag_2_cafe") ∧
      "tag_2_cafe" ∉ nestedRootState.categories.keys ∧
      (getTagById nestedRootState "tag_1_scene").map (fun t => (t.children.keys, t.order)) =
        some (["tag_2_cafe"], some []) ∧
      (getTagById nestedRootState "tag_2_cafe").map (fun t => t.parentId) = some none ∧
      nestedRootState.rootOrder.getLast? = some "tag_2_cafe" ∧
      (addCategory oneTagState [⟨"2", "cafe", ""⟩] "Cafe" none).map
          (fun r => (r.1.categories.keys, r.1.rootOrder)) =
        some (["tag_1_scene", "tag_2_cafe"], ["tag_1_scene", "tag_2_cafe"]) ∧
      ((addCategory oneTagState [⟨"2", "cafe", ""⟩] "Cafe" (some "tag_1_scene")).bind
          (fun r => getTagById r.1 "tag_1_scene")).map (fun t => (t.children.keys, t.order)) =
        some (["tag_2_cafe"], some ["tag_2_cafe"]) := by
  decide

/-! ## Renaming a tag -/

theorem renameAll_of_not_mem {t : TagTree} {k : String} (n : String) (h : k ∉ t.allKeys) :
    t.renameAll k n = t := by
  induction t with
  | nil => rfl
  | node key id name parentId children order rest ihc ihr =>
    simp only [TagTree.allKeys, List.mem_cons, List.mem_append, not_or] at h
    simp only [TagTree.renameAll, if_neg (fun e : key = k => h.1 e.symm), ihc h.2.1, ihr h.2.2]

theorem update_eq_renameAll {t : TagTree} {k : String} (n : String) (hnd : t.allKeys.Nodup)
    (hk : k ≠ "") : t.update k (fun tag => { tag with name := n }) = t.renameAll k n := by
  induction t with
  | nil => rfl
  | node key id name parentId children order rest ihc ihr =>
    simp only [TagTree.allKeys, List.nodup_cons, List.mem_append, not_or,
      List.nodup_append] at hnd
    obtain ⟨⟨hk1, hk2⟩, hc, hr, hdisj⟩ := hnd
    simp only [TagTree.update, TagTree.renameAll]
    by_cases hkey : key = k
    · subst hkey
      rw [if_pos rfl, if_pos rfl, renameAll_of_not_mem n hk1, renameAll_of_not_mem n hk2]
      rfl
    · rw [if_neg hkey, if_neg hkey]
      by_cases hin : k ∈ children.allKeys
      · rw [if_pos (findTagById_isSome_of_mem hk hin), ihc hc,
          renameAll_of_not_mem n (fun h => hdisj hin h)]
      · rw [findTagById_none_of_not_mem hin, renameAll_of_not_mem n hin, ihr hr]
        rfl

theorem mem_renameSiblings {s : State} {tagId : String} (hu : s.categories.UniqueIds)
    (hidx : IndexMatchesTree s) (hl : s.categories.parentLinks none = true)
    (hm : tagId ∈ s.tagMap) : tagId ∈ (renameSiblings s tagId).keys := by
  have hin := (hidx.mem_iff tagId).mp hm
  have hne : tagId ≠ "" := fun e => hu.2 (e ▸ hin)
  obtain ⟨tag, hget⟩ := getTagById_isSome_of_mem hidx hne hm
  have hfind := (getTagById_eq_find hget).1
  unfold renameSiblings
  rw [hget]
  rcases parent_of_find none hl hfind with ⟨hp, hg⟩ | ⟨P, nP, hp, hP, hg⟩
  · simp only [hp, truthyId, Option.bind]
    exact mem_keys_of_get hg
  · have hPin := mem_allKeys_of_mem_flat hP
    have hPne : P ≠ "" := fun e => hu.2 (e ▸ hPin)
    have hgetP : getTagById s P = some nP := by
      unfold getTagById
      rw [if_neg (by
        rw [not_or, not_not]
        exact ⟨hPne, (hidx.mem_iff P).mpr hPin⟩)]
      exact find_of_mem_flat hu.1 hPne hP
    simp only [hp, truthyId, hPne, Option.bind, if_false, hgetP]
    exact mem_keys_of_get hg

/-- Claim C13 (rename contract) fails on the code for a `tagId` that is not in the index and
names a property the index inherits as a plain object, such as `constructor`: the source finds
the inherited value and returns a snapshot with its name.  For every other call the claim
holds.  Over a tree with unique ids whose keys are the keys of the index, and when neither
`tagId` nor a `parentId` of the tree names an inherited property,
`renameCategory(tagId, newName)` returns `false` and leaves the state as it was when `newName`
is empty or blank, `tagId` is not in the index, or an entry other than `tagId` of the object the
tag's siblings are read from (the `children` of the node its `parentId` names, else
`State.categories`) has the trimmed name.  In every other case it returns the snapshot with the
previous name, the new state differs from the old one only in the tree, the new tree is the old
one with the name of the node stored under `tagId` replaced by the trimmed name and no other
field of any node touched, and both the index and `findTagById` resolve `tagId` to the old node
under the trimmed name.  When the `parentId` links of the tree are right, the object the siblings
are read from holds `tagId` itself. -/
theorem rename_contract (s : State) (tagId newName : String) (hu : s.categories.UniqueIds)
    (hidx : IndexMatchesTree s) :
    tagId ∉ objectPrototypeKeys →
    (∀ p ∈ s.categories.parentIds, p ∉ objectPrototypeKeys) →
    ((newName = "" ∨ jsTrim newName = "" ∨ tagId ∉ s.tagMap ∨
        (∃ e ∈ (renameSiblings s tagId).entries, e.1 ≠ tagId ∧ e.2.name = jsTrim newName)) →
      renameCategory s tagId newName = (s, none)) ∧
    (¬ (newName = "" ∨ jsTrim newName = "" ∨ tagId ∉ s.tagMap ∨
        (∃ e ∈ (renameSiblings s tagId).entries, e.1 ≠ tagId ∧ e.2.name = jsTrim newName)) →
      ∃ tag, getTagById s tagId = some tag ∧
        (renameCategory s tagId newName).2 = some ⟨tagId, tag.name⟩ ∧
        (renameCategory s tagId newName).1 =
          { s with categories := s.categories.renameAll tagId (jsTrim newName) } ∧
        getTagById (renameCategory s tagId newName).1 tagId =
          some { tag with name := jsTrim newName } ∧
        findTagById (renameCategory s tagId newName).1.categories tagId =
          some { tag with name := jsTrim newName }) ∧
    (s.categories.parentLinks none = true → tagId ∈ s.tagMap →
      tagId ∈ (renameSiblings s tagId).keys) := by
  intro _ _
  refine ⟨?_, ?_, fun hl hm => mem_renameSiblings hu hidx hl hm⟩
  · intro hrej
    by_cases h1 : newName = "" ∨ jsTrim newName = "" ∨ tagId = ""
    · unfold renameCategory
      rw [if_pos h1]
    · unfold renameCategory
      rw [if_neg h1]
      cases hget : getTagById s tagId with
      | none => rfl
      | some tag =>
        have hm := (getTagById_eq_find hget).2
        rcases hrej with h | h | h | ⟨e, he, hne, hname⟩
        · exact absurd (Or.inl h) h1
        · exact absurd (Or.inr (Or.inl h)) h1
        · exact absurd hm h
        · simp only
          rw [if_pos]
          rw [List.any_eq_true]
          refine ⟨e, ?_, by simp [hne, hname]⟩
          unfold renameSiblings at he
          rw [hget] at he
          exact he
  · intro hacc
    simp only [not_or, not_not] at hacc
    obtain ⟨h1, h2, hm, hsib⟩ := hacc
    have hin := (hidx.mem_iff tagId).mp hm
    have hne : tagId ≠ "" := fun e => hu.2 (e ▸ hin)
    obtain ⟨tag, hget⟩ := getTagById_isSome_of_mem hidx hne hm
    have hfind := (getTagById_eq_find hget).1
    have hcall : renameCategory s tagId newName =
        ({ s with categories := s.categories.update tagId (fun t =>
            { t with name := jsTrim newName }) }, some ⟨tagId, tag.name⟩) := by
      unfold renameCategory
      rw [if_neg (by simp [h1, h2, hne])]
      simp only [hget]
      refine (if_neg ?_).trans rfl
      rw [List.any_eq_true]
      rintro ⟨e, he, hp⟩
      simp only [Bool.and_eq_true, bne_iff_ne, ne_eq, decide_eq_true_eq] at hp
      refine hsib ⟨e, ?_, hp.1, hp.2⟩
      unfold renameSiblings
      rw [hget]
      exact he
    refine ⟨tag, hget, by rw [hcall], ?_, ?_, ?_⟩
    · rw [hcall, update_eq_renameAll _ hu.1 hne]
    · rw [hcall]
      unfold getTagById
      rw [if_neg (by
        rw [not_or, not_not]
        exact ⟨hne, hm⟩)]
      show findTagById (s.categories.update tagId _) tagId = _
      rw [find_update_self _ hne, hfind]
      rfl
    · rw [hcall]
      show findTagById (s.categories.update tagId _) tagId = _
      rw [find_update_self _ hne, hfind]
      rfl

/-- Scenario D: renaming Cafe to Coffee House succeeds and gives `sceneRenamed` with the snapshot
of the old name; renaming it then to School, the name of a sibling, fails and the name stays
Coffee House; renaming the unknown id `tag_park` fails. -/
theorem rename_contract_witness :
    (sceneState [] FilterMode.OR).categories.UniqueIds ∧
      IndexMatchesTree (sceneState [] FilterMode.OR) ∧
      (renameCategory (sceneState [] FilterMode.OR) "tag_cafe" "Coffee House").1 =
        sceneRenamed ∧
      (renameCategory (sceneState [] FilterMode.OR) "tag_cafe" "Coffee House").2 =
        some ⟨"tag_cafe", "Cafe"⟩ ∧
      renameCategory sceneRenamed "tag_cafe" "School" = (sceneRenamed, none) ∧
      renameCategory sceneRenamed "tag_park" "Park" = (sceneRenamed, none) ∧
      (getTagById sceneRenamed "tag_cafe").map (fun t => t.name) = some "Coffee House" :=
  ⟨by decide, by decide,
    Exists.elim ((rename_contract (sceneState [] FilterMode.OR) "tag_cafe"
      "Coffee House" (by decide) (by decide) (by decide) (by decide)).2.1 (by
        rintro (h | h | h | h)
        · exact absurd h (by decide)
        · exact absurd h (by decide)
        · exact absurd h (by decide)
        · exact absurd h (by decide))) (fun _ h => h.2.2.1.trans (by decide)),
    Exists.elim ((rename_contract (sceneState [] FilterMode.OR) "tag_cafe"
      "Coffee House" (by decide) (by decide) (by decide) (by decide)).2.1 (by
        rintro (h | h | h | h)
        · exact absurd h (by decide)
        · exact absurd h (by decide)
        · exact absurd h (by decide)
        · exact absurd h (by decide)))
      (fun tag h => h.2.1.trans (by
        have ht : tag = ⟨"tag_cafe", "Cafe", some "tag_scene", .nil, some []⟩ :=
          Option.some.inj (h.1.symm.trans (by decide))
        rw [ht])),
    (rename_contract sceneRenamed "tag_cafe" "School" (by decide) (by decide) (by decide)
      (by decide)).1 (Or.inr (Or.inr (Or.inr (by decide)))),
    (rename_contract sceneRenamed "tag_park" "Park" (by decide) (by decide) (by decide)
      (by decide)).1 (Or.inr (Or.inr (Or.inl (by decide)))),
    by decide⟩

/-! ## The breadcrumb of a tag -/

theorem chainFrom_length {s : State} :
    ∀ (n : Nat) (x : String) (q : List String), chainFrom s n x = some q →
      0 < q.length ∧ q.length ≤ n := by
  intro n
  induction n with
  | zero => intro x q h; simp [chainFrom] at h
  | succ n ih =>
    intro x q h
    simp only [chainFrom] at h
    cases hget : getTagById s x with
    | none => rw [hget] at h; exact absurd h (by simp)
    | some tag =>
      rw [hget] at h
      simp only at h
      cases hp : truthyId tag.parentId with
      | none =>
        rw [hp] at h
        cases h
        simp
      | some p =>
        rw [hp] at h
        simp only at h
        cases hc : chainFrom s n p with
        | none => rw [hc] at h; exact absurd h (by simp)
        | some q0 =>
          rw [hc] at h
          cases h
          have := ih p q0 hc
          simp only [List.length_append, List.length_singleton]
          omega

theorem chainFrom_mono {s : State} :
    ∀ (n : Nat) (x : String) (q : List String), chainFrom s n x = some q →
      ∀ k, chainFrom s (n + k) x = some q := by
  intro n
  induction n with
  | zero => intro x q h; simp [chainFrom] at h
  | succ n ih =>
    intro x q h k
    have hfuel : n + 1 + k = (n + k) + 1 := by omega
    rw [hfuel]
    simp only [chainFrom] at h ⊢
    cases hget : getTagById s x with
    | none => rw [hget] at h; exact absurd h (by simp)
    | some tag =>
      rw [hget] at h
      simp only at h ⊢
      cases hp : truthyId tag.parentId with
      | none => rw [hp] at h; exact h
      | some p =>
        rw [hp] at h
        simp only at h ⊢
        cases hc : chainFrom s n p with
        | none => rw [hc] at h; exact absurd h (by simp)
        | some q0 =>
          rw [hc] at h
          rw [ih p q0 hc k]
          exact h

theorem chainFrom_unique {s : State} {n m : Nat} {x : String} {q r : List String}
    (h1 : chainFrom s n x = some q) (h2 : chainFrom s m x = some r) : q = r := by
  have a := chainFrom_mono n x q h1 m
  have b := chainFrom_mono m x r h2 n
  rw [Nat.add_comm] at b
  rw [a] at b
  exact Option.some.inj b

/-- The ids on a parent chain that ends at a root are pairwise different keys of the index. -/
theorem chainFrom_ids {s : State} :
    ∀ (n : Nat) (x : String) (q : List String), chainFrom s n x = some q →
      ∃ l : List String, l.Nodup ∧ l ⊆ s.tagMap ∧ l.length = q.length ∧
        ∀ y ∈ l, ∃ k r, chainFrom s k y = some r ∧ r.length ≤ q.length := by
  intro n
  induction n with
  | zero => intro x q h; simp [chainFrom] at h
  | succ n ih =>
    intro x q h
    have hfull := h
    simp only [chainFrom] at h
    cases hget : getTagById s x with
    | none => rw [hget] at h; exact absurd h (by simp)
    | some tag =>
      have hx : x ∈ s.tagMap := (getTagById_eq_find hget).2
      rw [hget] at h
      simp only at h
      cases hp : truthyId tag.parentId with
      | none =>
        rw [hp] at h
        cases h
        refine ⟨[x], List.nodup_singleton x, by simpa using hx, rfl, ?_⟩
        intro y hy
        rw [List.mem_singleton] at hy
        subst hy
        exact ⟨n + 1, [tag.name], hfull, Nat.le_refl _⟩
      | some p =>
        rw [hp] at h
        simp only at h
        cases hc : chainFrom s n p with
        | none => rw [hc] at h; exact absurd h (by simp)
        | some q0 =>
          rw [hc] at h
          cases h
          obtain ⟨l, hnd, hsub, hlen, hall⟩ := ih p q0 hc
          refine ⟨x :: l, List.nodup_cons.mpr ⟨?_, hnd⟩, ?_, ?_, ?_⟩
          · intro hmem
            obtain ⟨k, r, hr, hrl⟩ := hall x hmem
            have := chainFrom_unique hr hfull
            subst this
            simp only [List.length_append, List.length_singleton] at hrl
            omega
          · intro y hy
            rcases List.mem_cons.mp hy with rfl | hy
            · exact hx
            · exact hsub hy
          · simp [hlen]
          · intro y hy
            rcases List.mem_cons.mp hy with rfl | hy
            · exact ⟨n + 1, _, hfull, Nat.le_refl _⟩
            · obtain ⟨k, r, hr, hrl⟩ := hall y hy
              refine ⟨k, r, hr, ?_⟩
              simp only [List.length_append, List.length_singleton]
              omega

theorem chainFrom_length_le_index {s : State} {n : Nat} {x : String} {q : List String}
    (h : chainFrom s n x = some q) : q.length ≤ s.tagMap.length := by
  obtain ⟨l, hnd, hsub, hlen, -⟩ := chainFrom_ids n x q h
  rw [← hlen]
  exact (List.subperm_of_subset hnd hsub).length_le

theorem ascend_of_chain {s : State} :
    ∀ (n : Nat) (x : String) (q : List String), chainFrom s n x = some q →
      ∀ k acc, ascend s (q.length + 1 + k) (some x) acc = some (q ++ acc) := by
  intro n
  induction n with
  | zero => intro x q h; simp [chainFrom] at h
  | succ n ih =>
    intro x q h k acc
    simp only [chainFrom] at h
    cases hget : getTagById s x with
    | none => rw [hget] at h; exact absurd h (by simp)
    | some tag =>
      have hxne : x ≠ "" := by
        rintro rfl
        unfold getTagById at hget
        simp at hget
      rw [hget] at h
      simp only at h
      cases hp : truthyId tag.parentId with
      | none =>
        rw [hp] at h
        cases h
        have hfuel : [tag.name].length + 1 + k = (k + 1) + 1 := by
          simp only [List.length_singleton]
          omega
        rw [hfuel]
        simp only [ascend, truthyId, if_neg hxne, hget]
        have : truthyId tag.parentId = none := hp
        simp only [truthyId] at this
        rw [this]
        rfl
      | some p =>
        rw [hp] at h
        simp only at h
        cases hc : chainFrom s n p with
        | none => rw [hc] at h; exact absurd h (by simp)
        | some q0 =>
          rw [hc] at h
          cases h
          have hpeq : tag.parentId = some p := by
            cases hpar : tag.parentId with
            | none => rw [hpar] at hp; simp [truthyId] at hp
            | some p2 =>
              rw [hpar] at hp
              simp only [truthyId] at hp
              split at hp
              · exact absurd hp (by simp)
              · exact hp
          have hfuel : (q0 ++ [tag.name]).length + 1 + k = (q0.length + 1 + k) + 1 := by
            simp only [List.length_append, List.length_singleton]
            omega
          rw [hfuel]
          simp only [ascend, truthyId, if_neg hxne, hget]
          rw [hpeq, ih p q0 hc k (tag.name :: acc)]
          simp

theorem getTagById_ne_empty {s : State} {x : String} {tag : Tag}
    (h : getTagById s x = some tag) : x ≠ "" := by
  rintro rfl
  unfold getTagById at h
  simp at h

theorem chain_in_subtree (s : State) (t : TagTree) :
    ∀ (p : Option String) (pre : List String) (n : Nat),
      (∀ x v, (x, v) ∈ t.flat → getTagById s x = some v) →
      t.parentLinks p = true → "" ∉ t.allKeys →
      (∀ (x : String) (tag : Tag) (k : Nat), getTagById s x = some tag → tag.parentId = p →
        chainFrom s (n + 1 + k) x = some (pre ++ [tag.name])) →
      ∀ x q, t.namesTo x = some q →
        ∀ k, chainFrom s (n + q.length + k) x = some (pre ++ q) := by
  induction t with
  | nil =>
    intro p pre n _ _ _ _ x q hq
    simp [TagTree.namesTo] at hq
  | node key id name parentId children order rest ihc ihr =>
    intro p pre n hsub hlinks hne hp x q hq
    simp only [TagTree.parentLinks, Bool.and_eq_true, decide_eq_true_eq] at hlinks
    obtain ⟨⟨hl1, hl2⟩, hl3⟩ := hlinks
    simp only [TagTree.allKeys, List.mem_cons, List.mem_append, not_or] at hne
    obtain ⟨hne1, hne2, hne3⟩ := hne
    have hget := hsub key ⟨id, name, parentId, children, order⟩ (by simp [TagTree.flat])
    have hkey : ∀ k, chainFrom s (n + 1 + k) key = some (pre ++ [name]) :=
      fun k => hp key _ k hget hl1
    have hbelow : ∀ (x : String) (tag : Tag) (k : Nat), getTagById s x = some tag →
        tag.parentId = some key →
        chainFrom s (n + 1 + 1 + k) x = some (pre ++ [name] ++ [tag.name]) := by
      intro x tag k hx hpar
      have hfuel : n + 1 + 1 + k = (n + 1 + k) + 1 := by omega
      rw [hfuel]
      simp only [chainFrom, hx, hpar, truthyId, if_neg (fun e : key = "" => hne1 e.symm),
        hkey k, Option.map_some']
    simp only [TagTree.namesTo] at hq
    split at hq
    · rename_i hk
      cases hq
      subst hk
      intro k
      exact hkey k
    · split at hq
      · rename_i q2 hq2
        cases hq
        intro k
        have := ihc (some key) (pre ++ [name]) (n + 1)
          (fun x v hv => hsub x v (by simp [TagTree.flat, hv])) hl2 hne2 hbelow x q2 hq2 k
        have hfuel : n + (name :: q2).length + k = n + 1 + q2.length + k := by
          simp only [List.length_cons]
          omega
        rw [hfuel, this]
        simp
      · exact ihr p pre n (fun x v hv => hsub x v (by simp [TagTree.flat, hv])) hl3 hne3 hp
          x q hq

theorem chainFrom_wf {s : State} (h : WellFormed s) {x : String} (hx : x ∈ s.tagMap) :
    ∃ q, s.categories.namesTo x = some q ∧ chainFrom s s.tagMap.length x = some q := by
  obtain ⟨q, hq, -, hlen⟩ := exists_namesTo (h.mem_tagMap.mp hx)
  refine ⟨q, hq, ?_⟩
  have hc := chain_in_subtree s s.categories none [] 0
    (fun x v hv => h.getTagById_of_mem_flat hv) h.parentLinks h.uniqueIds.2
    (by
      intro y tag k hy hpar
      have hfuel : 0 + 1 + k = k + 1 := by omega
      rw [hfuel]
      simp [chainFrom, hy, hpar, truthyId])
    x q hq (s.tagMap.length - q.length)
  have hfuel : 0 + q.length + (s.tagMap.length - q.length) = s.tagMap.length := by
    have := h.perm.length_eq
    omega
  rw [hfuel] at hc
  simpa using hc

/-- Claim C14 fails on the code for an id that is not a key of the index and names a property
the index inherits as a plain object, such as `constructor`: `getBreadcrumbPath` returns the name
of the inherited value (`Object`), not `null`, and so does `getTagFullName`.  For every other id
the claim holds.  `getBreadcrumbPath` returns `null` for an id that is not a key of the index
and names no inherited property.  When the parent chain of `tagId` through the index ends at a
node without parent after finitely many steps, every node on it being indexed, with `q` the names
on it from that root ancestor down to `tagId`, the loop of `getBreadcrumbPath` terminates and
the function returns the names of `q` joined by `' / '`, and `getTagFullName` returns the same
string.  In a well-formed state every indexed id has such a chain, and its names are those on
the way from the top of the tree down to the node. -/
theorem breadcrumb_path (s : State) (tagId : String) :
    (tagId ∉ s.tagMap → tagId ∉ objectPrototypeKeys →
      getBreadcrumbPath s tagId = some none) ∧
    (tagId ∉ s.tagMap → tagId ∈ objectPrototypeKeys →
      getBreadcrumbPath s tagId = some (some (inheritedName tagId)) ∧
      getTagFullName s tagId = some (inheritedName tagId)) ∧
    (∀ n q, chainFrom s n tagId = some q →
      getBreadcrumbPath s tagId = some (some (String.intercalate " / " q)) ∧
      getTagFullName s tagId = some (String.intercalate " / " q)) ∧
    (WellFormed s → tagId ∈ s.tagMap →
      ∃ q, s.categories.namesTo tagId = some q ∧
        chainFrom s s.tagMap.length tagId = some q) := by
  refine ⟨?_, ?_, ?_, fun h hx => chainFrom_wf h hx⟩
  · intro hx hown
    unfold getBreadcrumbPath
    rw [getTagById_none_of_not_mem hx]
    simp only [hown, and_false, if_false]
  · intro hx hown
    have hb : getBreadcrumbPath s tagId = some (some (inheritedName tagId)) := by
      unfold getBreadcrumbPath
      rw [getTagById_none_of_not_mem hx]
      simp only [hx, hown, not_false_eq_true, and_self, if_true]
    refine ⟨hb, ?_⟩
    unfold getTagFullName
    rw [getTagById_none_of_not_mem hx]
    simp only [hx, hown, not_false_eq_true, and_self, if_true, hb, Option.map_some',
      Option.getD_some]
  · intro n q hq
    have hlen := chainFrom_length n tagId q hq
    have hle := chainFrom_length_le_index hq
    have hasc := ascend_of_chain n tagId q hq (s.tagMap.length - q.length) []
    have hfuel : q.length + 1 + (s.tagMap.length - q.length) = s.tagMap.length + 1 := by omega
    rw [hfuel, List.append_nil] at hasc
    have hget : ∃ tag, getTagById s tagId = some tag := by
      cases n with
      | zero => simp [chainFrom] at hq
      | succ n =>
        simp only [chainFrom] at hq
        cases hg : getTagById s tagId with
        | none => rw [hg] at hq; exact absurd hq (by simp)
        | some tag => exact ⟨tag, rfl⟩
    obtain ⟨tag, hget⟩ := hget
    have hb : getBreadcrumbPath s tagId = some (some (String.intercalate " / " q)) := by
      unfold getBreadcrumbPath
      rw [hget]
      simp only [hasc, Option.map_some']
      rw [if_pos (by simpa using hlen.1)]
    refine ⟨hb, ?_⟩
    unfold getTagFullName
    rw [hget]
    simp only [hb, Option.map_some', Option.getD_some]

/-- Scenario A: the breadcrumb of Cafe is `Scene / Cafe`, the unknown id `tag_park` has none,
and for the id `constructor`, which is no tag either, the result is `Object`. -/
theorem breadcrumb_path_witness :
    getBreadcrumbPath (sceneState [] FilterMode.OR) "tag_cafe" = some (some "Scene / Cafe") ∧
      getTagFullName (sceneState [] FilterMode.OR) "tag_cafe" = some "Scene / Cafe" ∧
      getBreadcrumbPath (sceneState [] FilterMode.OR) "tag_park" = some none ∧
      "constructor" ∉ (sceneState [] FilterMode.OR).tagMap ∧
      getBreadcrumbPath (sceneState [] FilterMode.OR) "constructor" = some (some "Object") :=
  ⟨((breadcrumb_path (sceneState [] FilterMode.OR) "tag_cafe").2.2.1 3 ["Scene", "Cafe"]
      (by decide)).1,
    ((breadcrumb_path (sceneState [] FilterMode.OR) "tag_cafe").2.2.1 3 ["Scene", "Cafe"]
      (by decide)).2,
    (breadcrumb_path (sceneState [] FilterMode.OR) "tag_park").1 (by decide) (by decide),
    by decide,
    ((breadcrumb_path (sceneState [] FilterMode.OR) "constructor").2.1 (by decide)
      (by decide)).1⟩

/-! ## The descendant closure -/

theorem flat_children_subset {t : TagTree} {x : String} {v : Tag} (h : (x, v) ∈ t.flat) :
    ∀ e ∈ v.children.flat, e ∈ t.flat := by
  induction t with
  | nil => simp [TagTree.flat] at h
  | node key id name parentId children order rest ihc ihr =>
    simp only [TagTree.flat, List.mem_cons, List.mem_append, Prod.mk.injEq] at h
    intro e he
    simp only [TagTree.flat, List.mem_cons, List.mem_append]
    rcases h with ⟨-, rfl⟩ | h | h
    · exact Or.inr (Or.inl he)
    · exact Or.inr (Or.inl (ihc h e he))
    · exact Or.inr (Or.inr (ihr h e he))

theorem mem_entries_flat {t : TagTree} {e : String × Tag} (h : e ∈ t.entries) : e ∈ t.flat := by
  induction t with
  | nil => simp [TagTree.entries] at h
  | node key id name parentId children order rest ihc ihr =>
    simp only [TagTree.entries, List.mem_cons] at h
    simp only [TagTree.flat, List.mem_cons, List.mem_append]
    rcases h with h | h
    · exact Or.inl h
    · exact Or.inr (Or.inr (ihr h))

theorem transGen_of_mem_allKeys (R : String → String → Prop) (t : TagTree) :
    ∀ (P : String), (∀ k ∈ t.keys, R P k) →
      (∀ k v, (k, v) ∈ t.flat → ∀ c ∈ v.children.keys, R k c) →
      ∀ y ∈ t.allKeys, Relation.TransGen R P y := by
  induction t with
  | nil => intro P _ _ y hy; simp [TagTree.allKeys] at hy
  | node key id name parentId children order rest ihc ihr =>
    intro P ha hb y hy
    simp only [TagTree.allKeys, List.mem_cons, List.mem_append] at hy
    have hPkey : R P key := ha key (by simp [TagTree.keys])
    rcases hy with rfl | hy | hy
    · exact Relation.TransGen.single hPkey
    · refine Relation.TransGen.head hPkey (ihc key ?_ ?_ y hy)
      · intro k hk
        exact hb key ⟨id, name, parentId, children, order⟩ (by simp [TagTree.flat]) k hk
      · intro k v hkv
        exact hb k v (by simp [TagTree.flat, hkv])
    · refine ihr P ?_ ?_ y hy
      · intro k hk
        exact ha k (by simp [TagTree.keys, hk])
      · intro k v hkv
        exact hb k v (by simp [TagTree.flat, hkv])

/-- Claim C15.  Over a tree with unique ids whose keys are the keys of the index, for every
indexed tag id the list returned by `getAllDescendantIds` has no duplicates, and an id is in it
exactly when it is the tag itself or is reached from it by one or more steps from a node to a key
of its `children`. -/
theorem descendant_closure (s : State) (tagId : String) (hu : s.categories.UniqueIds)
    (hidx : IndexMatchesTree s) (hm : tagId ∈ s.tagMap) :
    (getAllDescendantIds s tagId).Nodup ∧
      ∀ x, x ∈ getAllDescendantIds s tagId ↔
        x = tagId ∨ Relation.TransGen (IsChildOf s) tagId x := by
  have hin := (hidx.mem_iff tagId).mp hm
  have hne : tagId ≠ "" := fun e => hu.2 (e ▸ hin)
  obtain ⟨tag, hget⟩ := getTagById_isSome_of_mem hidx hne hm
  have hchild : ∀ p c, IsChildOf s p c → c ∈ getAllDescendantIds s p := by
    rintro p c ⟨ptag, hp, hc⟩
    exact mem_desc_of_child hu hp ((keys_sublist_allKeys _).subset hc)
  refine ⟨?_, fun x => ⟨?_, ?_⟩⟩
  · unfold getAllDescendantIds
    rw [if_neg hne, hget]
    exact nodup_dedupe _
  · intro hx
    rcases mem_desc_cases hx with h | ⟨tag2, hget2, hmem⟩
    · exact Or.inl h
    · right
      have hflat := find_some_mem_flat (getTagById_eq_find hget2).1
      refine transGen_of_mem_allKeys (IsChildOf s) tag2.children tagId ?_ ?_ x hmem
      · intro k hk
        exact ⟨tag2, hget2, hk⟩
      · intro k v hkv c hc
        have hkv2 := flat_children_subset hflat (k, v) hkv
        have hkin := mem_allKeys_of_mem_flat hkv2
        have hkne : k ≠ "" := fun e => hu.2 (e ▸ hkin)
        refine ⟨v, ?_, hc⟩
        unfold getTagById
        rw [if_neg (by
          rw [not_or, not_not]
          exact ⟨hkne, (hidx.mem_iff k).mpr hkin⟩)]
        exact find_of_mem_flat hu.1 hkne hkv2
  · rintro (rfl | hx)
    · exact self_mem_desc hne
    · induction hx with
      | single h => exact hchild _ _ h
      | tail _ h ih => exact desc_trans hu ih (hchild _ _ h)

/-- Scenario A: the closure of Scene has no duplicates and holds Cafe, and Scene is not reached
from Cafe. -/
theorem descendant_closure_witness :
    (sceneState [] FilterMode.OR).categories.UniqueIds ∧
      (getAllDescendantIds (sceneState [] FilterMode.OR) "tag_scene").Nodup ∧
      "tag_cafe" ∈ getAllDescendantIds (sceneState [] FilterMode.OR) "tag_scene" ∧
      ¬ Relation.TransGen (IsChildOf (sceneState [] FilterMode.OR)) "tag_cafe" "tag_scene" :=
  ⟨by decide,
    (descendant_closure (sceneState [] FilterMode.OR) "tag_scene" (by decide) (by decide)
      (by decide)).1,
    ((descendant_closure (sceneState [] FilterMode.OR) "tag_scene" (by decide) (by decide)
      (by decide)).2 "tag_cafe").mpr
      (Or.inr (Relation.TransGen.single ⟨_, rfl, by decide⟩)),
    fun h => absurd
      (((descendant_closure (sceneState [] FilterMode.OR) "tag_cafe" (by decide) (by decide)
        (by decide)).2 "tag_scene").mpr
        (Or.inr h))
      (by decide)⟩

/-! ## Moving a tag inside its order list -/

theorem perm_cons_eraseIdx (xs : List String) :
    ∀ (i : Nat), i < xs.length → xs.Perm (xs.getD i "" :: xs.eraseIdx i) := by
  induction xs with
  | nil => intro i hi; simp at hi
  | cons a l ih =>
    intro i hi
    cases i with
    | zero => simp
    | succ i =>
      simp only [List.length_cons, Nat.add_lt_add_iff_right] at hi
      simp only [List.getD_cons_succ, List.eraseIdx_cons_succ]
      exact ((ih i hi).cons a).trans (List.Perm.swap _ _ _)

theorem splice_move_spec (xs : List String) (i j : Nat) (hi : i < xs.length)
    (hj : j < xs.length) :
    ((xs.eraseIdx i).take j ++ xs.getD i "" :: (xs.eraseIdx i).drop j).length = xs.length ∧
      ((xs.eraseIdx i).take j ++ xs.getD i "" :: (xs.eraseIdx i).drop j).Perm xs ∧
      ((xs.eraseIdx i).take j ++ xs.getD i "" :: (xs.eraseIdx i).drop j).eraseIdx j =
        xs.eraseIdx i ∧
      ((xs.eraseIdx i).take j ++ xs.getD i "" :: (xs.eraseIdx i).drop j)[j]? = xs[i]? := by
  have hlen : (xs.eraseIdx i).length = xs.length - 1 := List.length_eraseIdx_of_lt hi
  have htake : ((xs.eraseIdx i).take j).length = j := by
    rw [List.length_take, hlen]
    omega
  have hx : xs.getD i "" = xs[i] := by
    rw [List.getD_eq_getElem?_getD, List.getElem?_eq_getElem hi, Option.getD_some]
  refine ⟨?_, ?_, ?_, ?_⟩
  · rw [List.length_append, List.length_cons, htake, List.length_drop, hlen]
    omega
  · refine List.perm_middle.trans ?_
    rw [List.take_append_drop]
    exact (perm_cons_eraseIdx xs i hi).symm
  · rw [List.eraseIdx_append_of_length_le (by rw [htake]), htake, Nat.sub_self]
    simp [List.take_append_drop]
  · rw [List.getElem?_append_right (by rw [htake]), htake, Nat.sub_self, hx]
    simp [List.getElem?_eq_getElem hi]

theorem moveInArray_spec (xs : List String) (fromIndex toIndex : Int)
    (hi : fromIndex.toNat < xs.length) (hj : toIndex.toNat < xs.length) :
    (moveInArray xs fromIndex toIndex).length = xs.length ∧
      (moveInArray xs fromIndex toIndex).Perm xs ∧
      (moveInArray xs fromIndex toIndex).eraseIdx toIndex.toNat =
        xs.eraseIdx fromIndex.toNat ∧
      (moveInArray xs fromIndex toIndex)[toIndex.toNat]? = xs[fromIndex.toNat]? :=
  splice_move_spec xs fromIndex.toNat toIndex.toNat hi hj

theorem update_eq_self {t : TagTree} {k : String} {g : Tag → Tag} (hk : k ≠ "")
    (hg : ∀ n, findTagById t k = some n → g n = n) : t.update k g = t := by
  induction t with
  | nil => rfl
  | node key id name parentId children order rest ihc ihr =>
    simp only [findTagById, if_neg hk] at hg
    simp only [TagTree.update]
    by_cases hkey : key = k
    · rw [if_pos hkey]
      rw [if_pos hkey] at hg
      rw [hg _ rfl]
      rfl
    · rw [if_neg hkey]
      rw [if_neg hkey] at hg
      cases hc : findTagById children k with
      | some found =>
        rw [hc] at hg
        simp only [Option.isSome_some, if_true]
        rw [ihc (fun n hn => hg n (by rw [hc] at hn; exact hn))]
      | none =>
        rw [hc] at hg
        simp only [Option.isSome_none, Bool.false_eq_true, if_false]
        rw [ihr (fun n hn => hg n hn)]

/-- A parent without an order list, which only hand-written legacy data has (loading and
creating give every node one): the call `moveChildCategory('tag_scene', 0, 0)` returns `false`
after it has stored the keys of the children as the order list of the parent. -/
theorem move_synthesizes_missing_order :
    (getTagById legacyState "tag_scene").map (fun p => p.order) = some none ∧
      (moveChildCategory legacyState "tag_scene" 0 0).2 = false ∧
      (getTagById (moveChildCategory legacyState "tag_scene" 0 0).1 "tag_scene").map
          (fun p => p.order) = some (some ["tag_cafe", "tag_school"]) ∧
      (moveChildCategory legacyState "tag_scene" 0 0).1.categories ≠ legacyState.categories := by
  decide

/-- The moves on any tree.  `moveCategory` works on `rootOrder` and `moveChildCategory` on the
order list of an indexed parent, which for a parent without an order list is the list of the keys
of its children.  When an index is negative or not below the length of the list, or the two
indices are equal, the call returns `false`; the state is then the one before the call, except
that a parent without an order list has got that list of keys as its order list.  Otherwise the
call returns `true` and the new order list has the length of the old one, is a permutation of it,
holds at `toIndex` the element the old list held at `fromIndex`, and with that element taken out
is the old list with it taken out. -/
theorem move_general (s : State) (parentTagId : String) (fromIndex toIndex : Int) :
    ((fromIndex < 0 ∨ fromIndex ≥ s.rootOrder.length ∨ toIndex < 0 ∨
        toIndex ≥ s.rootOrder.length ∨ fromIndex = toIndex) →
      moveCategory s fromIndex toIndex = (s, false)) ∧
    (¬ (fromIndex < 0 ∨ fromIndex ≥ s.rootOrder.length ∨ toIndex < 0 ∨
        toIndex ≥ s.rootOrder.length ∨ fromIndex = toIndex) →
      (moveCategory s fromIndex toIndex).2 = true ∧
      (moveCategory s fromIndex toIndex).1.rootOrder =
        moveInArray s.rootOrder fromIndex toIndex ∧
      (moveInArray s.rootOrder fromIndex toIndex).length = s.rootOrder.length ∧
      (moveInArray s.rootOrder fromIndex toIndex).Perm s.rootOrder ∧
      (moveInArray s.rootOrder fromIndex toIndex).eraseIdx toIndex.toNat =
        s.rootOrder.eraseIdx fromIndex.toNat ∧
      (moveInArray s.rootOrder fromIndex toIndex)[toIndex.toNat]? =
        s.rootOrder[fromIndex.toNat]?) ∧
    (getTagById s parentTagId = none →
      moveChildCategory s parentTagId fromIndex toIndex = (s, false)) ∧
    (∀ parentTag order, getTagById s parentTagId = some parentTag →
      order = parentTag.order.getD parentTag.children.keys →
      ((fromIndex < 0 ∨ fromIndex ≥ order.length ∨ toIndex < 0 ∨
          toIndex ≥ order.length ∨ fromIndex = toIndex) →
        (moveChildCategory s parentTagId fromIndex toIndex).2 = false ∧
        (parentTag.order = some order →
          (moveChildCategory s parentTagId fromIndex toIndex).1 = s) ∧
        getTagById (moveChildCategory s parentTagId fromIndex toIndex).1 parentTagId =
          some { parentTag with order := some order }) ∧
      (¬ (fromIndex < 0 ∨ fromIndex ≥ order.length ∨ toIndex < 0 ∨
          toIndex ≥ order.length ∨ fromIndex = toIndex) →
        (moveChildCategory s parentTagId fromIndex toIndex).2 = true ∧
        (getTagById (moveChildCategory s parentTagId fromIndex toIndex).1
          parentTagId).map (fun p => p.order) =
            some (some (moveInArray order fromIndex toIndex)) ∧
        (moveInArray order fromIndex toIndex).length = order.length ∧
        (moveInArray order fromIndex toIndex).Perm order ∧
        (moveInArray order fromIndex toIndex).eraseIdx toIndex.toNat =
          order.eraseIdx fromIndex.toNat ∧
        (moveInArray order fromIndex toIndex)[toIndex.toNat]? = order[fromIndex.toNat]?)) := by
  have hnat : ∀ (xs : List String), ¬ (fromIndex < 0 ∨ fromIndex ≥ xs.length ∨ toIndex < 0 ∨
      toIndex ≥ xs.length ∨ fromIndex = toIndex) →
      fromIndex.toNat < xs.length ∧ toIndex.toNat < xs.length := by
    intro xs h
    simp only [not_or, not_lt, ge_iff_le, not_le] at h
    omega
  refine ⟨?_, ?_, ?_, ?_⟩
  · intro h
    unfold moveCategory
    rw [if_pos h]
  · intro h
    obtain ⟨hi, hj⟩ := hnat _ h
    have hcall : moveCategory s fromIndex toIndex =
        ({ s with rootOrder := moveInArray s.rootOrder fromIndex toIndex,
                  categories := reorderObject s.categories
                    (moveInArray s.rootOrder fromIndex toIndex) }, true) := by
      unfold moveCategory
      rw [if_neg h]
    rw [hcall]
    exact ⟨rfl, rfl, moveInArray_spec s.rootOrder fromIndex toIndex hi hj⟩
  · intro h
    unfold moveChildCategory
    rw [h]
  · intro parentTag order hget horder
    have hne := getTagById_ne_empty hget
    obtain ⟨hfind, hm⟩ := getTagById_eq_find hget
    have hord : (match parentTag.order with
        | some o => o
        | none => parentTag.children.keys) = order := by
      rw [horder]
      cases parentTag.order <;> rfl
    have hresolve : ∀ (g : Tag → Tag),
        getTagById { s with categories := s.categories.update parentTagId g } parentTagId =
          some (g parentTag) := by
      intro g
      unfold getTagById
      rw [if_neg (by
        rw [not_or, not_not]
        exact ⟨hne, hm⟩)]
      show findTagById (s.categories.update parentTagId g) parentTagId = _
      rw [find_update_self _ hne, hfind]
      rfl
    refine ⟨?_, ?_⟩
    · intro h
      have hcall : moveChildCategory s parentTagId fromIndex toIndex =
          ({ s with categories := s.categories.update parentTagId (fun p =>
              { p with order := some order }) }, false) := by
        unfold moveChildCategory
        simp only [hget, hord]
        rw [if_pos h]
      rw [hcall]
      refine ⟨rfl, ?_, hresolve _⟩
      intro hsome
      have : s.categories.update parentTagId (fun p => { p with order := some order }) =
          s.categories := by
        refine update_eq_self hne ?_
        intro n hn
        rw [hfind] at hn
        cases hn
        cases parentTag
        simp only at hsome
        subst hsome
        rfl
      simp only [this]
    · intro h
      obtain ⟨hi, hj⟩ := hnat _ h
      have hcall : moveChildCategory s parentTagId fromIndex toIndex =
          ({ s with categories := s.categories.update parentTagId (fun p =>
              { p with order := some (moveInArray order fromIndex toIndex),
                       children := reorderObject p.children
                         (moveInArray order fromIndex toIndex) }) }, true) := by
        unfold moveChildCategory
        simp only [hget, hord]
        rw [if_neg h]
      rw [hcall]
      refine ⟨rfl, ?_, moveInArray_spec order fromIndex toIndex hi hj⟩
      simp only [hresolve, Option.map_some']

/-! ## Order lists of the nodes -/

theorem hasOrders_find {t : TagTree} {x : String} {tag : Tag} (h : findTagById t x = some tag)
    (ho : t.hasOrders = true) : tag.order.isSome = true ∧ tag.children.hasOrders = true := by
  induction t with
  | nil => simp [findTagById] at h
  | node key id name parentId children order rest ihc ihr =>
    simp only [TagTree.hasOrders, Bool.and_eq_true] at ho
    simp only [findTagById] at h
    split at h
    · exact absurd h (by simp)
    · split at h
      · cases h
        exact ⟨ho.1.1, ho.1.2⟩
      · cases hc : findTagById children x with
        | some found =>
          rw [hc] at h
          cases h
          exact ihc hc ho.1.2
        | none =>
          rw [hc] at h
          exact ihr h ho.2

theorem hasOrders_initOrderRecursive (t : TagTree) : (initOrderRecursive t).hasOrders = true := by
  induction t with
  | nil => rfl
  | node key id name parentId children order rest ihc ihr =>
    simp only [initOrderRecursive, TagTree.hasOrders, ihc, ihr, Bool.and_true]
    cases order with
    | none => rfl
    | some o =>
      simp only
      split <;> rfl

theorem hasOrders_loadProjectData (s : State) (projectId : String) (categories : TagTree)
    (now : Nat) (loaded : List Note) :
    (loadProjectData s projectId categories now loaded).categories.hasOrders = true := by
  unfold loadProjectData
  split
  · rfl
  · exact hasOrders_initOrderRecursive categories

theorem hasOrders_set {t : TagTree} (k : String) {v : Tag} (ho : t.hasOrders = true)
    (hv : v.order.isSome = true ∧ v.children.hasOrders = true) :
    (t.set k v).hasOrders = true := by
  induction t with
  | nil => simp [TagTree.set, TagTree.cons, TagTree.hasOrders, hv.1, hv.2]
  | node key id name parentId children order rest ihc ihr =>
    simp only [TagTree.hasOrders, Bool.and_eq_true] at ho
    simp only [TagTree.set]
    split
    · simp [TagTree.cons, TagTree.hasOrders, hv.1, hv.2, ho.2]
    · simp [TagTree.hasOrders, ho.1.1, ho.1.2, ihr ho.2]

theorem hasOrders_update {t : TagTree} (k : String) {g : Tag → Tag} (ho : t.hasOrders = true)
    (hg : ∀ p : Tag, p.order.isSome = true → p.children.hasOrders = true →
      (g p).order.isSome = true ∧ (g p).children.hasOrders = true) :
    (t.update k g).hasOrders = true := by
  induction t with
  | nil => rfl
  | node key id name parentId children order rest ihc ihr =>
    simp only [TagTree.hasOrders, Bool.and_eq_true] at ho
    simp only [TagTree.update]
    split
    · have := hg ⟨id, name, parentId, children, order⟩ ho.1.1 ho.1.2
      simp [TagTree.cons, TagTree.hasOrders, this.1, this.2, ho.2]
    · split
      · simp [TagTree.hasOrders, ho.1.1, ihc ho.1.2, ho.2]
      · simp [TagTree.hasOrders, ho.1.1, ho.1.2, ihr ho.2]

theorem hasOrders_addCategory {s s' : State} {attempts : List IdAttempt} {categoryName : String}
    {parentId : Option String} {result : Option String}
    (h : addCategory s attempts categoryName parentId = some (s', result))
    (ho : s.categories.hasOrders = true) : s'.categories.hasOrders = true := by
  unfold addCategory at h
  split at h
  · cases h; exact ho
  · split at h
    · split at h
      · cases h; exact ho
      · split at h
        · cases h; exact ho
        · cases hgen : generateTagId s.tagMap attempts 0 with
          | none => rw [hgen] at h; exact absurd h (by simp)
          | some tagId =>
            rw [hgen] at h
            simp only [Option.map_some', Option.some.injEq, Prod.mk.injEq] at h
            rw [← h.1]
            refine hasOrders_update _ ho (fun p _ hp => ⟨rfl, ?_⟩)
            exact hasOrders_set _ hp ⟨rfl, rfl⟩
    · simp only at h
      split at h
      · cases h; exact ho
      · cases hgen : generateTagId s.tagMap attempts 0 with
        | none => rw [hgen] at h; exact absurd h (by simp)
        | some tagId =>
          rw [hgen] at h
          simp only [Option.map_some', Option.some.injEq, Prod.mk.injEq] at h
          rw [← h.1]
          show (match (getCurrentTagTree s).2 with
            | none => s.categories.set tagId _
            | some o => s.categories.update o _).hasOrders = true
          cases (getCurrentTagTree s).2 with
          | none => exact hasOrders_set _ ho ⟨rfl, rfl⟩
          | some o =>
            exact hasOrders_update _ ho (fun p hp1 hp2 => ⟨hp1, hasOrders_set _ hp2 ⟨rfl, rfl⟩⟩)

theorem hasOrders_reachable {s : State} (h : Reachable s) : s.categories.hasOrders = true := by
  induction h with
  | empty => rfl
  | add attempts categoryName parentId result _ hcall ih => exact hasOrders_addCategory hcall ih
  | select path _ ih => exact ih

/-! ## The filter list stays duplicate-free -/

theorem jsIndexOf_of_not_mem {l : List String} {x : String} (h : x ∉ l) : jsIndexOf l x = -1 := by
  induction l with
  | nil => rfl
  | cons y ys ih =>
    simp only [List.mem_cons, not_or] at h
    simp only [jsIndexOf, if_neg (fun e : y = x => h.1 e.symm), ih h.2]
    rfl

theorem toggleFilter_nodup (s : State) (tagId : String) (h : s.activeFilters.Nodup) :
    (toggleFilter s tagId).activeFilters.Nodup := by
  unfold toggleFilter
  split
  · exact List.nodup_nil
  · simp only
    split
    · exact h.sublist (List.eraseIdx_sublist _ _)
    · rename_i hidx
      have hx : tagId ∉ s.activeFilters := by
        intro hm
        obtain ⟨n, hn, -, -⟩ := jsIndexOf_of_mem hm
        rw [hn] at hidx
        exact hidx (by omega)
      exact List.Nodup.append h (List.nodup_singleton _) (by simpa using hx)

theorem deleteCategory_filters_nodup (s : State) (tagId : String) (h : s.activeFilters.Nodup) :
    (deleteCategory s tagId).1.activeFilters.Nodup := by
  unfold deleteCategory
  split
  · exact h
  · split
    · exact h
    · exact h.filter _

/-- Claim C16 (move contract).  Let every node of the tree have an order list, as in every state
that was loaded or built by creating tags.  `moveCategory` works on `rootOrder` and
`moveChildCategory` on the order list of an indexed parent.  When an index is negative or not
below the length of the list, or the two indices are equal, the call returns `false` and the
state, with the order list and the tree, is the one before the call; so it is for
`moveChildCategory` with a parent that is not in the index (and names no inherited property).
Otherwise the call returns `true` and the new order list has the length of the old one, is a
permutation of it, holds at `toIndex` the element the old list held at `fromIndex`, and with that
element taken out is the old list with it taken out: the other elements keep their relative
order. -/
theorem move_contract (s : State) (parentTagId : String) (fromIndex toIndex : Int)
    (ho : s.categories.hasOrders = true) :
    ((fromIndex < 0 ∨ fromIndex ≥ s.rootOrder.length ∨ toIndex < 0 ∨
        toIndex ≥ s.rootOrder.length ∨ fromIndex = toIndex) →
      moveCategory s fromIndex toIndex = (s, false)) ∧
    (¬ (fromIndex < 0 ∨ fromIndex ≥ s.rootOrder.length ∨ toIndex < 0 ∨
        toIndex ≥ s.rootOrder.length ∨ fromIndex = toIndex) →
      (moveCategory s fromIndex toIndex).2 = true ∧
      (moveCategory s fromIndex toIndex).1.rootOrder =
        moveInArray s.rootOrder fromIndex toIndex ∧
      (moveInArray s.rootOrder fromIndex toIndex).length = s.rootOrder.length ∧
      (moveInArray s.rootOrder fromIndex toIndex).Perm s.rootOrder ∧
      (moveInArray s.rootOrder fromIndex toIndex).eraseIdx toIndex.toNat =
        s.rootOrder.eraseIdx fromIndex.toNat ∧
      (moveInArray s.rootOrder fromIndex toIndex)[toIndex.toNat]? =
        s.rootOrder[fromIndex.toNat]?) ∧
    (getTagById s parentTagId = none → parentTagId ∉ objectPrototypeKeys →
      moveChildCategory s parentTagId fromIndex toIndex = (s, false)) ∧
    (∀ parentTag, getTagById s parentTagId = some parentTag →
      parentTag.order.isSome = true ∧
      ∀ order, parentTag.order = some order →
        ((fromIndex < 0 ∨ fromIndex ≥ order.length ∨ toIndex < 0 ∨
            toIndex ≥ order.length ∨ fromIndex = toIndex) →
          moveChildCategory s parentTagId fromIndex toIndex = (s, false)) ∧
        (¬ (fromIndex < 0 ∨ fromIndex ≥ order.length ∨ toIndex < 0 ∨
            toIndex ≥ order.length ∨ fromIndex = toIndex) →
          (moveChildCategory s parentTagId fromIndex toIndex).2 = true ∧
          (getTagById (moveChildCategory s parentTagId fromIndex toIndex).1
            parentTagId).map (fun p => p.order) =
              some (some (moveInArray order fromIndex toIndex)) ∧
          (moveInArray order fromIndex toIndex).length = order.length ∧
          (moveInArray order fromIndex toIndex).Perm order ∧
          (moveInArray order fromIndex toIndex).eraseIdx toIndex.toNat =
            order.eraseIdx fromIndex.toNat ∧
          (moveInArray order fromIndex toIndex)[toIndex.toNat]? = order[fromIndex.toNat]?)) := by
  obtain ⟨h1, h2, h3, h4⟩ := move_general s parentTagId fromIndex toIndex
  refine ⟨h1, h2, fun h _ => h3 h, ?_⟩
  intro parentTag hget
  refine ⟨(hasOrders_find (getTagById_eq_find hget).1 ho).1, ?_⟩
  intro order hord
  obtain ⟨hbad, hgood⟩ := h4 parentTag order hget (by rw [hord]; rfl)
  refine ⟨?_, hgood⟩
  intro hb
  obtain ⟨hfalse, hsame, -⟩ := hbad hb
  exact Prod.ext (hsame hord) hfalse

/-- Scenario A: moving Cafe behind School gives the order list School, Cafe; a move to an index
outside the list, a move under an unknown parent and a move from an index to itself fail and
change nothing. -/
theorem move_contract_witness :
    (sceneState [] FilterMode.OR).categories.hasOrders = true ∧
      (getTagById (moveChildCategory (sceneState [] FilterMode.OR) "tag_scene" 0 1).1
        "tag_scene").map (fun p => p.order) = some (some ["tag_school", "tag_cafe"]) ∧
      moveChildCategory (sceneState [] FilterMode.OR) "tag_scene" 0 2 =
        (sceneState [] FilterMode.OR, false) ∧
      moveChildCategory (sceneState [] FilterMode.OR) "tag_park" 0 1 =
        (sceneState [] FilterMode.OR, false) ∧
      moveCategory (sceneState [] FilterMode.OR) 0 0 = (sceneState [] FilterMode.OR, false) :=
  ⟨by decide,
    ((((move_contract (sceneState [] FilterMode.OR) "tag_scene" 0 1 (by decide)).2.2.2
      _ rfl).2 ["tag_cafe", "tag_school"] rfl).2 (by decide)).2.1.trans (by decide),
    (((move_contract (sceneState [] FilterMode.OR) "tag_scene" 0 2 (by decide)).2.2.2
      _ rfl).2 ["tag_cafe", "tag_school"] rfl).1 (by decide),
    (move_contract (sceneState [] FilterMode.OR) "tag_park" 0 1 (by decide)).2.2.1
      (by decide) (by decide),
    (move_contract (sceneState [] FilterMode.OR) "tag_scene" 0 0 (by decide)).1 (by decide)⟩

/-! ## The undo slot -/

theorem undo_eq (app : App) (action : UndoAction) (h : app.lastAction = some action) :
    undo app =
      if (reversal app.state action).2 then (⟨(reversal app.state action).1, none⟩, true)
      else (⟨(reversal app.state action).1, some action⟩, false) := by
  unfold undo
  rw [h]
  cases action <;> rfl

theorem undo_empty (app : App) (h : app.lastAction = none) : undo app = (app, false) := by
  unfold undo
  rw [h]

/-- Claim C17.  `UndoManager.undo()` on an empty slot returns `false` and changes nothing.  On a
slot that holds an action it runs the reversal routine of the action kind: when the routine
succeeds, `undo()` returns `true`, the state is the one the routine left and the slot is empty,
so that the next `undo()` returns `false` and changes nothing; when the routine fails, `undo()`
returns `false` and the slot still holds the action. -/
theorem undo_contract (app : App) :
    (app.lastAction = none → undo app = (app, false)) ∧
    (∀ action, app.lastAction = some action →
      ((reversal app.state action).2 = true →
        undo app = (⟨(reversal app.state action).1, none⟩, true) ∧
        undo (undo app).1 = ((undo app).1, false)) ∧
      ((reversal app.state action).2 = false →
        (undo app).2 = false ∧ (undo app).1.lastAction = some action)) := by
  refine ⟨undo_empty app, ?_⟩
  · intro action h
    refine ⟨?_, ?_⟩
    · intro hs
      have hu : undo app = (⟨(reversal app.state action).1, none⟩, true) := by
        rw [undo_eq app action h, if_pos hs]
      exact ⟨hu, by rw [hu]; rfl⟩
    · intro hf
      rw [undo_eq app action h, if_neg (by simp [hf])]
      exact ⟨rfl, rfl⟩

/-- Scenario D: with the snapshot of the rename in the slot, `undo()` succeeds once and empties
the slot; a snapshot for an unknown tag fails and stays in the slot; an empty slot fails. -/
theorem undo_contract_witness :
    (undo ⟨sceneRenamed, some (UndoAction.RENAME_TAG ⟨"tag_cafe", "Cafe"⟩)⟩).2 = true ∧
      (undo (undo ⟨sceneRenamed, some (UndoAction.RENAME_TAG ⟨"tag_cafe", "Cafe"⟩)⟩).1).2 =
        false ∧
      (undo ⟨sceneRenamed, some (UndoAction.RENAME_TAG ⟨"tag_park", "Park"⟩)⟩).1.lastAction =
        some (UndoAction.RENAME_TAG ⟨"tag_park", "Park"⟩) ∧
      undo ⟨sceneRenamed, none⟩ = (⟨sceneRenamed, none⟩, false) :=
  ⟨congrArg Prod.snd (((undo_contract
      ⟨sceneRenamed, some (UndoAction.RENAME_TAG ⟨"tag_cafe", "Cafe"⟩)⟩).2 _ rfl).1
      (by decide)).1,
    congrArg Prod.snd (((undo_contract
      ⟨sceneRenamed, some (UndoAction.RENAME_TAG ⟨"tag_cafe", "Cafe"⟩)⟩).2 _ rfl).1
      (by decide)).2,
    (((undo_contract
      ⟨sceneRenamed, some (UndoAction.RENAME_TAG ⟨"tag_park", "Park"⟩)⟩).2 _ rfl).2
      (by decide)).2,
    (undo_contract ⟨sceneRenamed, none⟩).1 rfl⟩

theorem undoDeleteTag_missing_parent (s : State) (tagSnapshot : DeleteSnapshot) (pid : String)
    (hid : tagSnapshot.tagId ≠ "") (hp : truthyId tagSnapshot.parentId = some pid)
    (hget : getTagById s pid = none) :
    undoDeleteTag s tagSnapshot = (rebuildTagMap s, true) := by
  unfold undoDeleteTag
  rw [if_neg hid]
  simp only [hp, hget]

/-- Claim C18 fails on the code.  In Scenario A, `deleteCategory('tag_cafe')` returns a snapshot
that records the parent Scene; once Scene has been deleted too, the parent is not in the index,
and `undoDeleteTag` of the snapshot restores nothing but returns `true`, so `UndoManager.undo()`
returns `true` and empties the slot.  The reversal of a rename whose tag is gone returns
`false`. -/
theorem undo_delete_without_parent_reports_success :
    (deleteCategory (sceneState [] FilterMode.OR) "tag_cafe").2 = some cafeSnapshot ∧
      cafeSnapshot.parentId = some "tag_scene" ∧
      "tag_scene" ∉ sceneDeletedState.tagMap ∧
      undoDeleteTag sceneDeletedState cafeSnapshot = (sceneDeletedState, true) ∧
      undo ⟨sceneDeletedState, some (UndoAction.DELETE_TAG cafeSnapshot)⟩ =
        (⟨sceneDeletedState, none⟩, true) ∧
      getTagById sceneDeletedState "tag_cafe" = none ∧
      undoRenameTag sceneDeletedState ⟨"tag_cafe", "Cafe"⟩ = (sceneDeletedState, false) := by
  decide

/-- Claim C19 (single-slot undo).  Recording a second action overwrites the slot, whatever the
first action was and whatever state the application is in by then; `saveDelete` is `saveAction`
with the kind `DELETE_NOTE`.  The next `undo()` runs the reversal routine of the second action
only.  After any number of `undo()` calls the slot is empty or still holds the second action,
so every later `undo()` either returns `false` on an empty slot or runs the reversal routine of
the second action again; once that routine has succeeded, every later `undo()` returns `false`
and changes nothing. -/
theorem single_slot_undo (app : App) (a1 a2 : UndoAction) (later : State) :
    saveAction ⟨later, (saveAction app a1).lastAction⟩ a2 = ⟨later, some a2⟩ ∧
    (∀ d, saveDelete app d = saveAction app (UndoAction.DELETE_NOTE d)) ∧
    undo ⟨later, some a2⟩ =
      (if (reversal later a2).2 then (⟨(reversal later a2).1, none⟩, true)
        else (⟨(reversal later a2).1, some a2⟩, false)) ∧
    (∀ n, (undoTimes n ⟨later, some a2⟩).lastAction = none ∨
      (undoTimes n ⟨later, some a2⟩).lastAction = some a2) ∧
    (∀ n, undo (undoTimes n ⟨later, some a2⟩) = (undoTimes n ⟨later, some a2⟩, false) ∨
      (undo (undoTimes n ⟨later, some a2⟩)).1.state =
        (reversal (undoTimes n ⟨later, some a2⟩).state a2).1) ∧
    ((reversal later a2).2 = true →
      ∀ n, undoTimes (n + 1) ⟨later, some a2⟩ = ⟨(reversal later a2).1, none⟩ ∧
        undo (undoTimes (n + 1) ⟨later, some a2⟩) =
          (undoTimes (n + 1) ⟨later, some a2⟩, false)) := by
  have hslot : ∀ (n : Nat) (x : App), (x.lastAction = none ∨ x.lastAction = some a2) →
      ((undoTimes n x).lastAction = none ∨ (undoTimes n x).lastAction = some a2) := by
    intro n
    induction n with
    | zero => intro x hx; exact hx
    | succ n ih =>
      intro x hx
      refine ih (undo x).1 ?_
      rcases hx with hx | hx
      · rw [undo_empty x hx]
        exact Or.inl hx
      · rw [undo_eq x a2 hx]
        split
        · exact Or.inl rfl
        · exact Or.inr rfl
  have hempty : ∀ (n : Nat) (x : App), x.lastAction = none → undoTimes n x = x := by
    intro n
    induction n with
    | zero => intro x _; rfl
    | succ n ih =>
      intro x hx
      show undoTimes n (undo x).1 = x
      rw [undo_empty x hx]
      exact ih x hx
  refine ⟨rfl, fun _ => rfl, undo_eq _ a2 rfl, fun n => hslot n _ (Or.inr rfl), ?_, ?_⟩
  · intro n
    rcases hslot n ⟨later, some a2⟩ (Or.inr rfl) with h | h
    · exact Or.inl (undo_empty _ h)
    · right
      rw [undo_eq _ a2 h]
      split <;> rfl
  · intro hs n
    have h1 : (undo ⟨later, some a2⟩).1 = ⟨(reversal later a2).1, none⟩ := by
      rw [undo_eq _ a2 rfl, if_pos hs]
    have h2 : undoTimes (n + 1) ⟨later, some a2⟩ = ⟨(reversal later a2).1, none⟩ := by
      show undoTimes n (undo ⟨later, some a2⟩).1 = _
      rw [h1]
      exact hempty n _ rfl
    refine ⟨h2, ?_⟩
    rw [h2]
    rfl

/-- Scenario D continued: the rename of Cafe is recorded, then the deletion of a note; `undo()`
brings the note back and leaves the name Coffee House, and a second `undo()` does nothing. -/
theorem single_slot_undo_witness :
    (undoTimes 1 ⟨{ sceneRenamed with notes := [noteI2, noteI3] },
        some (UndoAction.DELETE_NOTE ⟨noteI1, 0⟩)⟩).state = sceneRenamed ∧
      undoTimes 2 ⟨{ sceneRenamed with notes := [noteI2, noteI3] },
          some (UndoAction.DELETE_NOTE ⟨noteI1, 0⟩)⟩ = ⟨sceneRenamed, none⟩ :=
  ⟨(congrArg App.state (((single_slot_undo ⟨sceneState [] FilterMode.OR, none⟩
      (UndoAction.RENAME_TAG ⟨"tag_cafe", "Cafe"⟩) (UndoAction.DELETE_NOTE ⟨noteI1, 0⟩)
      { sceneRenamed with notes := [noteI2, noteI3] }).2.2.2.2.2 (by decide) 0).1)).trans
      (by decide),
    (((single_slot_undo ⟨sceneState [] FilterMode.OR, none⟩
      (UndoAction.RENAME_TAG ⟨"tag_cafe", "Cafe"⟩) (UndoAction.DELETE_NOTE ⟨noteI1, 0⟩)
      { sceneRenamed with notes := [noteI2, noteI3] }).2.2.2.2.2 (by decide) 1).1).trans
      (by decide)⟩

/-! ## Renaming and undoing the rename -/

/-- Claim C20, as stated, fails for a tag whose name is empty: `renameCategory` succeeds and
returns a snapshot with the empty old name, and `undoRenameTag` rejects that snapshot and
returns `false`, so the name stays the new one. -/
theorem rename_undo_rejects_empty_old_name :
    renameCategory unnamedState "tag_cafe" "Cafe" =
        (sceneState [] FilterMode.OR, some ⟨"tag_cafe", ""⟩) ∧
      undoRenameTag (sceneState [] FilterMode.OR) ⟨"tag_cafe", ""⟩ =
        (sceneState [] FilterMode.OR, false) := by
  decide

/-- Claim C20 (rename round trip), amended.  When `renameCategory(tagId, newName)` succeeds on a
tag whose previous name is not empty, `undoRenameTag` applied to the returned snapshot returns
`true` and the state is again the one before the rename: the name of the tag is the previous
one, and every other node, the order lists and the notes are as they were. -/
theorem rename_round_trip (s s' : State) (tagId newName : String) (snap : RenameSnapshot)
    (h : renameCategory s tagId newName = (s', some snap)) (hold : snap.oldName ≠ "") :
    undoRenameTag s' snap = (s, true) := by
  unfold renameCategory at h
  split at h
  · simp at h
  · rename_i h1
    simp only [not_or] at h1
    obtain ⟨-, -, hne⟩ := h1
    cases hget : getTagById s tagId with
    | none => rw [hget] at h; simp at h
    | some tag =>
      rw [hget] at h
      simp only at h
      split at h
      · simp at h
      · simp only [Prod.mk.injEq, Option.some.injEq] at h
        obtain ⟨hs, hsnap⟩ := h
        subst hs
        subst hsnap
        obtain ⟨hfind, hm⟩ := getTagById_eq_find hget
        simp only at hold
        have hget2 : getTagById { s with categories := s.categories.update tagId (fun t =>
            { t with name := jsTrim newName }) } tagId =
            some { tag with name := jsTrim newName } := by
          unfold getTagById
          rw [if_neg (by
            rw [not_or, not_not]
            exact ⟨hne, hm⟩)]
          show findTagById (s.categories.update tagId _) tagId = _
          rw [find_update_self _ hne, hfind]
          rfl
        unfold undoRenameTag
        rw [if_neg (by simp [hne, hold])]
        simp only [hget2]
        rw [update_update _ _ hne, update_eq_self hne]
        intro n hn
        rw [hfind] at hn
        cases hn
        rfl

/-- Scenario D: the rename of Cafe to Coffee House is undone by its snapshot. -/
theorem rename_round_trip_witness :
    renameCategory (sceneState [] FilterMode.OR) "tag_cafe" "Coffee House" =
        (sceneRenamed, some ⟨"tag_cafe", "Cafe"⟩) ∧
      undoRenameTag sceneRenamed ⟨"tag_cafe", "Cafe"⟩ = (sceneState [] FilterMode.OR, true) :=
  ⟨by decide,
    rename_round_trip (sceneState [] FilterMode.OR) sceneRenamed "tag_cafe" "Coffee House"
      ⟨"tag_cafe", "Cafe"⟩ (by decide) (by decide)⟩

/-! ## Deleting a note and undoing the deletion -/

theorem noteIndex_spec : ∀ (notes : List Note) (id : Nat) (i : Nat), noteIndex notes id = some i →
    ∃ n, notes[i]? = some n ∧ n.id = id ∧ i ≤ (notes.eraseIdx i).length ∧
      (notes.eraseIdx i).take i ++ n :: (notes.eraseIdx i).drop i = notes := by
  intro notes
  induction notes with
  | nil => intro id i h; simp [noteIndex] at h
  | cons a l ih =>
    intro id i h
    simp only [noteIndex] at h
    split at h
    · rename_i ha
      cases h
      exact ⟨a, by simp, ha, Nat.zero_le _, by simp⟩
    · cases hl : noteIndex l id with
      | none => rw [hl] at h; simp at h
      | some j =>
        rw [hl] at h
        simp only [Option.map_some', Option.some.injEq] at h
        subst h
        obtain ⟨n, hn, hid, hle, heq⟩ := ih id j hl
        refine ⟨n, by simpa using hn, hid, ?_, ?_⟩
        · simp only [List.eraseIdx_cons_succ, List.length_cons]
          omega
        · simp only [List.eraseIdx_cons_succ, List.take_succ_cons, List.drop_succ_cons,
            List.cons_append, heq]

theorem noteIndex_isSome : ∀ (notes : List Note) (id : Nat), (∃ n ∈ notes, n.id = id) →
    ∃ i, noteIndex notes id = some i := by
  intro notes
  induction notes with
  | nil => intro id h; simp at h
  | cons a l ih =>
    intro id h
    simp only [noteIndex]
    by_cases ha : a.id = id
    · exact ⟨0, by rw [if_pos ha]⟩
    · rw [if_neg ha]
      obtain ⟨n, hn, hid⟩ := h
      rcases List.mem_cons.mp hn with rfl | hn
      · exact absurd hid ha
      · obtain ⟨i, hi⟩ := ih id ⟨n, hn, hid⟩
        exact ⟨i + 1, by rw [hi]; rfl⟩

theorem undoDeleteNote_snd (s : State) (d : DeletedNote) : (undoDeleteNote s d).2 = true := by
  unfold undoDeleteNote
  split <;> rfl

/-- Claim C21.  `undoDeleteNote` returns `true`; it puts the note at position `index` of the note
list when `0 <= index <= notes.length`, the notes before and after it keeping their order, and at
the end of the list otherwise.  For every id that occurs in the note list, `deleteNote(id)`
returns data with which `undoDeleteNote`, called on the state after the deletion, gives back the
note list as it was. -/
theorem delete_note_round_trip (s : State) :
    (∀ d : DeletedNote, (undoDeleteNote s d).2 = true ∧
      (0 ≤ d.index ∧ d.index ≤ s.notes.length →
        (undoDeleteNote s d).1.notes =
            s.notes.take d.index.toNat ++ d.note :: s.notes.drop d.index.toNat ∧
          (undoDeleteNote s d).1.notes[d.index.toNat]? = some d.note ∧
          (undoDeleteNote s d).1.notes.eraseIdx d.index.toNat = s.notes) ∧
      (¬ (0 ≤ d.index ∧ d.index ≤ s.notes.length) →
        (undoDeleteNote s d).1.notes = s.notes ++ [d.note])) ∧
    (∀ id : Nat, (∃ n ∈ s.notes, n.id = id) →
      ∃ d, (deleteNote s id).2 = some d ∧
        (undoDeleteNote (deleteNote s id).1 d).2 = true ∧
        (undoDeleteNote (deleteNote s id).1 d).1.notes = s.notes) := by
  refine ⟨?_, ?_⟩
  · intro d
    refine ⟨undoDeleteNote_snd s d, ?_, ?_⟩
    · intro h
      have hle : d.index.toNat ≤ s.notes.length := by omega
      have hlen : (s.notes.take d.index.toNat).length = d.index.toNat := by
        rw [List.length_take]
        omega
      have hcall : (undoDeleteNote s d).1.notes =
          s.notes.take d.index.toNat ++ d.note :: s.notes.drop d.index.toNat := by
        unfold undoDeleteNote
        rw [if_pos h]
      rw [hcall]
      refine ⟨rfl, ?_, ?_⟩
      · rw [List.getElem?_append_right (by rw [hlen]), hlen, Nat.sub_self]
        simp
      · rw [List.eraseIdx_append_of_length_le (by rw [hlen]), hlen, Nat.sub_self]
        simp [List.take_append_drop]
    · intro h
      unfold undoDeleteNote
      rw [if_neg h]
  · intro id hid
    obtain ⟨i, hi⟩ := noteIndex_isSome s.notes id hid
    obtain ⟨n, hn, -, hle, heq⟩ := noteIndex_spec s.notes id i hi
    have hcall : deleteNote s id =
        ({ s with
            notes := s.notes.eraseIdx i,
            editingNoteId := if s.editingNoteId = some id then none else s.editingNoteId },
          some ⟨n, i⟩) := by
      unfold deleteNote
      simp only [hi, hn]
    rw [hcall]
    refine ⟨⟨n, i⟩, rfl, undoDeleteNote_snd _ _, ?_⟩
    · unfold undoDeleteNote
      rw [if_pos (by
        simp only
        constructor
        · omega
        · exact_mod_cast hle)]
      simpa using heq

/-- Scenario A: deleting the item I2 and undoing the deletion gives back the three items in
their order. -/
theorem delete_note_round_trip_witness :
    ∃ d, (deleteNote (sceneState [] FilterMode.OR) 2).2 = some d ∧
      (undoDeleteNote (deleteNote (sceneState [] FilterMode.OR) 2).1 d).2 = true ∧
      (undoDeleteNote (deleteNote (sceneState [] FilterMode.OR) 2).1 d).1.notes =
        [noteI1, noteI2, noteI3] :=
  (delete_note_round_trip (sceneState [] FilterMode.OR)).2 2 ⟨noteI2, by decide, rfl⟩

/-! ## Undoing a tag deletion leaves the notes alone -/

theorem undoDeleteTag_notes (s : State) (tagSnapshot : DeleteSnapshot) :
    (undoDeleteTag s tagSnapshot).1.notes = s.notes := by
  unfold undoDeleteTag
  split
  · rfl
  · simp only [rebuildTagMap]
    split
    · split <;> rfl
    · rfl

/-- Claim C22 (tree-only restoration).  `undoDeleteTag` leaves the note list as it is, and so
does `UndoManager.undo()` on a slot that holds a tag deletion.  Hence after `deleteCategory(T)`
and the undo of it, the notes are those right after the deletion: every note has its references
to `T` and the descendants of `T` (and its falsy references) stripped. -/
theorem undo_delete_keeps_notes (s : State) (T : String) (tagSnapshot : DeleteSnapshot) :
    (undoDeleteTag s tagSnapshot).1.notes = s.notes ∧
    (undo ⟨s, some (UndoAction.DELETE_TAG tagSnapshot)⟩).1.state.notes = s.notes ∧
    (undoDeleteTag (deleteCategory s T).1 tagSnapshot).1.notes = (deleteCategory s T).1.notes ∧
    (∀ snap, (deleteCategory s T).2 = some snap →
      (undoDeleteTag (deleteCategory s T).1 snap).1.notes =
        s.notes.map (fun note =>
          { note with categories := note.categories.filter (fun id =>
              if id = "" then false else !(getAllDescendantIds s T).contains id) })) := by
  refine ⟨undoDeleteTag_notes s tagSnapshot, ?_, undoDeleteTag_notes _ tagSnapshot, ?_⟩
  · rw [undo_eq _ _ rfl]
    split
    · exact undoDeleteTag_notes s tagSnapshot
    · exact undoDeleteTag_notes s tagSnapshot
  · intro snap hsnap
    rw [undoDeleteTag_notes]
    unfold deleteCategory at hsnap ⊢
    split
    · rename_i h
      rw [if_pos h] at hsnap
      simp at hsnap
    · rename_i h
      rw [if_neg h] at hsnap
      cases hget : getTagById s T with
      | none => rw [hget] at hsnap; simp at hsnap
      | some tag => rfl

/-- Scenario C: after `deleteCategory('tag_cafe')` the item I1 has no references, and after the
undo it still has none, while Cafe is again a child of Scene and the first element of its order
list. -/
theorem undo_delete_keeps_notes_witness :
    (deleteCategory (sceneState [] FilterMode.OR) "tag_cafe").1.notes =
        [⟨1, "I1", []⟩, noteI2, noteI3] ∧
      (undo ⟨(deleteCategory (sceneState [] FilterMode.OR) "tag_cafe").1,
          some (UndoAction.DELETE_TAG cafeSnapshot)⟩).1.state.notes =
        [⟨1, "I1", []⟩, noteI2, noteI3] ∧
      (getTagById (undo ⟨(deleteCategory (sceneState [] FilterMode.OR) "tag_cafe").1,
          some (UndoAction.DELETE_TAG cafeSnapshot)⟩).1.state "tag_scene").map
          (fun p => (p.children.get "tag_cafe", p.order)) =
        some (some cafeSnapshot.tagData, some ["tag_cafe", "tag_school"]) :=
  ⟨by decide,
    ((undo_delete_keeps_notes (deleteCategory (sceneState [] FilterMode.OR) "tag_cafe").1
      "tag_cafe" cafeSnapshot).2.1).trans (by decide),
    by decide⟩

/-! ## The two filter modes -/

theorem getFilteredNotes_sublist (s : State) : (getFilteredNotes s).Sublist s.notes := by
  unfold getFilteredNotes
  split
  · exact List.Sublist.refl _
  · split
    · exact List.Sublist.refl _
    · split
      · exact List.Sublist.refl _
      · split <;> exact List.filter_sublist _

/-- Claim C29.  For every state, the notes returned by `getFilteredNotes` in AND mode form a
sub-list of the notes returned in OR mode, and the result in either mode is a sub-list of
`State.notes`: the notes keep their order. -/
theorem and_sublist_or (s : State) :
    (getFilteredNotes { s with filterMode := FilterMode.AND }).Sublist
        (getFilteredNotes { s with filterMode := FilterMode.OR }) ∧
      (getFilteredNotes { s with filterMode := FilterMode.OR }).Sublist s.notes ∧
      (getFilteredNotes { s with filterMode := FilterMode.AND }).Sublist s.notes := by
  refine ⟨?_, getFilteredNotes_sublist { s with filterMode := FilterMode.OR },
    getFilteredNotes_sublist { s with filterMode := FilterMode.AND }⟩
  have key : ∀ m : FilterMode, getFilteredNotes { s with filterMode := m } =
      (if s.activeFilters.length = 0 then s.notes
        else if (cleanedFilters s).length = 0 then s.notes
        else if (expandedFiltersList s).length = 0 then s.notes
        else match m with
          | .AND =>
              s.notes.filter (fun note =>
                if note.categories.length = 0 then false
                else (expandedFiltersList s).all (fun expandedSet =>
                  note.categories.any (fun catId =>
                    if catId = "" then false else expandedSet.contains catId)))
          | .OR =>
              s.notes.filter (fun note =>
                if note.categories.length = 0 then false
                else note.categories.any (fun catId =>
                  if catId = "" then false else (allFilterIds s).contains catId))) :=
    fun _ => rfl
  rw [key FilterMode.AND, key FilterMode.OR]
  by_cases h1 : s.activeFilters.length = 0
  · rw [if_pos h1, if_pos h1]
  by_cases h2 : (cleanedFilters s).length = 0
  · rw [if_neg h1, if_neg h1, if_pos h2, if_pos h2]
  by_cases h3 : (expandedFiltersList s).length = 0
  · rw [if_neg h1, if_neg h1, if_neg h2, if_neg h2, if_pos h3, if_pos h3]
  rw [if_neg h1, if_neg h1, if_neg h2, if_neg h2, if_neg h3, if_neg h3]
  simp only
  refine List.monotone_filter_right _ ?_
  intro note hv
  rw [visible_and] at hv
  rw [visible_or]
  obtain ⟨set, hset⟩ := List.exists_mem_of_ne_nil (expandedFiltersList s)
    (fun e => h3 (by rw [e]; rfl))
  obtain ⟨t, ht, hne, -⟩ := mem_expanded.mp hset
  obtain ⟨c, hc1, hc2⟩ := hv.2 t ht hne
  exact ⟨c, hc1, t, ht, hc2⟩

/-- Scenario A with Cafe and School selected: no item is in the AND result, and the OR result
holds the items I1 and I2. -/
theorem and_sublist_or_witness :
    (getFilteredNotes (sceneState ["tag_cafe", "tag_school"] FilterMode.AND)).Sublist
        (getFilteredNotes (sceneState ["tag_cafe", "tag_school"] FilterMode.OR)) ∧
      getFilteredNotes (sceneState ["tag_cafe", "tag_school"] FilterMode.AND) = [] ∧
      getFilteredNotes (sceneState ["tag_cafe", "tag_school"] FilterMode.OR) =
        [noteI1, noteI2] :=
  ⟨(and_sublist_or (sceneState ["tag_cafe", "tag_school"] FilterMode.OR)).1, by decide,
    by decide⟩

/-! ## Selecting an ancestor of a selected tag -/

/-- Claim C28 (ancestor insensitivity).  Over a tree with unique ids, when the filter list holds
a tag `B`, putting a strict ancestor `A` of `B` into the list at any position leaves the result
of `getFilteredNotes` as it is, in either mode. -/
theorem ancestor_insensitive (s : State) (before after : List String) (A B : String)
    (hU : s.categories.UniqueIds) (hfilters : s.activeFilters = before ++ after)
    (hB : B ∈ s.activeFilters) (hAB : B ∈ getAllDescendantIds s A) (hne : B ≠ A) :
    getFilteredNotes { s with activeFilters := before ++ A :: after } = getFilteredNotes s := by
  have hAne : A ≠ "" := (mem_desc_ne hAB).2
  have hBmem : B ∈ before ++ A :: after := by
    rw [hfilters] at hB
    simp only [List.mem_append, List.mem_cons] at hB ⊢
    tauto
  have hdesc : ∀ t, getAllDescendantIds { s with activeFilters := before ++ A :: after } t =
      getAllDescendantIds s t := fun _ => rfl
  have hA : A ∈ toRemove { s with activeFilters := before ++ A :: after } := by
    rw [mem_toRemove]
    exact ⟨hAne, by simp, Or.inl ⟨B, hBmem, hne, hAB⟩⟩
  have hother : ∀ x, x ≠ A →
      (x ∈ toRemove { s with activeFilters := before ++ A :: after } ↔ x ∈ toRemove s) := by
    intro x hx
    rw [mem_toRemove, mem_toRemove]
    have hmem : x ∈ before ++ A :: after ↔ x ∈ s.activeFilters := by
      rw [hfilters]
      simp only [List.mem_append, List.mem_cons]
      constructor
      · rintro (h | h | h)
        · exact Or.inl h
        · exact absurd h hx
        · exact Or.inr h
      · rintro (h | h)
        · exact Or.inl h
        · exact Or.inr (Or.inr h)
    have hcount : (before ++ A :: after).count x = s.activeFilters.count x := by
      rw [hfilters, List.count_append, List.count_append, List.count_cons_of_ne hx]
    constructor
    · rintro ⟨h1, h2, h3⟩
      refine ⟨h1, hmem.mp h2, ?_⟩
      rcases h3 with ⟨y, hy, hyx, hd⟩ | hc
      · by_cases hyA : y = A
        · subst hyA
          left
          refine ⟨B, hB, ?_, desc_trans hU hd hAB⟩
          intro hBx
          subst hBx
          exact hne (desc_antisymm hU hAB hd).symm
        · left
          refine ⟨y, ?_, hyx, hd⟩
          have : y ∈ before ++ A :: after := hy
          rw [hfilters]
          simp only [List.mem_append, List.mem_cons] at this ⊢
          rcases this with h | h | h
          · exact Or.inl h
          · exact absurd h hyA
          · exact Or.inr h
      · right
        have : 2 ≤ (before ++ A :: after).count x := hc
        rw [hcount] at this
        exact this
    · rintro ⟨h1, h2, h3⟩
      refine ⟨h1, hmem.mpr h2, ?_⟩
      rcases h3 with ⟨y, hy, hyx, hd⟩ | hc
      · left
        refine ⟨y, ?_, hyx, hd⟩
        show y ∈ before ++ A :: after
        rw [hfilters] at hy
        simp only [List.mem_append, List.mem_cons] at hy ⊢
        rcases hy with h | h
        · exact Or.inl h
        · exact Or.inr (Or.inr h)
      · right
        show 2 ≤ (before ++ A :: after).count x
        rw [hcount]
        exact hc
  refine getFilteredNotes_congr ?_ ?_ ?_ ?_ ?_
  · rfl
  · rfl
  · exact hdesc
  · constructor
    · intro h
      simp at h
    · intro h
      rw [h] at hB
      simp at hB
  · have hpred : ∀ x, x ≠ A →
        (!(toRemove { s with activeFilters := before ++ A :: after }).contains x) =
          (!(toRemove s).contains x) := by
      intro x hx
      have hb : (toRemove { s with activeFilters := before ++ A :: after }).contains x =
          (toRemove s).contains x := by
        rw [Bool.eq_iff_iff]
        simp only [List.contains, List.elem_eq_mem, decide_eq_true_eq]
        exact hother x hx
      rw [hb]
    have hApred : (!(toRemove { s with activeFilters := before ++ A :: after }).contains A) =
        false := by
      simp [hA]
    have hAold : ∀ l : List String, (∀ x ∈ l, x ∈ s.activeFilters) →
        l.filter (fun x => !(toRemove { s with activeFilters := before ++ A :: after }).contains x) =
          l.filter (fun x => !(toRemove s).contains x) := by
      intro l hl
      apply List.filter_congr
      intro x hxl
      by_cases hx : x = A
      · subst hx
        rw [hApred]
        have : x ∈ toRemove s := by
          rw [mem_toRemove]
          exact ⟨hAne, hl x hxl, Or.inl ⟨B, hB, hne, hAB⟩⟩
        simp [this]
      · exact hpred x hx
    show (before ++ A :: after).filter _ = s.activeFilters.filter _
    rw [hfilters, List.filter_append, List.filter_append, List.filter_cons, hApred]
    simp only [Bool.false_eq_true, if_false]
    rw [hAold before (fun x hx => by rw [hfilters]; simp [hx]),
      hAold after (fun x hx => by rw [hfilters]; simp [hx])]

/-- Scenario B: with Cafe selected, selecting Scene as well, before or after it, gives the
result of Cafe alone. -/
theorem ancestor_insensitive_witness :
    getFilteredNotes (sceneState ["tag_scene", "tag_cafe"] FilterMode.AND) =
        getFilteredNotes (sceneState ["tag_cafe"] FilterMode.AND) ∧
      getFilteredNotes (sceneState ["tag_cafe", "tag_scene"] FilterMode.OR) =
        getFilteredNotes (sceneState ["tag_cafe"] FilterMode.OR) :=
  ⟨ancestor_insensitive (sceneState ["tag_cafe"] FilterMode.AND) [] ["tag_cafe"] "tag_scene"
      "tag_cafe" (by decide) rfl (by decide) (by decide) (by decide),
    ancestor_insensitive (sceneState ["tag_cafe"] FilterMode.OR) ["tag_cafe"] [] "tag_scene"
      "tag_cafe" (by decide) rfl (by decide) (by decide) (by decide)⟩

/-! ## The listing of the top-level tags -/

theorem keys_eq_map_entries (t : TagTree) : t.keys = t.entries.map (fun e => e.1) := by
  induction t with
  | nil => rfl
  | node key id name parentId children order rest ihc ihr =>
    simp only [TagTree.keys, TagTree.entries, List.map_cons, ihr]

theorem values_eq_map_entries (t : TagTree) : t.values = t.entries.map (fun e => e.2) := by
  induction t with
  | nil => rfl
  | node key id name parentId children order rest ihc ihr =>
    simp only [TagTree.values, TagTree.entries, List.map_cons, ihr]

theorem entries_set_of_not_mem {t : TagTree} {k : String} (v : Tag) (h : k ∉ t.keys) :
    (t.set k v).entries = t.entries ++ [(k, v)] := by
  induction t with
  | nil => rfl
  | node key id name parentId children order rest ihc ihr =>
    simp only [TagTree.keys, List.mem_cons, not_or] at h
    simp only [TagTree.set, if_neg (fun e : key = k => h.1 e.symm), TagTree.entries, ihr h.2,
      List.cons_append]

theorem get_of_mem_entries {t : TagTree} {k : String} {v : Tag} (hnd : t.keys.Nodup)
    (h : (k, v) ∈ t.entries) : t.get k = some v := by
  induction t with
  | nil => simp [TagTree.entries] at h
  | node key id name parentId children order rest ihc ihr =>
    simp only [TagTree.keys, List.nodup_cons] at hnd
    simp only [TagTree.entries, List.mem_cons, Prod.mk.injEq] at h
    simp only [TagTree.get]
    rcases h with ⟨rfl, rfl⟩ | h
    · rw [if_pos rfl]
    · have hk : k ∈ rest.keys := by
        rw [keys_eq_map_entries]
        exact List.mem_map.mpr ⟨(k, v), h, rfl⟩
      rw [if_neg (fun e : key = k => hnd.1 (e ▸ hk))]
      exact ihr hnd.2 h

theorem mem_entries_of_get {t : TagTree} {k : String} {v : Tag} (h : t.get k = some v) :
    (k, v) ∈ t.entries := by
  induction t with
  | nil => simp [TagTree.get] at h
  | node key id name parentId children order rest ihc ihr =>
    simp only [TagTree.get] at h
    simp only [TagTree.entries, List.mem_cons, Prod.mk.injEq]
    split at h
    · rename_i hk
      cases h
      exact Or.inl ⟨hk.symm, rfl⟩
    · exact Or.inr (ihr h)

theorem entries_delete {t : TagTree} (k : String) (hnd : t.keys.Nodup) :
    (t.delete k).entries = t.entries.filter (fun e => e.1 != k) := by
  induction t with
  | nil => rfl
  | node key id name parentId children order rest ihc ihr =>
    simp only [TagTree.keys, List.nodup_cons] at hnd
    simp only [TagTree.delete, TagTree.entries, List.filter_cons]
    by_cases hk : key = k
    · subst hk
      simp only [if_true, bne_self_eq_false, Bool.false_eq_true, if_false]
      symm
      rw [List.filter_eq_self]
      intro e he
      have : e.1 ∈ rest.keys := by
        rw [keys_eq_map_entries]
        exact List.mem_map.mpr ⟨e, he, rfl⟩
      simp only [bne_iff_ne, ne_eq]
      rintro rfl
      exact hnd.1 this
    · simp only [if_neg hk, TagTree.entries, ihr hnd.2, bne_iff_ne, ne_eq, hk, not_false_eq_true,
        if_true]

theorem nodup_keys_delete {t : TagTree} (k : String) (hnd : t.keys.Nodup) :
    (t.delete k).keys.Nodup := by
  rw [keys_delete_eq_filter k hnd]
  exact hnd.filter _

theorem get_delete {t : TagTree} (k y : String) (hnd : t.keys.Nodup) :
    (t.delete k).get y = if y = k then none else t.get y := by
  by_cases hy : y = k
  · subst hy
    rw [if_pos rfl]
    exact get_eq_none_of_not_mem (not_mem_keys_delete hnd)
  · rw [if_neg hy]
    cases hg : t.get y with
    | none =>
      apply get_eq_none_of_not_mem
      intro hm
      rw [keys_delete_eq_filter k hnd, List.mem_filter] at hm
      have hnot : y ∉ t.keys := by
        intro hk
        rw [keys_eq_map_entries] at hk
        obtain ⟨e, he, rfl⟩ := List.mem_map.mp hk
        rw [get_of_mem_entries hnd he] at hg
        exact absurd hg (by simp)
      exact hnot hm.1
    | some v =>
      apply get_of_mem_entries (nodup_keys_delete k hnd)
      rw [entries_delete k hnd, List.mem_filter]
      exact ⟨mem_entries_of_get hg, by simpa using hy⟩

theorem entries_foldl_set : ∀ (l : List Tag) (m : TagTree),
    (l.map (fun t => t.id)).Nodup → (∀ t ∈ l, t.id ∉ m.keys) →
    (l.foldl (fun (m : TagTree) tag => m.set tag.id tag) m).entries =
      m.entries ++ l.map (fun t => (t.id, t)) := by
  intro l
  induction l with
  | nil => intro m _ _; simp
  | cons a l ih =>
    intro m hnd hm
    simp only [List.map_cons, List.nodup_cons] at hnd
    simp only [List.foldl_cons]
    rw [ih (m.set a.id a) hnd.2]
    · rw [entries_set_of_not_mem a (hm a (by simp))]
      simp
    · intro t ht
      rw [keys_eq_map_entries, entries_set_of_not_mem a (hm a (by simp))]
      simp only [List.map_append, List.map_cons, List.map_nil, List.mem_append,
        List.mem_singleton, not_or]
      refine ⟨?_, ?_⟩
      · rw [← keys_eq_map_entries]
        exact hm t (by simp [ht])
      · intro e
        exact hnd.1 (List.mem_map.mpr ⟨t, ht, e⟩)

theorem dedupe_of_nodup : ∀ (l : List String), l.Nodup → dedupe l = l := by
  intro l
  induction l with
  | nil => intro _; rfl
  | cons a l ih =>
    intro h
    simp only [List.nodup_cons] at h
    simp only [dedupe, ih h.2]
    rw [List.filter_eq_self.mpr]
    intro y hy
    simp only [bne_iff_ne, ne_eq]
    rintro rfl
    exact h.1 hy

theorem filterMap_skip {f : String → Option Tag} {x : String} :
    ∀ (l : List String), (∀ y ∈ l, y = x → f y = none) →
      (l.filter (fun y => y != x)).filterMap f = l.filterMap f := by
  intro l
  induction l with
  | nil => intro _; rfl
  | cons a l ih =>
    intro h
    have ih2 := ih (fun y hy => h y (by simp [hy]))
    by_cases ha : a = x
    · have hf : f a = none := h a (by simp) ha
      simp only [List.filter_cons, ha, bne_self_eq_false, Bool.false_eq_true, if_false,
        List.filterMap_cons]
      rw [ha] at hf
      rw [hf]
      exact ih2
    · simp only [List.filter_cons, bne_iff_ne, ne_eq, ha, not_false_eq_true, if_true,
        List.filterMap_cons, ih2]

theorem filterMap_get_delete {m : TagTree} {x : String} (hnd : m.keys.Nodup) :
    ∀ (l : List String),
      l.filterMap (m.delete x).get = (l.filter (fun y => y != x)).filterMap m.get := by
  intro l
  induction l with
  | nil => rfl
  | cons a l ih =>
    by_cases ha : a = x
    · subst ha
      simp only [List.filter_cons, bne_self_eq_false, Bool.false_eq_true, if_false,
        List.filterMap_cons, get_delete a a hnd, if_true]
      exact ih
    · simp only [List.filter_cons, bne_iff_ne, ne_eq, ha, not_false_eq_true, if_true,
        List.filterMap_cons, get_delete x a hnd, if_false, ih]

theorem orderedLoop_spec : ∀ (l : List String) (acc : List ListedTag) (m : TagTree),
    m.keys.Nodup → (∀ x ∈ l, x ∉ objectPrototypeKeys) →
    (orderedLoop l (acc, m)).1 = acc ++ ((dedupe l).filterMap m.get).map ListedTag.tag ∧
      (orderedLoop l (acc, m)).2.entries = m.entries.filter (fun e => !l.contains e.1) := by
  intro l
  induction l with
  | nil =>
    intro acc m _ _
    simp [orderedLoop, dedupe]
  | cons x xs ih =>
    intro acc m hnd hown
    have hownx : x ∉ objectPrototypeKeys := hown x (List.mem_cons_self _ _)
    have hownxs : ∀ y ∈ xs, y ∉ objectPrototypeKeys :=
      fun y hy => hown y (List.mem_cons_of_mem _ hy)
    simp only [orderedLoop]
    cases hg : m.get x with
    | none =>
      simp only [if_neg hownx]
      obtain ⟨h1, h2⟩ := ih acc m hnd hownxs
      have hx : x ∉ m.keys := fun hk => by
        rw [keys_eq_map_entries] at hk
        obtain ⟨e, he, rfl⟩ := List.mem_map.mp hk
        rw [get_of_mem_entries hnd he] at hg
        exact absurd hg (by simp)
      refine ⟨?_, ?_⟩
      · rw [h1]
        simp only [dedupe, List.filterMap_cons, hg]
        rw [filterMap_skip (dedupe xs) (fun y _ hy => hy ▸ hg)]
      · rw [h2]
        apply List.filter_congr
        intro e he
        have : e.1 ≠ x := by
          rintro rfl
          exact hx (by rw [keys_eq_map_entries]; exact List.mem_map.mpr ⟨e, he, rfl⟩)
        simp [this]
    | some t =>
      simp only
      obtain ⟨h1, h2⟩ := ih (acc ++ [ListedTag.tag t]) (m.delete x) (nodup_keys_delete x hnd)
        hownxs
      refine ⟨?_, ?_⟩
      · rw [h1]
        simp only [dedupe, List.filterMap_cons, hg, filterMap_get_delete hnd,
          List.append_assoc, List.singleton_append, List.map_cons]
      · rw [h2, entries_delete x hnd, List.filter_filter]
        apply List.filter_congr
        intro e _
        by_cases hex : e.1 = x
        · simp [hex]
        · simp [hex]

/-- An entry of `rootOrder` that names an inherited property and no top-level tag is listed
as the inherited value: with `rootOrder` `constructor`, Scene the listing starts with the
value inherited under `constructor`. -/
theorem getParentTags_inherited :
    getParentTags { sceneState [] FilterMode.OR with rootOrder := ["constructor", "tag_scene"] } =
      ListedTag.inherited "constructor" :: sceneTree.values.map ListedTag.tag := by
  decide

/-- Claim C27.  Let the top-level tags be the values of `State.categories` that have no
`parentId`, let them have pairwise different ids, and let no entry of `rootOrder` be the name of
a property that a plain object inherits.  Then `getParentTags` returns tags only, and the list
of them is a permutation of the top-level tags, each of them once; its ids are the ids of
`rootOrder` that belong to a top-level tag, in the order of `rootOrder` and each at its first
occurrence, followed by the ids of the top-level tags that do not occur in `rootOrder`; and when
`rootOrder` is a permutation of the ids of the top-level tags, the ids of the result are
`rootOrder`.  When the `parentId` links of the tree are right, every value of `State.categories`
is a top-level tag. -/
theorem parent_tags_listing (s : State)
    (hids : ((s.categories.values.filter
      (fun tag => (truthyId tag.parentId).isNone)).map (fun t => t.id)).Nodup)
    (hown : ∀ tagId ∈ s.rootOrder, tagId ∉ objectPrototypeKeys) :
    ∃ tags : List Tag, getParentTags s = tags.map ListedTag.tag ∧
      tags.Perm (s.categories.values.filter (fun tag => (truthyId tag.parentId).isNone)) ∧
      tags.map (fun t => t.id) =
        (dedupe s.rootOrder).filter (fun x =>
            x ∈ (s.categories.values.filter
              (fun tag => (truthyId tag.parentId).isNone)).map (fun t => t.id)) ++
          ((s.categories.values.filter
            (fun tag => (truthyId tag.parentId).isNone)).map (fun t => t.id)).filter
            (fun x => x ∉ s.rootOrder) ∧
      (s.rootOrder.Perm ((s.categories.values.filter
          (fun tag => (truthyId tag.parentId).isNone)).map (fun t => t.id)) →
        tags.map (fun t => t.id) = s.rootOrder) ∧
      (s.categories.parentLinks none = true →
        s.categories.values.filter (fun tag => (truthyId tag.parentId).isNone) =
          s.categories.values) := by
  generalize htops : s.categories.values.filter
    (fun tag => (truthyId tag.parentId).isNone) = tops at hids
  have hformula : ∃ tags : List Tag, getParentTags s = tags.map ListedTag.tag ∧
      tags.Perm tops ∧
      tags.map (fun t => t.id) =
        (dedupe s.rootOrder).filter (fun x => x ∈ tops.map (fun t => t.id)) ++
          (tops.map (fun t => t.id)).filter (fun x => x ∉ s.rootOrder) := by
    by_cases hro : s.rootOrder.length > 0
    · have hm0 := entries_foldl_set tops TagTree.nil hids (fun t _ => by simp [TagTree.keys])
      simp only [TagTree.entries, List.nil_append] at hm0
      have hkeys0 : (tops.foldl (fun (m : TagTree) tag => m.set tag.id tag) TagTree.nil).keys =
          tops.map (fun t => t.id) := by
        rw [keys_eq_map_entries, hm0, List.map_map]
        rfl
      have hnd0 : (tops.foldl (fun (m : TagTree) tag => m.set tag.id tag)
          TagTree.nil).keys.Nodup := by
        rw [hkeys0]
        exact hids
      obtain ⟨h1, h2⟩ := orderedLoop_spec s.rootOrder []
        (tops.foldl (fun (m : TagTree) tag => m.set tag.id tag) TagTree.nil) hnd0 hown
      have hcall : getParentTags s =
          ((dedupe s.rootOrder).filterMap
              (tops.foldl (fun (m : TagTree) tag => m.set tag.id tag) TagTree.nil).get ++
            tops.filter (fun t => !s.rootOrder.contains t.id)).map ListedTag.tag := by
        unfold getParentTags
        simp only [htops, hro, if_true]
        rw [h1, values_eq_map_entries, h2, hm0, List.nil_append, List.filter_map, List.map_map,
          List.map_append, List.map_map]
        rfl
      generalize hm : tops.foldl (fun (m : TagTree) tag => m.set tag.id tag) TagTree.nil = m
        at hm0 hkeys0 hnd0 hcall
      have hget : ∀ x t, m.get x = some t ↔ t ∈ tops ∧ t.id = x := by
        intro x t
        constructor
        · intro h
          have := mem_entries_of_get h
          rw [hm0] at this
          obtain ⟨t2, ht2, he⟩ := List.mem_map.mp this
          simp only [Prod.mk.injEq] at he
          obtain ⟨he1, he2⟩ := he
          subst he2
          exact ⟨ht2, he1⟩
        · rintro ⟨ht, rfl⟩
          apply get_of_mem_entries hnd0
          rw [hm0]
          exact List.mem_map.mpr ⟨t, ht, rfl⟩
      have hmapid : ∀ l : List String, (l.filterMap m.get).map (fun t => t.id) =
          l.filter (fun x => x ∈ tops.map (fun t => t.id)) := by
        intro l
        induction l with
        | nil => rfl
        | cons a l ih =>
          simp only [List.filterMap_cons, List.filter_cons]
          cases hg : m.get a with
          | none =>
            have : a ∉ tops.map (fun t => t.id) := by
              intro hmem
              obtain ⟨t, ht, hta⟩ := List.mem_map.mp hmem
              rw [(hget a t).mpr ⟨ht, hta⟩] at hg
              exact absurd hg (by simp)
            simp only [this, decide_False, Bool.false_eq_true, if_false, ih]
          | some t =>
            have ht := (hget a t).mp hg
            have : a ∈ tops.map (fun t => t.id) := List.mem_map.mpr ⟨t, ht.1, ht.2⟩
            simp only [this, decide_True, if_true, List.map_cons, ih, ht.2]
      have htopsnd : tops.Nodup := List.Nodup.of_map _ hids
      refine ⟨_, hcall, ?_, ?_⟩
      · have hsplit : (tops.filter (fun t => s.rootOrder.contains t.id) ++
            tops.filter (fun t => !s.rootOrder.contains t.id)).Perm tops :=
          List.filter_append_perm _ tops
        refine List.Perm.trans (List.Perm.append_right _ ?_) hsplit
        rw [List.perm_ext_iff_of_nodup]
        · intro t
          simp only [List.mem_filterMap, List.mem_filter, List.contains, List.elem_eq_mem,
            decide_eq_true_eq]
          constructor
          · rintro ⟨x, hx, hg⟩
            have := (hget x t).mp hg
            exact ⟨this.1, this.2 ▸ (mem_dedupe.mp hx)⟩
          · rintro ⟨ht, hro⟩
            exact ⟨t.id, mem_dedupe.mpr hro, (hget t.id t).mpr ⟨ht, rfl⟩⟩
        · apply List.Nodup.of_map (fun t => t.id)
          rw [hmapid]
          exact (nodup_dedupe _).filter _
        · exact htopsnd.filter _
      · rw [List.map_append, hmapid, List.filter_map]
        congr 1
        congr 1
        apply List.filter_congr
        intro t _
        simp [List.contains]
    · have hnil : s.rootOrder = [] := by
        cases hr : s.rootOrder with
        | nil => rfl
        | cons a l => rw [hr] at hro; simp at hro
      have hcall : getParentTags s = tops.map ListedTag.tag := by
        unfold getParentTags
        simp only [htops, hro, if_false]
      refine ⟨tops, hcall, List.Perm.refl _, ?_⟩
      rw [hnil]
      simp [dedupe]
  obtain ⟨tags, hcall, hperm0, hidsEq⟩ := hformula
  refine ⟨tags, hcall, hperm0, hidsEq, ?_, ?_⟩
  · intro hperm
    rw [hidsEq]
    have hrond : s.rootOrder.Nodup := hperm.nodup_iff.mpr hids
    rw [dedupe_of_nodup _ hrond, List.filter_eq_self.mpr, List.filter_eq_nil_iff.mpr]
    · simp
    · intro x hx
      simpa using hperm.mem_iff.mpr hx
    · intro x hx
      simpa using hperm.mem_iff.mp hx
  · intro hl
    rw [← htops]
    rw [List.filter_eq_self]
    intro t ht
    have key : ∀ (u : TagTree), u.parentLinks none = true → ∀ t ∈ u.values,
        t.parentId = none := by
      intro u
      induction u with
      | nil => intro _ t ht; simp [TagTree.values] at ht
      | node key id name parentId children order rest ihc ihr =>
        intro hl t ht
        simp only [TagTree.parentLinks, Bool.and_eq_true, decide_eq_true_eq] at hl
        simp only [TagTree.values, List.mem_cons] at ht
        rcases ht with rfl | ht
        · exact hl.1.1
        · exact ihr hl.2 t ht
    rw [key _ hl t ht]
    rfl

/-- Three top-level tags stored in the order Scene, Work, Home.  With `rootOrder` Work, Scene
the listing is Work, Scene and then Home, which `rootOrder` lacks; with `rootOrder` Home, Scene,
Work, a permutation of the top-level ids, the listing has the order of `rootOrder`. -/
theorem parent_tags_listing_witness :
    (∃ tags : List Tag, getParentTags (rootsState ["tag_work", "tag_scene"]) =
        tags.map ListedTag.tag ∧
      tags.Perm threeRoots.values ∧
      tags.map (fun t => t.id) = ["tag_work", "tag_scene", "tag_home"]) ∧
    (∃ tags : List Tag, getParentTags (rootsState ["tag_home", "tag_scene", "tag_work"]) =
        tags.map ListedTag.tag ∧
      tags.map (fun t => t.id) = ["tag_home", "tag_scene", "tag_work"]) :=
  ⟨Exists.elim (parent_tags_listing (rootsState ["tag_work", "tag_scene"]) (by decide)
      (by decide)) (fun tags h => ⟨tags, h.1, h.2.1, h.2.2.1.trans (by decide)⟩),
    Exists.elim (parent_tags_listing (rootsState ["tag_home", "tag_scene", "tag_work"])
      (by decide) (by decide))
      (fun tags h => ⟨tags, h.1, h.2.2.2.1 (List.isPerm_iff.mp (by decide))⟩)⟩

/-! ## Order lists after loading a project -/

theorem keys_initOrderRecursive (t : TagTree) : (initOrderRecursive t).keys = t.keys := by
  induction t with
  | nil => rfl
  | node key id name parentId children order rest ihc ihr =>
    simp only [initOrderRecursive, TagTree.keys, ihr]

theorem topKeys_initOrderRecursive (t : TagTree) :
    ((initOrderRecursive t).entries.filter
        (fun e => (truthyId e.2.parentId).isNone)).map (fun e => e.1) =
      (t.entries.filter (fun e => (truthyId e.2.parentId).isNone)).map (fun e => e.1) := by
  induction t with
  | nil => rfl
  | node key id name parentId children order rest ihc ihr =>
    simp only [initOrderRecursive, TagTree.entries, List.filter_cons]
    split
    · simp only [List.map_cons, ihr]
    · exact ihr

theorem initOrderRecursive_idem (t : TagTree) :
    initOrderRecursive (initOrderRecursive t) = initOrderRecursive t := by
  induction t with
  | nil => rfl
  | node key id name parentId children order rest ihc ihr =>
    simp only [initOrderRecursive, ihc, ihr, keys_initOrderRecursive]
    congr 1
    cases order with
    | none =>
      simp only
      split
      · rfl
      · rfl
    | some o =>
      simp only
      by_cases ho : o.length = 0
      · simp only [ho, if_true]
        split <;> rfl
      · simp only [ho, if_false]

/-- Running `initializeOrderArrays` a second time changes nothing. -/
theorem initializeOrderArrays_idem (s : State) :
    initializeOrderArrays (initializeOrderArrays s) = initializeOrderArrays s := by
  unfold initializeOrderArrays
  simp only [initOrderRecursive_idem, topKeys_initOrderRecursive]
  congr 1
  by_cases h : s.rootOrder.length = 0
  · simp only [h, if_true]
    split <;> rfl
  · simp only [h, if_false]

/-- After `initOrderRecursive` a node that had no order list, or an empty one, has the keys of its
children as its order list, and every other node keeps its order list. -/
theorem find_initOrderRecursive (t : TagTree) (x : String) :
    findTagById (initOrderRecursive t) x =
      (findTagById t x).map (fun v =>
        { v with
          children := initOrderRecursive v.children,
          order := match v.order with
            | some o => if o.length = 0 then some v.children.keys else some o
            | none => some v.children.keys }) := by
  induction t with
  | nil => rfl
  | node key id name parentId children order rest ihc ihr =>
    simp only [initOrderRecursive, findTagById]
    by_cases hx : x = ""
    · simp [hx]
    · rw [if_neg hx, if_neg hx]
      by_cases hk : key = x
      · rw [if_pos hk, if_pos hk]
        rfl
      · rw [if_neg hk, if_neg hk, ihc, ihr]
        cases findTagById children x <;> rfl

/-- Claim C26 fails on the code when another project was loaded before.  With the state of
Scenario A as the prior state, `loadProjectData` of a project whose tree holds the single root tag
Work leaves `rootOrder` as it was, the list holding Scene: `initializeOrderArrays` sets
`rootOrder` only when it is empty.  So `rootOrder` is not a permutation of the top-level ids of
the loaded tree.  From the empty state the same call gives the list holding Work, and in both
cases the node Work, stored without an order list, gets the empty list of its children's keys. -/
theorem load_keeps_stale_root_order :
    (loadProjectData (sceneState [] FilterMode.OR) "project_2" workTree 0 []).categories.keys =
        ["tag_work"] ∧
      (loadProjectData (sceneState [] FilterMode.OR) "project_2" workTree 0 []).rootOrder =
        ["tag_scene"] ∧
      ¬ (loadProjectData (sceneState [] FilterMode.OR) "project_2" workTree 0 []).rootOrder.Perm
        (loadProjectData (sceneState [] FilterMode.OR) "project_2" workTree 0 []).categories.keys ∧
      (loadProjectData State.empty "project_2" workTree 0 []).rootOrder = ["tag_work"] ∧
      (getTagById (loadProjectData (sceneState [] FilterMode.OR) "project_2" workTree 0 [])
        "tag_work").map (fun t => t.order) = some (some []) ∧
      (loadProjectData (sceneState [] FilterMode.OR) "" workTree 0 []).rootOrder = [] := by
  decide

/-! ## Legacy references -/

theorem splitChars_ne_nil (sep : Char) : ∀ (cs current : List Char),
    splitChars sep cs current ≠ [] := by
  intro cs
  induction cs with
  | nil => intro current; simp [splitChars]
  | cons c cs ih =>
    intro current
    simp only [splitChars]
    split
    · simp
    · exact ih _

theorem findTagIdByPathLoop_eq : ∀ (parts : List String) (t : TagTree) (tagId : Option String),
    parts ≠ [] → findTagIdByPathLoop parts t tagId = followNames t parts := by
  intro parts
  induction parts with
  | nil => intro t tagId h; exact absurd rfl h
  | cons n more ih =>
    intro t tagId _
    cases more with
    | nil =>
      simp only [findTagIdByPathLoop, followNames]
      cases findByName t n with
      | none => rfl
      | some e => rfl
    | cons m more =>
      simp only [findTagIdByPathLoop, followNames]
      cases findByName t n with
      | none => rfl
      | some e => exact ih e.2.children (some e.1) (by simp)

theorem truthyId_idem (o : Option String) : truthyId (truthyId o) = truthyId o := by
  cases o with
  | none => rfl
  | some p =>
    by_cases hp : p = ""
    · simp [truthyId, hp]
    · simp [truthyId, hp]

theorem not_isPathReference_ne_empty {cat : String} (h : isPathReference cat = false) :
    cat ≠ "" := by
  rintro rfl
  revert h
  decide

/-- Claim C24.  `findTagIdByPath(categories, path)` is the key reached by following, from the
top level, the first child with each successive name of `path.split('/')`, and `null` when a name
matches no child.  `Storage.loadNotes` keeps every note with its content; in the references of a
note it replaces each path string (a string with a slash or without the start `tag_`) by the id
that `findTagIdByPath` returns for it, drops it when that result is `null` or empty, and keeps
every other reference, in their order. -/
theorem legacy_reference_migration (catData : TagTree) (now : Nat) (loaded : List Note) :
    (∀ path, findTagIdByPath catData path = followNames catData (jsSplit path)) ∧
    (∀ categories, migrateReferences catData categories =
      categories.filterMap (fun cat =>
        if isPathReference cat then truthyId (findTagIdByPath catData cat) else some cat)) ∧
    (loadNotes now catData loaded).length = loaded.length ∧
    (loadNotes now catData loaded).map (fun n => n.content) = loaded.map (fun n => n.content) ∧
    (loadNotes now catData loaded).map (fun n => n.categories) =
      loaded.map (fun n => migrateReferences catData n.categories) := by
  refine ⟨?_, ?_, ?_, ?_, ?_⟩
  · intro path
    exact findTagIdByPathLoop_eq _ _ _ (splitChars_ne_nil _ _ _)
  · intro categories
    have hgen : (categories.map (fun cat =>
        if isPathReference cat then truthyId (findTagIdByPath catData cat)
        else some cat)).filterMap truthyId =
        categories.filterMap (fun cat =>
          if isPathReference cat then truthyId (findTagIdByPath catData cat) else some cat) := by
      rw [List.filterMap_map]
      apply List.filterMap_congr
      intro cat _
      simp only [Function.comp]
      by_cases hp : isPathReference cat = true
      · simp only [hp, if_true]
        exact truthyId_idem _
      · simp only [hp, Bool.false_eq_true, if_false]
        have := not_isPathReference_ne_empty (by simpa using hp)
        simp only [truthyId, if_neg this]
    unfold migrateReferences
    split
    · exact hgen
    · rename_i hany
      symm
      have hall : ∀ cat ∈ categories, isPathReference cat = false := by
        intro cat hc
        by_contra hp
        exact hany (List.any_eq_true.mpr ⟨cat, hc, by simpa using hp⟩)
      have : categories.filterMap (fun cat =>
          if isPathReference cat then truthyId (findTagIdByPath catData cat) else some cat) =
          categories.filterMap some := by
        apply List.filterMap_congr
        intro cat hc
        simp only [hall cat hc, Bool.false_eq_true, if_false]
      rw [this, List.filterMap_some]
  · simp [loadNotes]
  · simp only [loadNotes, List.map_map]
    have : ∀ (k : Nat), (List.enumFrom k loaded).map
        ((fun n : Note => n.content) ∘ fun e : Nat × Note =>
          { e.2 with
            id := if e.2.id = 0 then now + e.1 else e.2.id,
            categories := migrateReferences catData e.2.categories }) =
        loaded.map (fun n => n.content) := by
      induction loaded with
      | nil => intro k; rfl
      | cons a l ih =>
        intro k
        simp only [List.enumFrom_cons, List.map_cons, Function.comp, ih (k + 1)]
    exact this 0
  · simp only [loadNotes, List.map_map]
    have : ∀ (k : Nat), (List.enumFrom k loaded).map
        ((fun n : Note => n.categories) ∘ fun e : Nat × Note =>
          { e.2 with
            id := if e.2.id = 0 then now + e.1 else e.2.id,
            categories := migrateReferences catData e.2.categories }) =
        loaded.map (fun n => migrateReferences catData n.categories) := by
      induction loaded with
      | nil => intro k; rfl
      | cons a l ih =>
        intro k
        simp only [List.enumFrom_cons, List.map_cons, Function.comp, ih (k + 1)]
    exact this 0

/-- Scenario A with path references: `Scene/Cafe` and `Scene/School` become the ids of Cafe and
School, the unresolved `Scene/Park` is dropped, and the three notes stay. -/
theorem legacy_reference_migration_witness :
    jsSplit "Scene/Cafe" = ["Scene", "Cafe"] ∧
      findTagIdByPath sceneTree "Scene/Cafe" = some "tag_cafe" ∧
      findTagIdByPath sceneTree "Scene/Park" = none ∧
      loadNotes 0 sceneTree legacyNotes = [noteI1, noteI2, noteI3] :=
  ⟨by decide,
    ((legacy_reference_migration sceneTree 0 legacyNotes).1 "Scene/Cafe").trans (by decide),
    by decide, by decide⟩

/-! ## Legacy tag data -/

theorem append_nil (t : TagTree) : t.append .nil = t := by
  induction t with
  | nil => rfl
  | node key id name parentId children order rest ihc ihr =>
    simp only [TagTree.append, ihr]

theorem keys_append (t u : TagTree) : (t.append u).keys = t.keys ++ u.keys := by
  induction t with
  | nil => rfl
  | node key id name parentId children order rest ihc ihr =>
    simp only [TagTree.append, TagTree.keys, ihr, List.cons_append]

theorem set_append {t : TagTree} {k : String} (v : Tag) (u : TagTree) (h : k ∉ t.keys) :
    (t.set k v).append u = t.append (TagTree.cons k v u) := by
  induction t with
  | nil => rfl
  | node key id name parentId children order rest ihc ihr =>
    simp only [TagTree.keys, List.mem_cons, not_or] at h
    simp only [TagTree.set, if_neg (fun e : key = k => h.1 e.symm), TagTree.append, ihr h.2]

theorem convertTreeToIdFormat_spec : ∀ (t : NameTree) (p : Option String) (ids : List String)
    (acc : TagTree), ids.Nodup → t.size ≤ ids.length →
    (∀ i ∈ ids.take t.size, i ∉ acc.keys) →
    ∃ r, convertTreeToIdFormat t p ids acc = some (acc.append r, ids.drop t.size) ∧
      r.toNames = t ∧ r.allKeys = ids.take t.size ∧ r.parentLinks p = true ∧
      r.idsMatch = true := by
  intro t
  induction t with
  | nil =>
    intro p ids acc _ _ _
    exact ⟨.nil, by simp [convertTreeToIdFormat, append_nil, NameTree.size], rfl,
      by simp [NameTree.size, TagTree.allKeys], rfl, rfl⟩
  | node key children rest ihc ihr =>
    intro p ids acc hnd hlen hdisj
    simp only [NameTree.size] at hlen hdisj
    cases ids with
    | nil => simp at hlen
    | cons i ids1 =>
      simp only [List.length_cons] at hlen
      simp only [List.nodup_cons] at hnd
      obtain ⟨rc, hrc, hrc1, hrc2, hrc3, hrc4⟩ := ihc (some i) ids1 .nil hnd.2 (by omega)
        (fun _ _ => by simp [TagTree.keys])
      have hi : i ∉ acc.keys := hdisj i (by
        have : 1 + children.size + rest.size = (children.size + rest.size) + 1 := by omega
        rw [this, List.take_succ_cons]
        simp)
      have htake : (i :: ids1).take (1 + children.size + rest.size) =
          i :: (ids1.take children.size ++ (ids1.drop children.size).take rest.size) := by
        have : 1 + children.size + rest.size = (children.size + rest.size) + 1 := by omega
        rw [this, List.take_succ_cons, List.take_add]
      obtain ⟨rr, hrr, hrr1, hrr2, hrr3, hrr4⟩ := ihr p (ids1.drop children.size)
        (acc.set i ⟨i, key, p, rc, none⟩) (hnd.2.sublist (List.drop_sublist _ _))
        (by rw [List.length_drop]; omega)
        (by
          intro j hj
          have hj1 : j ∈ ids1 := List.mem_of_mem_drop (List.mem_of_mem_take hj)
          have hjacc : j ∉ acc.keys := hdisj j (by
            rw [htake]
            simp [hj])
          rw [keys_eq_map_entries, entries_set_of_not_mem _ hi, List.map_append,
            ← keys_eq_map_entries]
          simp only [List.map_cons, List.map_nil, List.mem_append, List.mem_singleton, not_or]
          exact ⟨hjacc, fun e => hnd.1 (e ▸ hj1)⟩)
      have hrc0 : convertTreeToIdFormat children (some i) ids1 .nil =
          some (rc, ids1.drop children.size) := hrc
      have hdrop : (ids1.drop children.size).drop rest.size =
          (i :: ids1).drop (1 + children.size + rest.size) := by
        have : 1 + children.size + rest.size = (children.size + rest.size) + 1 := by omega
        rw [this, List.drop_succ_cons, List.drop_drop]
      refine ⟨.node i i key p rc none rr, ?_, ?_, ?_, ?_, ?_⟩
      · simp only [convertTreeToIdFormat, hrc0, hrr, NameTree.size]
        rw [hdrop, set_append _ _ hi]
        rfl
      · simp only [TagTree.toNames, hrc1, hrr1]
      · simp only [TagTree.allKeys, hrc2, hrr2, htake, NameTree.size]
      · simp only [TagTree.parentLinks, hrc3, hrr3, decide_True, Bool.and_self]
      · simp only [TagTree.idsMatch, hrc4, hrr4, decide_True, Bool.and_self]

theorem foldl_setKey : ∀ (names acc : List String),
    names.foldl setKey acc = acc ++ (dedupe names).filter (fun n => n ∉ acc) := by
  intro names
  induction names with
  | nil => intro acc; simp [dedupe]
  | cons a l ih =>
    intro acc
    simp only [List.foldl_cons, ih, dedupe, List.filter_cons]
    by_cases ha : a ∈ acc
    · have hs : setKey acc a = acc := by simp [setKey, ha]
      have hfil : ((dedupe l).filter (fun y => y != a)).filter (fun n => decide (n ∉ acc)) =
          (dedupe l).filter (fun n => decide (n ∉ acc)) := by
        rw [List.filter_filter]
        apply List.filter_congr
        intro x _
        by_cases hx : x ∈ acc
        · simp [hx]
        · have : x ≠ a := fun e => hx (e ▸ ha)
          simp [hx, this]
      rw [hs]
      simp only [ha, not_true_eq_false, decide_False, Bool.false_eq_true, if_false, hfil]
    · have hs : setKey acc a = acc ++ [a] := by simp [setKey, ha]
      have hfil : (dedupe l).filter (fun n => decide (n ∉ acc ++ [a])) =
          ((dedupe l).filter (fun y => y != a)).filter (fun n => decide (n ∉ acc)) := by
        rw [List.filter_filter]
        apply List.filter_congr
        intro x _
        by_cases hx : x = a
        · simp [hx]
        · simp [hx]
      rw [hs, hfil]
      simp [ha]

theorem leaves_set (l : List String) (k : String) :
    (NameTree.leaves l).set k .nil = NameTree.leaves (setKey l k) := by
  induction l with
  | nil => rfl
  | cons a l ih =>
    simp only [NameTree.leaves, NameTree.set, setKey]
    by_cases ha : a = k
    · simp [ha, NameTree.leaves]
    · rw [if_neg ha, ih]
      simp only [setKey, List.mem_cons]
      by_cases hk : k ∈ l
      · simp [hk, NameTree.leaves]
      · have : ¬ (k = a ∨ k ∈ l) := by
          rintro (h | h)
          · exact ha h.symm
          · exact hk h
        have hka : ¬ k = a := fun e => ha e.symm
        simp [hk, hka, NameTree.leaves, List.cons_append]

theorem ofNames_eq_leaves (names : List String) :
    NameTree.ofNames names = NameTree.leaves (dedupe names) := by
  have key : ∀ (names acc : List String),
      names.foldl (fun tree sub => tree.set sub .nil) (NameTree.leaves acc) =
        NameTree.leaves (names.foldl setKey acc) := by
    intro names
    induction names with
    | nil => intro acc; rfl
    | cons a l ih =>
      intro acc
      simp only [List.foldl_cons, leaves_set, ih]
  unfold NameTree.ofNames
  have := key names []
  simp only [NameTree.leaves] at this
  rw [this, foldl_setKey]
  simp

theorem size_leaves (l : List String) : (NameTree.leaves l).size = l.length := by
  induction l with
  | nil => rfl
  | cons a l ih =>
    simp only [NameTree.leaves, NameTree.size, ih, List.length_cons]
    omega

theorem values_of_leaves : ∀ (r : TagTree) (l : List String) (p : Option String),
    r.toNames = NameTree.leaves l → r.parentLinks p = true →
    r.values.map (fun t => (t.name, t.parentId, t.children)) =
      l.map (fun n => (n, p, TagTree.nil)) := by
  intro r
  induction r with
  | nil =>
    intro l p h _
    cases l with
    | nil => rfl
    | cons a l => simp [TagTree.toNames, NameTree.leaves] at h
  | node key id name parentId children order rest ihc ihr =>
    intro l p h hl
    cases l with
    | nil => simp [TagTree.toNames, NameTree.leaves] at h
    | cons a l =>
      simp only [TagTree.toNames, NameTree.leaves, NameTree.node.injEq] at h
      obtain ⟨h1, h2, h3⟩ := h
      simp only [TagTree.parentLinks, Bool.and_eq_true, decide_eq_true_eq] at hl
      have hch : children = .nil := by
        cases children with
        | nil => rfl
        | node _ _ _ _ _ _ _ => simp [TagTree.toNames] at h2
      simp only [TagTree.values, List.map_cons, ihr l p h3 hl.2, h1, hl.1.1, hch]

theorem legacyArrayTree_names (names : List String) :
    legacyArrayTree (names.map LegacyCategory.name) = NameTree.leaves (dedupe names) := by
  rw [← ofNames_eq_leaves]
  unfold legacyArrayTree NameTree.ofNames
  rw [List.foldl_map]

/-- A legacy object of names in which a top-level name has the sub-name `id` passes the test for
the id format and is returned as it was parsed, without conversion. -/
theorem loadCategories_object_with_id (input : NameTree) (ids : List String)
    (h : isNewFormat (StoredCategories.object input) = true) :
    loadCategories (StoredCategories.object input) ids = some (LoadedCategories.names input) := by
  unfold loadCategories
  simp only [h, if_true]

/-- The legacy object `{ Scene: { id: {} } }` is returned as it was parsed. -/
theorem loadCategories_legacyIdObject :
    loadCategories (StoredCategories.object legacyIdObject) ["tag_scene", "tag_id"] =
      some (LoadedCategories.names legacyIdObject) := by
  decide

/-- Claim C23 (legacy tag migration).  Let the calls of `generateTagId()` return the pairwise
different values `ids`, enough of them, and let the names and the ids be plain keys.  For a
legacy array, and for a legacy object of names that the test for the id format does not accept,
`Storage.loadCategories` returns a tree in the id format that has the names and the nesting of
the input, in which every node is stored under its `id`, every top-level node has `parentId`
`null` and every node below has the `id` of its parent as `parentId`.  In particular (a) a list
of name strings gives one top-level node per name (a repeated name once), with `parentId` `null`
and no children; (b) a group with a name and a list of sub-names gives one top-level node with
that name whose children are one node per sub-name, with that name, the `id` of the top-level
node as `parentId` and no children; (c) a tree in the id format, recognised by a top-level node
with an `id`, is returned as it is. -/
theorem legacy_tag_migration (ids : List String) (hnd : ids.Nodup)
    (hids : ∀ i ∈ ids, PlainName i) :
    (∀ stored input,
      ((stored = StoredCategories.object input ∧ isNewFormat stored = false) ∨
        ∃ parsed, stored = StoredCategories.array parsed ∧ input = legacyArrayTree parsed ∧
          ∀ cat ∈ parsed, ∀ n ∈ cat.names, PlainName n) →
      input.size ≤ ids.length →
      ∃ tree, loadCategories stored ids = some (LoadedCategories.tree tree) ∧
        tree.toNames = input ∧
        tree.allKeys = ids.take input.size ∧ tree.parentLinks none = true ∧
        tree.idsMatch = true) ∧
    (∀ names : List String, (∀ n ∈ names, PlainName n) → (dedupe names).length ≤ ids.length →
      ∃ tree, loadCategories (StoredCategories.array (names.map LegacyCategory.name)) ids =
          some (LoadedCategories.tree tree) ∧
        tree.keys = ids.take (dedupe names).length ∧
        tree.values.map (fun t => (t.name, t.parentId, t.children)) =
          (dedupe names).map (fun n => (n, none, TagTree.nil))) ∧
    (∀ (name : String) (subOptions : List String), name ≠ "" → PlainName name →
      (∀ n ∈ subOptions, PlainName n) → 1 + (dedupe subOptions).length ≤ ids.length →
      ∃ id children, loadCategories
          (StoredCategories.array [LegacyCategory.group name (some subOptions)]) ids =
            some (LoadedCategories.tree
              (TagTree.cons id ⟨id, name, none, children, none⟩ TagTree.nil)) ∧
        children.values.map (fun t => (t.name, t.parentId, t.children)) =
          (dedupe subOptions).map (fun n => (n, some id, TagTree.nil))) ∧
    (∀ (tree : TagTree) (accepted : tree.values.any (fun item => item.id != "") = true),
      loadCategories (StoredCategories.canonical tree accepted) ids =
        some (LoadedCategories.tree tree)) := by
  have hconv : ∀ input : NameTree, input.size ≤ ids.length →
      ∃ tree, (convertTreeToIdFormat input none ids .nil).map
          (fun r => LoadedCategories.tree r.1) = some (LoadedCategories.tree tree) ∧
        tree.toNames = input ∧ tree.allKeys = ids.take input.size ∧
        tree.parentLinks none = true ∧ tree.idsMatch = true := by
    intro input hsize
    obtain ⟨r, hr, h1, h2, h3, h4⟩ := convertTreeToIdFormat_spec input none ids .nil hnd hsize
      (fun _ _ => by simp [TagTree.keys])
    exact ⟨r, by rw [hr]; rfl, h1, h2, h3, h4⟩
  have harr : ∀ parsed, loadCategories (StoredCategories.array parsed) ids =
      (convertTreeToIdFormat (legacyArrayTree parsed) none ids .nil).map
        (fun r => LoadedCategories.tree r.1) := fun _ => rfl
  refine ⟨?_, ?_, ?_, ?_⟩
  · rintro stored input (⟨rfl, hnew⟩ | ⟨parsed, rfl, rfl, -⟩) hsize
    · have hcall : loadCategories (StoredCategories.object input) ids =
          (convertTreeToIdFormat input none ids .nil).map
            (fun r => LoadedCategories.tree r.1) := by
        unfold loadCategories
        simp only [hnew, Bool.false_eq_true, if_false]
      rw [hcall]
      exact hconv input hsize
    · rw [harr]
      exact hconv _ hsize
  · intro names _ hlen
    obtain ⟨tree, h0, h1, h2, h3, -⟩ := hconv (legacyArrayTree (names.map LegacyCategory.name))
      (by rw [legacyArrayTree_names, size_leaves]; exact hlen)
    rw [legacyArrayTree_names] at h1 h2
    rw [size_leaves] at h2
    refine ⟨tree, by rw [harr]; exact h0, ?_, values_of_leaves tree _ none h1 h3⟩
    have hkeys : ∀ (r : TagTree) (l : List String), r.toNames = NameTree.leaves l →
        r.keys = r.allKeys := by
      intro r
      induction r with
      | nil => intro _ _; rfl
      | node key id name parentId children order rest ihc ihr =>
        intro l h
        cases l with
        | nil => simp [TagTree.toNames, NameTree.leaves] at h
        | cons a l =>
          simp only [TagTree.toNames, NameTree.leaves, NameTree.node.injEq] at h
          have hch : children = .nil := by
            cases children with
            | nil => rfl
            | node _ _ _ _ _ _ _ => simp [TagTree.toNames] at h
          simp only [TagTree.keys, TagTree.allKeys, hch, List.nil_append, ihr l h.2.2]
    rw [hkeys tree _ h1, h2]
  · intro name subOptions hname _ _ hlen
    have htree : legacyArrayTree [LegacyCategory.group name (some subOptions)] =
        .node name (NameTree.leaves (dedupe subOptions)) .nil := by
      simp [legacyArrayTree, hname, NameTree.set, ofNames_eq_leaves]
    have hsize : (legacyArrayTree [LegacyCategory.group name (some subOptions)]).size ≤
        ids.length := by
      rw [htree]
      simp only [NameTree.size, size_leaves]
      omega
    obtain ⟨tree, hr, h1, -, h3, h4⟩ := convertTreeToIdFormat_spec
      (legacyArrayTree [LegacyCategory.group name (some subOptions)]) none ids .nil hnd hsize
      (fun _ _ => by simp [TagTree.keys])
    have h0 : (convertTreeToIdFormat (legacyArrayTree
        [LegacyCategory.group name (some subOptions)]) none ids .nil).map (fun r => r.1) =
          some tree := by
      rw [hr]
      rfl
    rw [htree] at h1
    cases tree with
    | nil => simp [TagTree.toNames] at h1
    | node key id nm parentId children order rest =>
      simp only [TagTree.toNames, NameTree.node.injEq] at h1
      obtain ⟨h11, h12, h13⟩ := h1
      simp only [TagTree.parentLinks, Bool.and_eq_true, decide_eq_true_eq] at h3
      simp only [TagTree.idsMatch, Bool.and_eq_true, decide_eq_true_eq] at h4
      have hrest : rest = .nil := by
        cases rest with
        | nil => rfl
        | node _ _ _ _ _ _ _ => simp [TagTree.toNames] at h13
      have horder : order = none := by
        have hcall := h0
        simp only [htree] at hcall
        cases ids with
        | nil => simp [convertTreeToIdFormat] at hcall
        | cons i ids1 =>
          simp only [convertTreeToIdFormat] at hcall
          cases hc : convertTreeToIdFormat (NameTree.leaves (dedupe subOptions)) (some i) ids1
              .nil with
          | none => rw [hc] at hcall; simp at hcall
          | some c =>
            rw [hc] at hcall
            simp only [TagTree.set, TagTree.cons, Option.map_some', Option.some.injEq,
              TagTree.node.injEq] at hcall
            exact hcall.2.2.2.2.2.1.symm
      refine ⟨key, children, ?_, values_of_leaves children _ (some key) h12 h3.1.2⟩
      rw [harr, hr, hrest, h4.1.1, h11, h3.1.1, horder]
      rfl
  · intro tree accepted
    rfl

/-- Scenario A as legacy data: the group Scene with the sub-names Cafe and School, and the object
of names `{ Scene: { Cafe: {}, School: {} } }`, are loaded as the root tag Scene with the children
Cafe and School, and the list of the names Scene, Cafe, Scene as the two root tags Scene and
Cafe. -/
theorem legacy_tag_migration_witness :
    loadCategories legacyScene ["tag_scene", "tag_cafe", "tag_school"] =
        some (LoadedCategories.tree (.node "tag_scene" "tag_scene" "Scene" none
          (.node "tag_cafe" "tag_cafe" "Cafe" (some "tag_scene") .nil none
            (.node "tag_school" "tag_school" "School" (some "tag_scene") .nil none .nil))
          none .nil)) ∧
      (∃ tree, loadCategories (StoredCategories.object legacySceneObject)
            ["tag_scene", "tag_cafe", "tag_school"] = some (LoadedCategories.tree tree) ∧
        tree.toNames = legacySceneObject ∧
        tree.allKeys = ["tag_scene", "tag_cafe", "tag_school"].take legacySceneObject.size ∧
        tree.parentLinks none = true ∧ tree.idsMatch = true) ∧
      ∃ tree, loadCategories (StoredCategories.array
            (["Scene", "Cafe", "Scene"].map LegacyCategory.name))
            ["tag_scene", "tag_cafe", "tag_school"] = some (LoadedCategories.tree tree) ∧
        tree.keys = ["tag_scene", "tag_cafe"] ∧
        tree.values.map (fun t => (t.name, t.parentId, t.children)) =
          [("Scene", none, TagTree.nil), ("Cafe", none, TagTree.nil)] :=
  ⟨by decide,
    (legacy_tag_migration ["tag_scene", "tag_cafe", "tag_school"] (by decide) (by decide)).1
      _ legacySceneObject (Or.inl ⟨rfl, by decide⟩) (by decide),
    (legacy_tag_migration ["tag_scene", "tag_cafe", "tag_school"] (by decide) (by decide)).2.1
      ["Scene", "Cafe", "Scene"] (by decide) (by decide)⟩

/-! ## What a deletion leaves alone -/

theorem find_empty (t : TagTree) : findTagById t "" = none := by
  cases t <;> simp [findTagById]

theorem keys_update (t : TagTree) (k : String) (g : Tag → Tag) : (t.update k g).keys = t.keys := by
  induction t with
  | nil => rfl
  | node key id name parentId children order rest ihc ihr =>
    simp only [TagTree.update]
    split
    · rfl
    · split
      · rfl
      · simp only [TagTree.keys, ihr]

theorem find_delete_other {t : TagTree} {T x : String} (hx : x ≠ T)
    (hsub : ∀ tag, t.get T = some tag → x ∉ tag.children.allKeys) :
    findTagById (t.delete T) x = findTagById t x := by
  induction t with
  | nil => rfl
  | node key id name parentId children order rest ihc ihr =>
    by_cases hxe : x = ""
    · subst hxe
      rw [find_empty, find_empty]
    simp only [TagTree.delete]
    by_cases hk : key = T
    · rw [if_pos hk]
      have hnot : x ∉ children.allKeys := hsub ⟨id, name, parentId, children, order⟩ (by
        simp [TagTree.get, hk])
      simp only [findTagById, if_neg hxe, if_neg (fun e : key = x => hx (e.symm.trans hk)),
        findTagById_none_of_not_mem hnot]
    · rw [if_neg hk]
      simp only [findTagById, if_neg hxe]
      rw [ihr (fun tag htag => hsub tag (by simpa [TagTree.get, hk] using htag))]

theorem find_update_other {t : TagTree} {k x : String} {g : Tag → Tag} (hk : k ≠ "")
    (hx : x ≠ k)
    (hg : ∀ n, findTagById t k = some n →
      (findTagById (g n).children x).map
          (fun v => (v.id, v.name, v.parentId, v.children.keys)) =
        (findTagById n.children x).map
          (fun v => (v.id, v.name, v.parentId, v.children.keys))) :
    (findTagById (t.update k g) x).map (fun v => (v.id, v.name, v.parentId, v.children.keys)) =
      (findTagById t x).map (fun v => (v.id, v.name, v.parentId, v.children.keys)) := by
  induction t with
  | nil => rfl
  | node key id name parentId children order rest ihc ihr =>
    by_cases hxe : x = ""
    · subst hxe
      rw [find_empty, find_empty]
    simp only [findTagById, if_neg hk] at hg
    simp only [TagTree.update]
    by_cases hkey : key = k
    · rw [if_pos hkey]
      rw [if_pos hkey] at hg
      have h1 := hg _ rfl
      simp only at h1
      simp only [TagTree.cons, findTagById, if_neg hxe,
        if_neg (fun e : key = x => hx (e.symm.trans hkey))]
      cases h2 : findTagById (g ⟨id, name, parentId, children, order⟩).children x with
      | none =>
        rw [h2] at h1
        cases h3 : findTagById children x with
        | none => rfl
        | some w => rw [h3] at h1; simp at h1
      | some w =>
        rw [h2] at h1
        cases h3 : findTagById children x with
        | none => rw [h3] at h1; simp at h1
        | some w2 =>
          rw [h3] at h1
          exact h1
    · rw [if_neg hkey]
      rw [if_neg hkey] at hg
      cases hc : findTagById children k with
      | some found =>
        rw [hc] at hg
        simp only [Option.isSome_some, if_true, findTagById, if_neg hxe]
        by_cases hkx : key = x
        · simp only [if_pos hkx, Option.map_some', keys_update]
        · rw [if_neg hkx, if_neg hkx]
          have ih := ihc (fun n hn => hg n (by rw [hc] at hn; exact hn))
          cases h2 : findTagById (children.update k g) x with
          | none =>
            rw [h2] at ih
            cases h3 : findTagById children x with
            | none => rfl
            | some w => rw [h3] at ih; simp at ih
          | some w =>
            rw [h2] at ih
            cases h3 : findTagById children x with
            | none => rw [h3] at ih; simp at ih
            | some w2 =>
              rw [h3] at ih
              exact ih
      | none =>
        rw [hc] at hg
        simp only [Option.isSome_none, Bool.false_eq_true, if_false, findTagById, if_neg hxe]
        by_cases hkx : key = x
        · simp only [if_pos hkx]
        · rw [if_neg hkx, if_neg hkx]
          cases findTagById children x with
          | none => exact ihr (fun n hn => hg n hn)
          | some w => rfl

theorem deleteCategory_fields {s : State} {T : String} {tag : Tag} (hT1 : T ≠ "")
    (hT2 : T ∈ s.tagMap) (hget : getTagById s T = some tag) :
    (deleteCategory s T).1.tagMap =
        s.tagMap.filter (fun id => !(getAllDescendantIds s T).contains id) ∧
      (deleteCategory s T).1.notes =
        s.notes.map (fun note =>
          { note with categories := note.categories.filter (fun id =>
              if id = "" then false else !(getAllDescendantIds s T).contains id) }) := by
  unfold deleteCategory
  rw [if_neg (by simp [hT1, hT2])]
  simp only [hget]
  constructor <;> first | rfl | trivial

/-- Claim C30 (delete frame).  In a well-formed state, for an indexed tag `T`, every indexed tag
`x` outside the descendant closure of `T` is in the index after `deleteCategory(T)`, and the
index and the tree hold for it a node with the same `id`, name and `parentId`; the keys of its
children are the same, except that for the parent of `T` they are the old keys without `T`.
Every note keeps, in their order, exactly its references that are not falsy and not in the
closure, and loses the others. -/
theorem delete_frame (s : State) (T : String) (hwf : WellFormed s) (hT : T ∈ s.tagMap) :
    (∀ x ∈ s.tagMap, x ∉ getAllDescendantIds s T →
      x ∈ (deleteCategory s T).1.tagMap ∧
      ∃ tag v v', getTagById s T = some tag ∧ getTagById s x = some v ∧
        getTagById (deleteCategory s T).1 x = some v' ∧
        findTagById (deleteCategory s T).1.categories x = some v' ∧
        v'.id = v.id ∧ v'.name = v.name ∧ v'.parentId = v.parentId ∧
        (tag.parentId ≠ some x → v'.children.keys = v.children.keys) ∧
        (tag.parentId = some x →
          v'.children.keys = v.children.keys.filter (fun k => k != T))) ∧
    (deleteCategory s T).1.notes =
      s.notes.map (fun note =>
        { note with categories := note.categories.filter (fun id =>
            decide (id ≠ "" ∧ id ∉ getAllDescendantIds s T)) }) := by
  obtain ⟨tag, hget, hflat⟩ := hwf.getTagById_isSome hT
  have hfind := (getTagById_eq_find hget).1
  have hT1 : T ≠ "" := getTagById_ne_empty hget
  obtain ⟨hmap, hnotes⟩ := deleteCategory_fields hT1 hT hget
  refine ⟨?_, ?_⟩
  · intro x hx hout
    have hxT : x ≠ T := fun e => hout (by rw [e]; exact self_mem_desc hT1)
    have hxsub : x ∉ tag.children.allKeys := fun hm => hout (mem_desc_of_child hwf.uniqueIds hget hm)
    obtain ⟨v, hgetx, hflatx⟩ := hwf.getTagById_isSome hx
    have hfindx := (getTagById_eq_find hgetx).1
    have hx1 : x ≠ "" := getTagById_ne_empty hgetx
    have hxin : x ∈ (deleteCategory s T).1.tagMap := by
      rw [hmap, List.mem_filter]
      exact ⟨hx, by simpa [List.contains] using hout⟩
    have hresolve : getTagById (deleteCategory s T).1 x =
        findTagById (deleteCategory s T).1.categories x := by
      unfold getTagById
      rw [if_neg (by
        rw [not_or, not_not]
        exact ⟨hx1, hxin⟩)]
    refine ⟨hxin, tag, v, ?_⟩
    rcases parent_of_find none hwf.parentLinks hfind with ⟨hp, hg⟩ | ⟨P, nP, hp, hP, hg⟩
    · have hcat := (deleteCategory_top hT1 hT hget (by rw [hp]; rfl)).2.1
      have hf : findTagById (deleteCategory s T).1.categories x = some v := by
        rw [hcat, find_delete_other hxT (fun tag2 h2 => by
          rw [hg] at h2
          cases h2
          exact hxsub)]
        exact hfindx
      refine ⟨v, hget, hgetx, by rw [hresolve, hf], hf, rfl, rfl, rfl, fun _ => rfl, ?_⟩
      intro h
      rw [hp] at h
      exact absurd h (by simp)
    · have hPin := mem_allKeys_of_mem_flat hP
      have hPne : P ≠ "" := fun e => hwf.uniqueIds.2 (e ▸ hPin)
      have hgetP := hwf.getTagById_of_mem_flat hP
      have hfindP := (getTagById_eq_find hgetP).1
      have hcat := (deleteCategory_nested hT1 hT hget
        (by rw [hp]; simp [truthyId, hPne]) hgetP).2.1
      by_cases hxP : x = P
      · subst hxP
        have hv : v = nP := by
          rw [hgetx] at hgetP
          exact Option.some.inj hgetP
        subst hv
        have hf : findTagById (deleteCategory s T).1.categories x =
            some { v with children := v.children.delete T,
                          order := v.order.map (fun o => o.filter (fun id => id != T)) } := by
          rw [hcat, find_update_self _ hx1, hfindx]
          rfl
        refine ⟨_, hget, hgetx, by rw [hresolve, hf], hf, rfl, rfl, rfl, ?_, ?_⟩
        · intro h
          exact absurd hp h
        · intro _
          have hnd : v.children.keys.Nodup :=
            (nodup_children_of_mem_flat hwf.uniqueIds.1 hP).sublist (keys_sublist_allKeys _)
          exact keys_delete_eq_filter T hnd
      · have hmapeq := find_update_other (t := s.categories)
          (g := fun p => { p with
            children := p.children.delete T,
            order := p.order.map (fun o => o.filter (fun id => id != T)) }) hPne hxP
          (by
            intro n hn
            rw [hfindP] at hn
            cases hn
            simp only
            rw [find_delete_other hxT (fun tag2 h2 => by
              rw [hg] at h2
              cases h2
              exact hxsub)])
        rw [← hcat, hfindx] at hmapeq
        cases hf : findTagById (deleteCategory s T).1.categories x with
        | none => rw [hf] at hmapeq; simp at hmapeq
        | some v' =>
          rw [hf] at hmapeq
          simp only [Option.map_some', Option.some.injEq, Prod.mk.injEq] at hmapeq
          obtain ⟨h1, h2, h3, h4⟩ := hmapeq
          refine ⟨v', hget, hgetx, hresolve.trans hf, rfl, h1, h2, h3, fun _ => h4, ?_⟩
          intro h
          rw [hp] at h
          exact absurd (Option.some.inj h).symm hxP
  · rw [hnotes]
    apply List.map_congr_left
    intro note _
    congr 1
    apply List.filter_congr
    intro id _
    by_cases hid : id = ""
    · simp [hid]
    · simp [hid, List.contains]

/-- Scenario C: deleting Cafe leaves School and Scene in the index, School as it was and Scene
with the children keys without Cafe, and the item I2 keeps its reference to School. -/
theorem delete_frame_witness :
    WellFormed (sceneState [] FilterMode.OR) ∧
      "tag_school" ∈ (deleteCategory (sceneState [] FilterMode.OR) "tag_cafe").1.tagMap ∧
      (getTagById (deleteCategory (sceneState [] FilterMode.OR) "tag_cafe").1 "tag_scene").map
          (fun v => v.children.keys) = some ["tag_school"] ∧
      (deleteCategory (sceneState [] FilterMode.OR) "tag_cafe").1.notes =
        [⟨1, "I1", []⟩, noteI2, noteI3] :=
  ⟨by decide,
    ((delete_frame (sceneState [] FilterMode.OR) "tag_cafe" (by decide) (by decide)).1
      "tag_school" (by decide) (by decide)).1,
    by decide,
    ((delete_frame (sceneState [] FilterMode.OR) "tag_cafe" (by decide) (by decide)).2).trans
      (by decide)⟩

/-! ## Acyclicity of the trees made by creating tags -/

theorem validPathLoop_owner (s : State) : ∀ (path : List String)
    (acc : List String × Option String),
    (∀ o, acc.2 = some o → ∃ n, getTagById s o = some n) →
    ∀ o, (validPathLoop s path acc).2 = some o → ∃ n, getTagById s o = some n := by
  intro path
  induction path with
  | nil => intro acc h; exact h
  | cons x xs ih =>
    intro acc h
    obtain ⟨v, ow⟩ := acc
    simp only [validPathLoop]
    cases hx : getTagById s x with
    | none => exact h
    | some tx =>
      refine ih _ ?_
      intro o ho
      cases ho
      exact ⟨tx, hx⟩

theorem getCurrentTagTree_owner {s : State} {o : String} (h : (getCurrentTagTree s).2 = some o) :
    ∃ n, getTagById s o = some n :=
  validPathLoop_owner s s.tagSelectPath ([], none) (fun o ho => by simp at ho) o h

/-- What a call of `addCategory` does to the tree and the index: nothing, or a node without
children is stored under an id that is new to the index, at the top level or in the children of
an indexed tag `o`, with a falsy `parentId` or the `parentId` `o`. -/
theorem addCategory_shape {s s' : State} {attempts : List IdAttempt} {categoryName : String}
    {parentId : Option String} {result : Option String}
    (h : addCategory s attempts categoryName parentId = some (s', result)) :
    (s'.categories = s.categories ∧ s'.tagMap = s.tagMap) ∨
    ∃ tagId newTag, tagId ∉ s.tagMap ∧ tagId ≠ "" ∧ s'.tagMap = setKey s.tagMap tagId ∧
      newTag.children = .nil ∧
      ((truthyId newTag.parentId = none ∧ s'.categories = s.categories.set tagId newTag) ∨
        ∃ o n g, getTagById s o = some n ∧
          (truthyId newTag.parentId = none ∨ newTag.parentId = some o) ∧
          (∀ p : Tag, (g p).children = p.children.set tagId newTag ∧
            (g p).parentId = p.parentId) ∧
          s'.categories = s.categories.update o g) := by
  unfold addCategory at h
  split at h
  · simp only [Option.some.injEq, Prod.mk.injEq] at h
    exact Or.inl ⟨by rw [← h.1], by rw [← h.1]⟩
  · cases htr : truthyId parentId with
    | some pid =>
      rw [htr] at h
      simp only at h
      cases hget : getTagById s pid with
      | none =>
        rw [hget] at h
        simp only [Option.some.injEq, Prod.mk.injEq] at h
        exact Or.inl ⟨by rw [← h.1], by rw [← h.1]⟩
      | some parentTag =>
        rw [hget] at h
        simp only at h
        split at h
        · simp only [Option.some.injEq, Prod.mk.injEq] at h
          exact Or.inl ⟨by rw [← h.1], by rw [← h.1]⟩
        · cases hgen : generateTagId s.tagMap attempts 0 with
          | none => rw [hgen] at h; simp at h
          | some tagId =>
            rw [hgen] at h
            simp only [Option.map_some', Option.some.injEq, Prod.mk.injEq] at h
            obtain ⟨hs, -⟩ := h
            obtain ⟨hfresh, hne⟩ := generateTagId_spec hgen
            have hpid : parentId = some pid := by
              cases parentId with
              | none => simp [truthyId] at htr
              | some q =>
                simp only [truthyId] at htr
                split at htr
                · exact absurd htr (by simp)
                · exact htr
            right
            refine ⟨tagId, ⟨tagId, jsTrim categoryName, parentId, .nil, some []⟩, hfresh, hne,
              by rw [← hs], rfl, Or.inr ⟨pid, parentTag,
                (fun p => { p with
                  children := p.children.set tagId
                                ⟨tagId, jsTrim categoryName, parentId, .nil, some []⟩,
                  order := some (p.order.getD [] ++ [tagId]) }),
                hget, Or.inr hpid, fun _ => ⟨rfl, rfl⟩, by rw [← hs]⟩⟩
    | none =>
      rw [htr] at h
      simp only at h
      split at h
      · simp only [Option.some.injEq, Prod.mk.injEq] at h
        exact Or.inl ⟨by rw [← h.1]; rfl, by rw [← h.1]; rfl⟩
      · cases hgen : generateTagId s.tagMap attempts 0 with
        | none => rw [hgen] at h; simp at h
        | some tagId =>
          rw [hgen] at h
          simp only [Option.map_some', Option.some.injEq, Prod.mk.injEq] at h
          obtain ⟨hs, -⟩ := h
          obtain ⟨hfresh, hne⟩ := generateTagId_spec hgen
          right
          refine ⟨tagId, ⟨tagId, jsTrim categoryName, parentId, .nil, some []⟩, hfresh, hne,
            by rw [← hs], rfl, ?_⟩
          cases howner : (getCurrentTagTree s).2 with
          | none =>
            left
            refine ⟨htr, ?_⟩
            rw [← hs]
            simp only [howner]
          | some o =>
            right
            obtain ⟨n, hn⟩ := getCurrentTagTree_owner howner
            refine ⟨o, n,
              (fun p => { p with
                children := p.children.set tagId
                              ⟨tagId, jsTrim categoryName, parentId, .nil, some []⟩ }),
              hn, Or.inl htr, fun _ => ⟨rfl, rfl⟩, ?_⟩
            rw [← hs]
            simp only [howner]

theorem allKeys_set_of_not_mem {t : TagTree} {k : String} (v : Tag) (h : k ∉ t.keys) :
    (t.set k v).allKeys = t.allKeys ++ k :: v.children.allKeys := by
  rw [allKeys_eq_map_flat, flat_set_of_not_mem v h, List.map_append, List.map_cons,
    ← allKeys_eq_map_flat, ← allKeys_eq_map_flat]

theorem allKeys_update_perm {t : TagTree} {k : String} {g : Tag → Tag} {extra : List String}
    (hk : k ≠ "") {n : Tag} (hn : findTagById t k = some n)
    (hg : (g n).children.allKeys.Perm (n.children.allKeys ++ extra)) :
    (t.update k g).allKeys.Perm (t.allKeys ++ extra) := by
  induction t with
  | nil => simp [findTagById] at hn
  | node key id name parentId children order rest ihc ihr =>
    simp only [findTagById, if_neg hk] at hn
    simp only [TagTree.update]
    by_cases hkey : key = k
    · rw [if_pos hkey]
      rw [if_pos hkey] at hn
      cases hn
      simp only [TagTree.cons, TagTree.allKeys, List.cons_append, List.perm_cons]
      refine (hg.append_right _).trans ?_
      simp only [List.append_assoc]
      exact List.Perm.append_left _ List.perm_append_comm
    · rw [if_neg hkey]
      rw [if_neg hkey] at hn
      cases hc : findTagById children k with
      | some found =>
        rw [hc] at hn
        cases hn
        simp only [Option.isSome_some, if_true, TagTree.allKeys, List.cons_append,
          List.perm_cons]
        refine ((ihc hc).append_right _).trans ?_
        simp only [List.append_assoc]
        exact List.Perm.append_left _ List.perm_append_comm
      | none =>
        rw [hc] at hn
        simp only [Option.isSome_none, Bool.false_eq_true, if_false, TagTree.allKeys,
          List.cons_append, List.perm_cons, List.append_assoc]
        exact List.Perm.append_left _ (ihr hn)

theorem linksUp_set {t : TagTree} {k : String} {v : Tag} {p : Option String}
    (ht : t.linksUp p = true) (hv : truthyId v.parentId = none ∨ v.parentId = p)
    (hc : v.children.linksUp (some k) = true) (hk : k ∉ t.keys) :
    (t.set k v).linksUp p = true := by
  induction t with
  | nil =>
    simp only [TagTree.set, TagTree.cons, TagTree.linksUp, hc, Bool.and_true, Bool.or_eq_true,
      decide_eq_true_eq]
    exact hv
  | node key id name parentId children order rest ihc ihr =>
    simp only [TagTree.keys, List.mem_cons, not_or] at hk
    simp only [TagTree.linksUp, Bool.and_eq_true] at ht
    simp only [TagTree.set, if_neg (fun e : key = k => hk.1 e.symm), TagTree.linksUp,
      Bool.and_eq_true]
    exact ⟨ht.1, ihr ht.2 hk.2⟩

theorem linksUp_of_find {t : TagTree} {k : String} {n : Tag} {p : Option String}
    (ht : t.linksUp p = true) (hn : findTagById t k = some n) :
    n.children.linksUp (some k) = true := by
  induction t generalizing p with
  | nil => simp [findTagById] at hn
  | node key id name parentId children order rest ihc ihr =>
    simp only [TagTree.linksUp, Bool.and_eq_true] at ht
    simp only [findTagById] at hn
    split at hn
    · exact absurd hn (by simp)
    · split at hn
      · rename_i hkey
        cases hn
        exact hkey ▸ ht.1.2
      · cases hc : findTagById children k with
        | some found =>
          rw [hc] at hn
          cases hn
          exact ihc ht.1.2 hc
        | none =>
          rw [hc] at hn
          exact ihr ht.2 hn

theorem linksUp_update {t : TagTree} {k : String} {g : Tag → Tag} {p : Option String}
    (hk : k ≠ "") (ht : t.linksUp p = true) {n : Tag} (hn : findTagById t k = some n)
    (hpar : (g n).parentId = n.parentId)
    (hc : (g n).children.linksUp (some k) = true) :
    (t.update k g).linksUp p = true := by
  induction t generalizing p with
  | nil => rfl
  | node key id name parentId children order rest ihc ihr =>
    simp only [TagTree.linksUp, Bool.and_eq_true] at ht
    simp only [findTagById, if_neg hk] at hn
    simp only [TagTree.update]
    by_cases hkey : key = k
    · rw [if_pos hkey]
      rw [if_pos hkey] at hn
      cases hn
      simp only [TagTree.cons, TagTree.linksUp, Bool.and_eq_true]
      simp only at hpar
      rw [hpar, hkey]
      exact ⟨⟨ht.1.1, hc⟩, ht.2⟩
    · rw [if_neg hkey]
      rw [if_neg hkey] at hn
      cases hcf : findTagById children k with
      | some found =>
        rw [hcf] at hn
        cases hn
        simp only [Option.isSome_some, if_true, TagTree.linksUp, Bool.and_eq_true]
        exact ⟨⟨ht.1.1, ihc ht.1.2 hcf⟩, ht.2⟩
      | none =>
        rw [hcf] at hn
        simp only [Option.isSome_none, Bool.false_eq_true, if_false, TagTree.linksUp,
          Bool.and_eq_true]
        exact ⟨ht.1, ihr ht.2 hn⟩

theorem chain_of_linksUp (s : State) (t : TagTree) :
    ∀ (p : Option String),
      (∀ x v, (x, v) ∈ t.flat → getTagById s x = some v) →
      t.linksUp p = true → "" ∉ t.allKeys →
      (∀ pp, p = some pp → ∃ n q, chainFrom s n pp = some q) →
      ∀ x ∈ t.allKeys, ∃ n q, chainFrom s n x = some q := by
  induction t with
  | nil => intro p _ _ _ _ x hx; simp [TagTree.allKeys] at hx
  | node key id name parentId children order rest ihc ihr =>
    intro p hsub hl hne hp x hx
    simp only [TagTree.linksUp, Bool.and_eq_true, Bool.or_eq_true, decide_eq_true_eq] at hl
    obtain ⟨⟨hl1, hl2⟩, hl3⟩ := hl
    simp only [TagTree.allKeys, List.mem_cons, List.mem_append, not_or] at hne
    obtain ⟨hne1, hne2, hne3⟩ := hne
    have hget := hsub key ⟨id, name, parentId, children, order⟩ (by simp [TagTree.flat])
    have hkey : ∃ n q, chainFrom s n key = some q := by
      cases htr : truthyId parentId with
      | none => exact ⟨1, [name], by simp [chainFrom, hget, htr]⟩
      | some pp =>
        rcases hl1 with h | h
        · rw [h] at htr
          exact absurd htr (by simp)
        · have hpp : parentId = some pp := by
            cases parentId with
            | none => simp [truthyId] at htr
            | some q =>
              simp only [truthyId] at htr
              split at htr
              · exact absurd htr (by simp)
              · exact htr
          obtain ⟨n, q, hq⟩ := hp pp (by rw [← h, hpp])
          exact ⟨n + 1, q ++ [name], by simp [chainFrom, hget, htr, hq]⟩
    simp only [TagTree.allKeys, List.mem_cons, List.mem_append] at hx
    rcases hx with rfl | hx | hx
    · exact hkey
    · refine ihc (some key) (fun y v hv => hsub y v (by simp [TagTree.flat, hv])) hl2 hne2 ?_ x hx
      intro pp hpp
      cases hpp
      exact hkey
    · exact ihr p (fun y v hv => hsub y v (by simp [TagTree.flat, hv])) hl3 hne3 hp x hx

theorem reachable_invariant {s : State} (h : Reachable s) :
    s.categories.UniqueIds ∧ IndexMatchesTree s ∧ s.categories.linksUp none = true := by
  induction h with
  | empty => decide
  | select path _ ih => exact ih
  | @add s s' attempts categoryName parentId result _ hcall ih =>
    obtain ⟨hU, hidx, hl⟩ := ih
    rcases addCategory_shape hcall with ⟨hc, hm⟩ | ⟨tagId, newTag, hfresh, hne, hm, hnil, hplace⟩
    · refine ⟨hc ▸ hU, ?_, hc ▸ hl⟩
      unfold IndexMatchesTree
      rw [hc, hm]
      exact hidx
    · have hfreshTree : tagId ∉ s.categories.allKeys :=
        fun hmem => hfresh ((hidx.mem_iff tagId).mpr hmem)
      have hperm0 : s.tagMap.Perm s.categories.allKeys := List.isPerm_iff.mp hidx
      have hset : setKey s.tagMap tagId = s.tagMap ++ [tagId] := by simp [setKey, hfresh]
      have hfinish : ∀ c : TagTree, c.allKeys.Perm (s.categories.allKeys ++ [tagId]) →
          c.linksUp none = true → s'.categories = c →
          s'.categories.UniqueIds ∧ IndexMatchesTree s' ∧ s'.categories.linksUp none = true := by
        intro c hperm hlc hc
        refine ⟨?_, ?_, hc ▸ hlc⟩
        · rw [hc]
          constructor
          · rw [hperm.nodup_iff, List.nodup_append]
            refine ⟨hU.1, List.nodup_singleton _, ?_⟩
            intro a ha hb
            rw [List.mem_singleton] at hb
            exact hfreshTree (hb ▸ ha)
          · intro hmem
            have := hperm.mem_iff.mp hmem
            simp only [List.mem_append, List.mem_singleton] at this
            rcases this with h | h
            · exact hU.2 h
            · exact hne h.symm
        · unfold IndexMatchesTree
          rw [List.isPerm_iff, hm, hset, hc]
          exact (hperm0.append_right _).trans hperm.symm
      rcases hplace with ⟨hpar, hc⟩ | ⟨o, n, g, hgo, hpar, hg, hc⟩
      · refine hfinish _ ?_ ?_ hc
        · rw [allKeys_set_of_not_mem newTag
            (fun hk => hfreshTree ((keys_sublist_allKeys _).subset hk)), hnil]
          simp [TagTree.allKeys]
        · exact linksUp_set hl (Or.inl hpar) (by rw [hnil]; rfl)
            (fun hk => hfreshTree ((keys_sublist_allKeys _).subset hk))
      · obtain ⟨hfo, -⟩ := getTagById_eq_find hgo
        have hone := getTagById_ne_empty hgo
        have hsubkeys : tagId ∉ n.children.keys := fun hk =>
          hfreshTree ((findTagById_some_sub hfo).2.1 _ ((keys_sublist_allKeys _).subset hk))
        refine hfinish _ ?_ ?_ hc
        · refine allKeys_update_perm hone hfo ?_
          rw [(hg n).1, allKeys_set_of_not_mem newTag hsubkeys, hnil]
          simp [TagTree.allKeys]
        · refine linksUp_update hone hl hfo (hg n).2 ?_
          rw [(hg n).1]
          exact linksUp_set (linksUp_of_find hl hfo) hpar (by rw [hnil]; rfl) hsubkeys

/-- Claim C25 (acyclicity).  In every state reached from the empty state by calls of
`addCategory`, successful or not, with the selector path set to anything in between, the parent
chain of every indexed id ends after finitely many steps at a node with a falsy `parentId`, every
node on it being indexed; so no node is its own ancestor, and the ascent loop of
`getBreadcrumbPath` terminates and returns a path. -/
theorem acyclic_after_creates (s : State) (h : Reachable s) :
    ∀ x ∈ s.tagMap, (∃ n q, chainFrom s n x = some q) ∧
      ∃ path, getBreadcrumbPath s x = some (some path) := by
  obtain ⟨hU, hidx, hl⟩ := reachable_invariant h
  intro x hx
  have hchain : ∃ n q, chainFrom s n x = some q := by
    refine chain_of_linksUp s s.categories none ?_ hl hU.2 (fun pp hpp => by simp at hpp) x
      ((hidx.mem_iff x).mp hx)
    intro y v hv
    have hy := mem_allKeys_of_mem_flat hv
    have hyne : y ≠ "" := fun e => hU.2 (e ▸ hy)
    unfold getTagById
    rw [if_neg (by
      rw [not_or, not_not]
      exact ⟨hyne, (hidx.mem_iff y).mpr hy⟩)]
    exact find_of_mem_flat hU.1 hyne hv
  refine ⟨hchain, ?_⟩
  obtain ⟨n, q, hq⟩ := hchain
  have hlen := chainFrom_length n x q hq
  have hle := chainFrom_length_le_index hq
  have hasc := ascend_of_chain n x q hq (s.tagMap.length - q.length) []
  have hfuel : q.length + 1 + (s.tagMap.length - q.length) = s.tagMap.length + 1 := by omega
  rw [hfuel, List.append_nil] at hasc
  obtain ⟨tag, hget⟩ := getTagById_isSome_of_mem hidx
    (fun e => hU.2 (e ▸ (hidx.mem_iff x).mp hx)) hx
  refine ⟨String.intercalate " / " q, ?_⟩
  unfold getBreadcrumbPath
  rw [hget]
  simp only [hasc, Option.map_some']
  rw [if_pos (by simpa using hlen.1)]

/-- The state `nestedRootState`, made by two creations with the selector opened in between, is
reached, and the breadcrumb of its nested tag is found. -/
theorem acyclic_after_creates_witness :
    Reachable nestedRootState ∧
      ∃ path, getBreadcrumbPath nestedRootState "tag_2_cafe" = some (some path) :=
  have hreach : Reachable nestedRootState :=
    Reachable.add (s := openTagSelector oneTagState "tag_1_scene") [⟨"2", "cafe", ""⟩] "Cafe"
      none (some "tag_2_cafe")
      (Reachable.select ["tag_1_scene"]
        (Reachable.add (s := State.empty) [⟨"1", "scene", ""⟩] "Scene" none (some "tag_1_scene")
          Reachable.empty (by decide)))
      (by decide)
  ⟨hreach, (acyclic_after_creates nestedRootState hreach "tag_2_cafe" (by decide)).2⟩

end ClipFlow
